import Mathlib

/-!
# refec: secp256k1 arithmetic, ECDSA and Paillier

A shallow embedding of the Go sources `sampleec.go`, `sampleecdsa.go`,
`samplepaillier.go` and of the signing run in `sample2pecdsa_test.go`.

Conventions of the embedding:

* `*big.Int` values are `Int`; a `*big.Int` that may be nil is an `Option Int`.
* A `*Point` is an `Option Point` (`none` is the nil pointer); the struct fields
  `X`, `Y` are `Option Int` (`none` is a nil `*big.Int`).
* Byte slices are `List Nat`, every byte below 256.
* A function whose Go body can stop with a run-time panic (nil dereference,
  division by zero) returns an `Option` whose `none` is that panic.
* A Go result `(value, error)` is an `Except String`.
* Random draws and unbounded `for` loops are driven by an explicit list of draws
  (a function from the round to the draw where the number of rounds is fixed)
  or an explicit number of rounds.
-/

namespace Refec

/-! ## The `math/big` operations the sources use -/

namespace big

/-- Square-and-multiply: `acc * b ^ e mod m`, one bit of `e` per unit of fuel. -/
def powModAux (m : Nat) : Nat → Nat → Nat → Nat → Nat
  | 0, _, _, acc => acc
  | fuel + 1, b, e, acc =>
    if e = 0 then acc
    else powModAux m fuel (b * b % m) (e / 2) (if e % 2 = 1 then acc * b % m else acc)

/-- Modular power `b ^ e mod m` on naturals (`m = 0` gives `b ^ e`). -/
def powMod (b e m : Nat) : Nat := powModAux m e (b % m) e (1 % m)

/-- Go `new(big.Int).Exp(x, y, m)` for `y >= 0`: `x ** y mod |m|`, in `[0, |m|)`, and
`x ** y` when `m = 0`. Exponents below zero are used by no caller in the
sources; they are mapped to `1`. -/
def Exp (x y m : Int) : Int :=
  if y < 0 then 1
  else if m = 0 then x ^ y.toNat
  else (powMod (x % m).natAbs y.toNat m.natAbs : Nat)

/-- Number of binary digits of `v`, one per unit of fuel. -/
def bitLenAux : Nat → Nat → Nat
  | 0, _ => 0
  | fuel + 1, v => if v = 0 then 0 else bitLenAux fuel (v / 2) + 1

/-- Go `x.BitLen()`: the length of the absolute value of `x` in bits. -/
def BitLen (x : Int) : Nat := bitLenAux x.natAbs x.natAbs

/-- Go `x.Bit(i)`: the `i`-th bit of `x` (two's complement for a negative `x`). -/
def Bit (x : Int) (i : Nat) : Nat := if x.testBit i then 1 else 0

/-- Big-endian bytes of `v`, most significant first, pushed in front of `acc`. -/
def bytesAux : Nat → Nat → List Nat → List Nat
  | 0, _, acc => acc
  | fuel + 1, v, acc => if v = 0 then acc else bytesAux fuel (v / 256) (v % 256 :: acc)

/-- Go `x.Bytes()`: the absolute value of `x` as a big-endian byte slice without
leading zero bytes. -/
def Bytes (x : Int) : List Nat := bytesAux x.natAbs x.natAbs []

/-- Go `new(big.Int).SetBytes(bs)`: the big-endian unsigned integer in `bs`. -/
def SetBytes (bs : List Nat) : Int := (bs.foldl (fun acc b => acc * 256 + b) 0 : Nat)

/-- Go `new(big.Int).ModInverse(g, n)`: the inverse of `g` modulo `|n|` in `[0, |n|)`,
or nil when `g` and `n` are not relatively prime. -/
def ModInverse (g m : Int) : Option Int :=
  if Int.gcd g m = 1 then some (Int.gcdA g m % m) else none

end big

/-! ## sampleec.go -/

/-- The field prime of secp256k1. -/
def p : Int := 0xFFFFFFFFFFFFFFFFFFFFFFFFFFFFFFFFFFFFFFFFFFFFFFFFFFFFFFFEFFFFFC2F

/-- A coordinate pair; a nil coordinate marks the point at infinity. -/
structure Point where
  X : Option Int
  Y : Option Int
deriving DecidableEq, Repr

/-- Go `point.Infinite()` on a non-nil receiver. -/
def Point.Infinite (point : Point) : Bool := point.X.isNone || point.Y.isNone

/-- Go `point.Clone()` on a non-nil receiver: nil for the point at infinity, else a
copy whose coordinates went through `Bytes`/`SetBytes` (absolute values). -/
def Point.Clone (point : Point) : Option Point :=
  if point.Infinite then none
  else
    match point.X, point.Y with
    | some x, some y => some ⟨some (big.SetBytes (big.Bytes x)), some (big.SetBytes (big.Bytes y))⟩
    | _, _ => none

/-- The padding loop of `Compressed`: `for len(bs) != size { bs = append([]byte{0x00}, bs...) }`,
run for at most `fuel` rounds. -/
def leftPad (size : Nat) : Nat → List Nat → List Nat
  | 0, bs => bs
  | fuel + 1, bs => if bs.length ≠ size then leftPad size fuel (0 :: bs) else bs

/-- Go `point.Compressed()` on a non-nil receiver: nil for the point at infinity.
`X mod p` never needs more than `size` bytes, so `size` rounds of padding are
all the loop can take. -/
def Point.Compressed (point : Point) : Option (List Nat) :=
  if point.Infinite then none
  else
    match point.X, point.Y with
    | some x, some y =>
      let size := (big.Bytes p).length
      let bs := leftPad size size (big.Bytes (x % p))
      if big.Bit y 0 = 0 then some (0x02 :: bs) else some (0x03 :: bs)
    | _, _ => none

/-- Go `Decode(bs)`. -/
def Decode (bs : List Nat) : Except String Point :=
  let size := (big.Bytes p).length
  if bs.length = 1 + 2 * size then
    if bs.head? ≠ some 0x04 then .error "invalid format"
    else .ok ⟨some (big.SetBytes ((bs.drop 1).take size)), some (big.SetBytes (bs.drop (size + 1)))⟩
  else if bs.length ≠ 1 + size then .error "invalid length"
  else if bs.head? ≠ some 0x02 ∧ bs.head? ≠ some 0x03 then .error "invalid format"
  else
    let x := big.SetBytes (bs.drop 1)
    let y := big.Exp (big.Exp x 3 p + 7) ((p + 1) / 4) p
    let y := if (bs.head? ≠ some 0x02 ∧ big.Bit y 0 = 0) ∨ (bs.head? ≠ some 0x03 ∧ big.Bit y 0 = 1)
      then p - y else y
    .ok ⟨some x, some y⟩

/-- The bytes of the hex string `0279BE66...F81798`. -/
def GBytes : List Nat :=
  [0x02, 0x79, 0xBE, 0x66, 0x7E, 0xF9, 0xDC, 0xBB, 0xAC, 0x55, 0xA0, 0x62, 0x95, 0xCE, 0x87, 0x0B,
   0x07, 0x02, 0x9B, 0xFC, 0xDB, 0x2D, 0xCE, 0x28, 0xD9, 0x59, 0xF2, 0x81, 0x5B, 0x16, 0xF8, 0x17,
   0x98]

/-- The base point: `var G, _ = DecodeString("0279BE66...")`. -/
def G : Option Point :=
  match Decode GBytes with
  | .ok point => some point
  | .error _ => none

/-- The order of `G`, as the source declares it. -/
def n : Int := 0xFFFFFFFFFFFFFFFFFFFFFFFFFFFFFFFEBAAEDCE6AF48A03BBFD25E8CD0364141

/-- Go `Add(P, Q)` on non-nil arguments; the result may be the nil pointer. -/
def Add (P Q : Point) : Option Point :=
  if P.Infinite then Q.Clone
  else if Q.Infinite then P.Clone
  else
    match P.X, P.Y, Q.X, Q.Y with
    | some px, some py, some qx, some qy =>
      if px = qx ∧ qy ≠ qy then some ⟨none, none⟩
      else
        let s :=
          if px = qx ∧ py = qy then (3 * px * px * big.Exp (2 * py) (p - 2) p) % p
          else ((py - qy) * big.Exp (px - qx) (p - 2) p) % p
        let rx := (s * s - (px + qx)) % p
        let ry := (s * (px - rx) - py) % p
        some ⟨some rx, some ry⟩
    | _, _, _, _ => none

/-- Go `Add` called on pointers: dereferencing a nil argument panics. -/
def AddPtr : Option Point → Option Point → Option (Option Point)
  | some P, some Q => some (Add P Q)
  | _, _ => none

/-- The loop of `Mul`, `cnt` rounds from bit `i` on. -/
def MulLoop (x : Int) : Nat → Nat → Option Point → Option Point → Option (Option Point)
  | 0, _, R, _ => some R
  | cnt + 1, i, R, P =>
    match (if big.Bit x i = 1 then AddPtr R P else some R) with
    | none => none
    | some R1 =>
      match AddPtr P P with
      | none => none
      | some P1 => MulLoop x cnt (i + 1) R1 P1

/-- Go `Mul(x, P)`: double-and-add over the bits of `x`, least significant first. -/
def Mul (x : Int) (P : Option Point) : Option (Option Point) :=
  MulLoop x (big.BitLen x) 0 (some ⟨none, none⟩) P

/-! ## sampleecdsa.go -/

/-- The two primitives the source takes from the Go library, as fixed functions:
`sha256.Sum256` and HMAC-SHA-256 of a key and a message. -/
structure Hash where
  sha256 : List Nat → List Nat
  hmac : List Nat → List Nat → List Nat

/-- Go `H(m)`: the double hash of the message. -/
def H (hf : Hash) (m : List Nat) : List Nat := hf.sha256 (hf.sha256 m)

/-- Go `bits2int(m)` of RFC 6979, section 2.3.2. -/
def bits2int (m : List Nat) : Int :=
  let qlen := big.BitLen n
  let b := big.SetBytes m
  let blen := big.BitLen b
  if qlen < blen then b >>> (blen - qlen) else b

/-- Go `int2octets(x)` of RFC 6979, section 2.3.3. -/
def int2octets (x : Int) : List Nat :=
  let l := (big.Bytes n).length
  let bs := big.Bytes x
  if bs.length < l then List.replicate (l - bs.length) 0 ++ bs
  else if bs.length > l then bs.drop (bs.length - l)
  else bs

/-- Go `HMAC(key, values...)`: the values are concatenated and authenticated under `key`. -/
def HMAC (hf : Hash) (key : List Nat) (values : List (List Nat)) : List Nat :=
  hf.hmac key values.flatten

/-- The `for` loop of `nonceRFC6979`, at most `fuel` rounds; `none` when no round
has produced a `k` with `0 < k < n`. -/
def nonceLoop (hf : Hash) : Nat → List Nat → List Nat → Option Int
  | 0, _, _ => none
  | fuel + 1, K, V =>
    let T : List Nat := []
    let tlen := big.BitLen (big.SetBytes T)
    let qlen := big.BitLen n
    let V1 := if tlen < qlen then HMAC hf K [V] else V
    let T1 := if tlen < qlen then T ++ V1 else T
    let k := bits2int T1
    if 0 < k ∧ k < n then some k
    else
      let K1 := HMAC hf K [V1, [0x00]]
      nonceLoop hf fuel K1 (HMAC hf K1 [V1])

/-- Go `nonceRFC6979(m, x)`, with the loop bounded by `fuel` rounds. -/
def nonceRFC6979 (hf : Hash) (fuel : Nat) (m : List Nat) (x : Int) : Option Int :=
  let h1 := H hf m
  let V := List.replicate h1.length 0x01
  let K := List.replicate h1.length 0x00
  let K := HMAC hf K [V, [0x00], int2octets x, h1]
  let V := HMAC hf K [V]
  let K := HMAC hf K [V, [0x01], int2octets x, h1]
  let V := HMAC hf K [V]
  nonceLoop hf fuel K V

/-- Go `Sign(m, x)`; `none` when the nonce loop has not returned within `fuel` rounds
or when `Mul(k, G)` has no X coordinate to read (a nil dereference). -/
def Sign (hf : Hash) (fuel : Nat) (m : List Nat) (x : Int) : Option (Int × Int) :=
  let h := bits2int (H hf m) % n
  match nonceRFC6979 hf fuel m x with
  | none => none
  | some k =>
    match Mul k G with
    | some (some R) =>
      match R.X with
      | some r =>
        let s := ((h + x * r) * big.Exp k (n - 2) n) % n
        let half := n >>> 1
        let s := if s > half then n - s else s
        some (r, s)
      | none => none
    | _ => none

/-- Go `Verify(P, m, r, s)`; `none` when the Go code panics on a nil pointer. -/
def Verify (hf : Hash) (P : Option Point) (m : List Nat) (r s : Int) : Option Bool :=
  if r < 1 ∧ r ≥ n then some false
  else if s < 1 ∧ s ≥ n then some false
  else
    let e := bits2int (H hf m)
    let w := big.Exp s (n - 2) n
    let u1 := (e * w) % n
    let u2 := (r * w) % n
    match Mul u1 G with
    | none => none
    | some A =>
      match Mul u2 P with
      | none => none
      | some B =>
        match AddPtr A B with
        | some (some V) =>
          if V.Infinite then some false
          else
            match V.X with
            | some vx => if r ≠ vx then some false else some true
            | none => none
        | _ => none

/-- Go `DER(r, s)`: the DER form of the signature `(r, s)`. The conversion
`byte(...)` of a length keeps its low eight bits. -/
def DER (r s : Int) : List Nat :=
  let sig := [0x30]
  let rbs := big.Bytes r
  let rbs := if big.BitLen r = rbs.length * 8 then 0x00 :: rbs else rbs
  let sbs := big.Bytes s
  let sbs := if big.BitLen s = sbs.length * 8 then 0x00 :: sbs else sbs
  let sig := sig ++ [(rbs.length + sbs.length + 4) % 256]
  let sig := sig ++ [0x02]
  let sig := sig ++ [rbs.length % 256]
  let sig := sig ++ rbs
  let sig := sig ++ [0x02]
  let sig := sig ++ [sbs.length % 256]
  let sig := sig ++ sbs
  sig

/-! ## samplepaillier.go -/

/-- The `for` loop of `gcd`: `for b != 0 { r := a mod b; a = b; b = r }`. -/
def gcdLoop (a b : Int) : Int :=
  if h : b = 0 then a else gcdLoop b (a % b)
termination_by b.natAbs
decreasing_by
  have h1 : 0 ≤ a % b := Int.emod_nonneg a h
  have h2 : a % b < |b| := Int.emod_lt a h
  have h3 : |b| = (b.natAbs : Int) := Int.abs_eq_natAbs b
  omega

/-- Go `gcd(a, b)`: the arguments are swapped when `a < b`, then the loop runs. -/
def gcd (a b : Int) : Int := if a < b then gcdLoop b a else gcdLoop a b

/-- Go `lcm(a, b)`. -/
def lcm (a b : Int) : Int := (a * b) / gcd a b

/-- A Paillier public key. -/
structure PublicKey where
  n : Int
  g : Int
  n2 : Int
deriving DecidableEq, Repr

/-- A Paillier private key. -/
structure PrivateKey where
  lam : Int
  mu : Int
  n : Int
  n2 : Int
deriving DecidableEq, Repr

/-- The loop `for { r = Rnd(pub.n); if gcd(r, pub.n) == 1 { break } }` over the
successive values of `Rnd(pub.n)`: the first draw that passes, `none` when the
listed draws all fail. -/
def drawUnit (N : Int) : List Int → Option Int
  | [] => none
  | r :: rs => if gcd r N = 1 then some r else drawUnit N rs

/-- Go `pub.Encryption(m)` with the successive values of `Rnd(pub.n)` in `draws`.
`none`: no listed draw passed the test, or the final `Mod` divides by zero. -/
def PublicKey.Encryption (pub : PublicKey) (m : Int) (draws : List Int) :
    Option (Except String Int) :=
  if m < 0 ∨ m ≥ pub.n then some (.error "m is out of range")
  else
    match drawUnit pub.n draws with
    | none => none
    | some r =>
      if pub.n2 = 0 then none
      else some (.ok ((big.Exp pub.g m pub.n2 * big.Exp r pub.n pub.n2) % pub.n2))

/-- Go `pub.Mul(c1, c2)`; `none` when `Mod` divides by zero. -/
def PublicKey.Mul (pub : PublicKey) (c1 c2 : Int) : Option Int :=
  if pub.n2 = 0 then none else some ((c1 * c2) % pub.n2)

/-- Go `pub.Exp(c, m)`. -/
def PublicKey.Exp (pub : PublicKey) (c m : Int) : Int := big.Exp c m pub.n2

/-- Go `L(x, n)`: `(x - 1) / n`, nil (`some none`) when `n` does not divide `x - 1`;
`none` when `Mod` divides by zero. -/
def L (x m : Int) : Option (Option Int) :=
  if m = 0 then none
  else if (x - 1) % m ≠ 0 then some none
  else some (some ((x - 1) / m))

/-- Go `pri.Decryption(c)`; `none` when the Go code panics (`L` divides by zero, or
`L` returns nil and the product dereferences it). -/
def PrivateKey.Decryption (pri : PrivateKey) (c : Int) : Option (Except String Int) :=
  if c ≤ 0 ∨ c ≥ pri.n2 then some (.error "c is out of range")
  else
    match L (big.Exp c pri.lam pri.n2) pri.n with
    | some (some l) => some (.ok ((l * pri.mu) % pri.n))
    | _ => none

/-- The body of `KeyGeneration` once the primes `p`, `q` are drawn (`p ≠ q`), for
one draw `g` of `Rnd(n2)`: the key pair when `g` passes both `gcd` tests, `none`
when the loop moves on to another draw. -/
def keysFrom (pp qq g : Int) : Option (PublicKey × PrivateKey) :=
  let N := pp * qq
  let N2 := N * N
  let lam := lcm (pp - 1) (qq - 1)
  if gcd g N2 ≠ 1 then none
  else
    match L (big.Exp g lam N2) N with
    | some (some mu) =>
      if gcd mu N ≠ 1 then none
      else
        match big.ModInverse mu N with
        | some mu1 => some (⟨N, g, N2⟩, ⟨lam, mu1, N, N2⟩)
        | none => none
    | _ => none

/-- The loop `for d.Bit(0) == 0 { d.Rsh(d, 1); s.Add(s, ONE) }` of `isProbablyPrime`,
at most `fuel` rounds; `none` when the loop has not left within them. The
counter `s` only counts up from zero and is a natural number here. -/
def splitLoop : Nat → Int → Nat → Option (Int × Nat)
  | 0, _, _ => none
  | fuel + 1, d, s => if big.Bit d 0 = 0 then splitLoop fuel (d >>> (1 : Nat)) (s + 1) else some (d, s)

/-- The inner loop of `isProbablyPrime`,
`for r := 0; r < s; r++ { if t == nm1 { flg = true; break }; t = t^2 mod n }`,
with `cnt` rounds left: the final value of `flg`. -/
def witnessLoop (n nm1 : Int) : Nat → Int → Bool
  | 0, _ => false
  | cnt + 1, t => if t = nm1 then true else witnessLoop n nm1 cnt (big.Exp t 2 n)

/-- The loop `for i := 0; i < k; i++` of `isProbablyPrime` with `cnt` rounds left
from round `i` on; `rnd i` is the value `Rnd(nm1)` returns in round `i`. -/
def roundsLoop (n d : Int) (s : Nat) (rnd : Nat → Int) : Nat → Nat → Bool
  | 0, _ => true
  | cnt + 1, i =>
    let nm1 := n - 1
    let a := rnd i + 1
    let t := big.Exp a d n
    if t = 1 then roundsLoop n d s rnd cnt (i + 1)
    else if witnessLoop n nm1 s t then roundsLoop n d s rnd cnt (i + 1)
    else false

/-- Go `isProbablyPrime(n)`, the Miller-Rabin test with `k = 512` rounds, for the
values `rnd 0`, `rnd 1`, ... of the successive calls `Rnd(nm1)`. `none` when the
loop that splits `n - 1` into `2^s * d` has not left within `|n - 1|` rounds. -/
def isProbablyPrime (n : Int) (rnd : Nat → Int) : Option Bool :=
  if n ≤ 1 then some false
  else if n = 2 then some true
  else if big.Bit n 0 = 0 then some false
  else
    match splitLoop (n - 1).natAbs (n - 1) 0 with
    | none => none
    | some (d, s) => some (roundsLoop n d s rnd 512 0)

/-! ## sample2pecdsa_test.go -/

/-- Lines 46-75 of `Test2PECDSA`: `ckey = Enc(xa)`, Bob's ciphertexts `c1`, `c2`,
`c3` and Alice's decryption `sd` of `c3`, for the hash value `md`, the shared `r`
and the draws of the two encryptions. `none` when a step panics or does not
return; an error when the test logs one and stops. -/
def twoPartySd (pub : PublicKey) (pri : PrivateKey) (xa xb kb r md rho : Int)
    (draws1 draws2 : List Int) : Option (Except String Int) :=
  match pub.Encryption xa draws1 with
  | none => none
  | some (.error e) => some (.error e)
  | some (.ok ckey) =>
    match big.ModInverse kb n with
    | none => none
    | some kbinv =>
      match pub.Encryption (kbinv * md + rho * n) draws2 with
      | none => none
      | some (.error e) => some (.error e)
      | some (.ok c1) =>
        let c2 := pub.Exp ckey (xb * r * kbinv)
        match pub.Mul c1 c2 with
        | none => none
        | some c3 => pri.Decryption c3

/-- Lines 80-83 of `Test2PECDSA`: `s = sd * ka^-1 mod n`. -/
def twoPartyS (sd ka : Int) : Option Int :=
  match big.ModInverse ka n with
  | none => none
  | some kainv => some ((sd * kainv) % n)

end Refec

/-! ## Definitions used by the proofs -/

namespace Refec

/-- The field prime as a natural number. -/
def pNat : Nat := 0xFFFFFFFFFFFFFFFFFFFFFFFFFFFFFFFFFFFFFFFFFFFFFFFFFFFFFFFEFFFFFC2F

/-- The group order as a natural number. -/
def nNat : Nat := 0xFFFFFFFFFFFFFFFFFFFFFFFFFFFFFFFEBAAEDCE6AF48A03BBFD25E8CD0364141

/-- Check of a Lucas certificate for `N`: `a` has order `N - 1` modulo `N`, where
every prime factor of `N - 1` is listed in `qs` (`N - 1` divides `qs.prod ^ k`). -/
def lucasCheck (N a : Nat) (qs : List Nat) (k : Nat) : Bool :=
  decide (1 < N) && decide (big.powMod a (N - 1) N = 1) &&
  qs.all (fun q => decide (big.powMod a ((N - 1) / q) N ≠ 1)) &&
  decide (qs.prod ^ k % (N - 1) = 0)

end Refec

namespace Refec

/-- The curve `y ^ 2 = x ^ 3 + 7` over the integers modulo `pNat`. -/
def secp : WeierstrassCurve.Affine (ZMod pNat) :=
  { a₁ := 0, a₂ := 0, a₃ := 0, a₄ := 0, a₆ := 7 }

/-- The curve equation on integer coordinates, as the sources compute modulo `p`. -/
def OnCurve (x y : Int) : Prop := (y * y) % p = (x * x * x + 7) % p

instance (x y : Int) : Decidable (OnCurve x y) := by
  unfold OnCurve
  infer_instance

/-- The slope `Add` computes for two points with coordinates. -/
def slopeZ (x1 y1 x2 y2 : Int) : Int :=
  if x1 = x2 ∧ y1 = y2 then (3 * x1 * x1 * big.Exp (2 * y1) (p - 2) p) % p
  else ((y1 - y2) * big.Exp (x1 - x2) (p - 2) p) % p

/-- The relation `Rep pt Q`: the value `pt` of the sources stands for the curve point `Q`:
the point at infinity for the zero of the group, reduced coordinates for an
affine point. -/
inductive Rep : Point → secp.Point → Prop
  | inf (pt : Point) (h : pt.Infinite = true) : Rep pt 0
  | fin (x y : Int) (hx0 : 0 ≤ x) (hx : x < p) (hy0 : 0 ≤ y) (hy : y < p)
      (h : secp.Nonsingular (x : ZMod pNat) (y : ZMod pNat)) :
      Rep ⟨some x, some y⟩ (WeierstrassCurve.Affine.Point.some h)

/-- The loop of `Mul` with the side conditions of the chord-and-tangent rule
checked on the way, returning the final `R` and `P`: `none` as soon as an
addition meets two points with equal X, or a doubling meets `Y = 0`. -/
def MulLoopChecked (x : Int) : Nat → Nat → Point → Point → Option (Point × Point)
  | 0, _, R, P => some (R, P)
  | cnt + 1, i, R, P =>
    if P.Infinite || P.Y = some 0 then none
    else
      let R1 :=
        if big.Bit x i = 1 then
          (if !R.Infinite && R.X = P.X then none else Add R P)
        else some R
      match R1, Add P P with
      | some R1, some P1 => MulLoopChecked x cnt (i + 1) R1 P1
      | _, _ => none

/-- X coordinate of `2^255 G`. -/
def X255 : Int := 0xb23790a42be63e1b251ad6c94fdef07271ec0aada31db6c3e8bd32043f8be384

/-- Y coordinate of `2^255 G`. -/
def Y255 : Int := 0xfc6b694919d55edbe8d50f88aa81f94517f004f4149ecb58d10a473deb19880e

/-- X coordinate of the base point. -/
def Gx : Int := 0x79BE667EF9DCBBAC55A06295CE870B07029BFCDB2DCE28D959F2815B16F81798

/-- Y coordinate of the base point. -/
def Gy : Int := 0x483ADA7726A3C4655DA4FBFC0E1108A8FD17B448A68554199C47D08FFB10D4B8

end Refec

namespace Refec

/-- A `Hash` whose two functions ignore their input: `sha256` returns `d` and
`hmac` returns `v`. -/
def constHash (d v : List Nat) : Hash := ⟨fun _ => d, fun _ _ => v⟩

/-- The 32-byte big-endian encoding of 1. -/
def bytesOne : List Nat := List.replicate 31 0 ++ [1]

/-- Thirty-two zero bytes. -/
def bytesZero : List Nat := List.replicate 32 0

/-- The 32-byte big-endian encoding of `n - Gx`. -/
def bytesNegGx : List Nat :=
  [0x86, 0x41, 0x99, 0x81, 0x06, 0x23, 0x44, 0x53, 0xaa, 0x5f, 0x9d, 0x6a, 0x31, 0x78, 0xf4, 0xf7,
   0xb8, 0x12, 0xe0, 0x0b, 0x81, 0x7a, 0x77, 0x62, 0x65, 0xdf, 0xdd, 0x31, 0xb9, 0x3e, 0x29, 0xa9]

end Refec

namespace Refec

/-- The public key `KeyGeneration` builds from the primes 3 and 5 with `g = 16`. -/
def pubSmall : PublicKey := ⟨15, 16, 225⟩

/-- The private key that goes with `pubSmall`. -/
def priSmall : PrivateKey := ⟨4, 4, 15, 225⟩

/-- The public key `KeyGeneration` builds from the primes `pNat` and `nNat` with
`g = N + 1`. -/
def pubBig : PublicKey :=
  ⟨(pNat : Int) * nNat, (pNat : Int) * nNat + 1, (pNat : Int) * nNat * ((pNat : Int) * nNat)⟩

/-- The private key that goes with `pubBig`. -/
def priBig : PrivateKey :=
  ⟨2234634654990432849929004166367641021238215826767191291571707378398254532167475902984296517123225539202576657105730699764493290075143829571044458305451072,
   4241748026486322367464134393361058223577497720245067748238963722010443451706752935849303057489451278250717420082553129961152466795641789967731682260800692,
   (pNat : Int) * nNat, (pNat : Int) * nNat * ((pNat : Int) * nNat)⟩

end Refec

namespace Refec

/-- The bytes `DER` writes for one integer: `x.Bytes()`, with a zero byte in front
when `x.BitLen()` fills the bytes to the last bit. -/
def derInt (x : Int) : List Nat :=
  if big.BitLen x = (big.Bytes x).length * 8 then 0x00 :: big.Bytes x else big.Bytes x

/-- The byte string `R` is the minimal two's-complement big-endian encoding of the
positive integer `x`: its big-endian value is `x`, every entry is a byte, the
high bit of the first byte is clear, and a leading zero byte is followed by a
byte whose high bit is set. -/
def MinimalEnc (x : Int) (R : List Nat) : Prop :=
  big.SetBytes R = x ∧ (∀ b ∈ R, b < 256) ∧
    ∃ t rest, R = t :: rest ∧ t < 128 ∧ (t = 0 → ∃ u rest2, rest = u :: rest2 ∧ 128 ≤ u)

end Refec

namespace Refec

/-- One round of the loop of `isProbablyPrime` for the witness `a`: the round goes
on to the next one (`t = 1` at once, or the inner loop sets `flg`) instead of
returning false. -/
def roundPasses (n d : Int) (s : Nat) (a : Int) : Bool :=
  decide (big.Exp a d n = 1) || witnessLoop n (n - 1) s (big.Exp a d n)

/-- The witness `a` fails its round of the Miller-Rabin test of `n`, where
`n - 1 = 2^s * d`: `a^d mod n` is not 1, and none of `a^(2^r * d) mod n` with
`r < s` is `n - 1`. -/
def failsRound (n : Int) (d s : Nat) (a : Int) : Prop :=
  a ^ d % n ≠ 1 ∧ ∀ r, r < s → a ^ (2 ^ r * d) % n ≠ n - 1

instance (n : Int) (d s : Nat) (a : Int) : Decidable (failsRound n d s a) := by
  unfold failsRound
  infer_instance

end Refec

namespace Refec

/-- The public key `KeyGeneration` builds from the 3-bit primes 5 and 7 with
`g = 36`. -/
def pub35 : PublicKey := ⟨35, 36, 1225⟩

/-- The private key that goes with `pub35`. -/
def pri35 : PrivateKey := ⟨12, 3, 35, 1225⟩

end Refec

/-! ## Facts about the `math/big` operations -/

namespace Refec
namespace big

theorem powModAux_eq (m : Nat) : ∀ (fuel b e acc : Nat), e ≤ fuel → acc % m = acc →
    powModAux m fuel b e acc = (acc * b ^ e) % m := by
  intro fuel
  induction fuel with
  | zero =>
    intro b e acc he hacc
    have h0 : e = 0 := by omega
    subst h0
    simp [powModAux, hacc]
  | succ f ih =>
    intro b e acc he hacc
    unfold powModAux
    by_cases h0 : e = 0
    · subst h0
      simp [hacc]
    · have hacc1 : (if e % 2 = 1 then acc * b % m else acc) % m
          = (if e % 2 = 1 then acc * b % m else acc) := by
        split_ifs
        · exact Nat.mod_mod _ _
        · exact hacc
      rw [if_neg h0, ih _ _ _ (by omega) hacc1]
      have hB : (b * b % m) ^ (e / 2) ≡ b ^ (2 * (e / 2)) [MOD m] := by
        rw [pow_mul, sq]
        exact (Nat.mod_modEq _ _).pow _
      have hA : (if e % 2 = 1 then acc * b % m else acc) ≡ acc * b ^ (e % 2) [MOD m] := by
        split_ifs with h1
        · rw [h1, pow_one]
          exact Nat.mod_modEq _ _
        · have h2 : e % 2 = 0 := by omega
          rw [h2, pow_zero, mul_one]
      have hE : acc * b ^ e = acc * b ^ (e % 2) * b ^ (2 * (e / 2)) := by
        rw [mul_assoc, ← pow_add, Nat.mod_add_div]
      rw [hE]
      exact hA.mul hB

theorem powMod_eq (b e m : Nat) : powMod b e m = b ^ e % m := by
  unfold powMod
  rw [powModAux_eq m e (b % m) e (1 % m) le_rfl (Nat.mod_mod _ _)]
  have h : 1 % m * (b % m) ^ e ≡ 1 * b ^ e [MOD m] :=
    (Nat.mod_modEq _ _).mul ((Nat.mod_modEq _ _).pow _)
  rw [one_mul] at h
  exact h

theorem Exp_eq (x y m : Int) (hy : 0 ≤ y) (hm : m ≠ 0) : Exp x y m = x ^ y.toNat % m := by
  unfold Exp
  rw [if_neg (not_lt.mpr hy), if_neg hm, powMod_eq]
  push_cast
  rw [abs_of_nonneg (Int.emod_nonneg x hm), Int.emod_abs]
  exact (Int.mod_modEq x m).pow _

theorem Exp_nonneg (x y m : Int) (hy : 0 ≤ y) (hm : m ≠ 0) : 0 ≤ Exp x y m := by
  rw [Exp_eq x y m hy hm]
  exact Int.emod_nonneg _ hm

theorem Exp_lt (x y m : Int) (hy : 0 ≤ y) (hm : 0 < m) : Exp x y m < m := by
  rw [Exp_eq x y m hy hm.ne']
  exact Int.emod_lt_of_pos _ hm

/-- The value `Exp` returns, read in `ZMod N`, is the power of the base. -/
theorem Exp_cast (N : Nat) (hN : N ≠ 0) (x : Int) (e : Nat) :
    ((Exp x e N : Int) : ZMod N) = (x : ZMod N) ^ e := by
  rw [Exp_eq x e N (Int.natCast_nonneg e) (by exact_mod_cast hN), ZMod.intCast_mod]
  simp

theorem lt_two_pow_bitLenAux : ∀ (fuel v : Nat), v ≤ fuel → v < 2 ^ bitLenAux fuel v := by
  intro fuel
  induction fuel with
  | zero =>
    intro v hv
    have h0 : v = 0 := by omega
    subst h0
    simp [bitLenAux]
  | succ f ih =>
    intro v hv
    unfold bitLenAux
    by_cases h0 : v = 0
    · subst h0
      simp
    · rw [if_neg h0, pow_succ]
      have := ih (v / 2) (by omega)
      omega

theorem lt_two_pow_BitLen (k : Nat) : k < 2 ^ BitLen (k : Int) := by
  unfold BitLen
  simpa using lt_two_pow_bitLenAux k k le_rfl

theorem Bit_natCast (k i : Nat) : Bit (k : Int) i = k / 2 ^ i % 2 := by
  unfold Bit
  have h : (k : Int).testBit i = k.testBit i := rfl
  rw [h, Nat.testBit_to_div_mod]
  rcases Nat.mod_two_eq_zero_or_one (k / 2 ^ i) with h1 | h1 <;> simp [h1]

theorem Bit_natCast' (k i : Nat) : k / 2 ^ i % 2 = Bit (k : Int) i := (Bit_natCast k i).symm

theorem bytesAux_eq : ∀ (fuel v : Nat) (acc : List Nat), v ≤ fuel →
    bytesAux fuel v acc = (Nat.digits 256 v).reverse ++ acc := by
  intro fuel
  induction fuel with
  | zero =>
    intro v acc hv
    have h0 : v = 0 := by omega
    subst h0
    simp [bytesAux]
  | succ f ih =>
    intro v acc hv
    unfold bytesAux
    by_cases h0 : v = 0
    · subst h0
      simp
    · rw [if_neg h0, ih _ _ (by omega)]
      have hd : Nat.digits 256 v = v % 256 :: Nat.digits 256 (v / 256) :=
        Nat.digits_def' (by norm_num) (Nat.pos_of_ne_zero h0)
      rw [hd]
      simp

theorem Bytes_eq (x : Int) : Bytes x = (Nat.digits 256 x.natAbs).reverse := by
  unfold Bytes
  rw [bytesAux_eq _ _ _ le_rfl]
  simp

theorem SetBytes_eq (bs : List Nat) : SetBytes bs = (Nat.ofDigits 256 bs.reverse : Nat) := by
  unfold SetBytes
  congr 1
  rw [Nat.ofDigits_eq_foldr, List.foldr_reverse]
  simp [add_comm, mul_comm]

theorem SetBytes_Bytes (x : Int) : SetBytes (Bytes x) = |x| := by
  rw [SetBytes_eq, Bytes_eq, List.reverse_reverse, Nat.ofDigits_digits, Int.abs_eq_natAbs]

theorem SetBytes_nonneg (bs : List Nat) : 0 ≤ SetBytes bs := by
  unfold SetBytes
  exact Int.natCast_nonneg _

theorem Bytes_length_le (x : Int) (k : Nat) (h : x.natAbs < 256 ^ k) : (Bytes x).length ≤ k := by
  rw [Bytes_eq, List.length_reverse]
  by_cases h0 : x.natAbs = 0
  · rw [h0]
    simp
  · have h1 := Nat.base_pow_length_digits_le 256 x.natAbs (by norm_num) h0
    have h2 : 256 ^ (Nat.digits 256 x.natAbs).length < 256 ^ (k + 1) := by
      rw [pow_succ]
      omega
    have h3 := (Nat.pow_lt_pow_iff_right (a := 256) (by norm_num)).mp h2
    omega

theorem ModInverse_spec (g m x : Int) (hm : m ≠ 0) (h : ModInverse g m = some x) :
    g * x % m = 1 % m ∧ 0 ≤ x ∧ x < |m| := by
  unfold ModInverse at h
  split_ifs at h with hg
  simp only [Option.some.injEq] at h
  subst h
  refine ⟨?_, Int.emod_nonneg _ hm, Int.emod_lt _ hm⟩
  have hb := Int.gcd_eq_gcd_ab g m
  rw [hg] at hb
  have h1 : g * (g.gcdA m % m) ≡ g * g.gcdA m [ZMOD m] := (Int.mod_modEq _ _).mul_left _
  have h2 : g * g.gcdA m ≡ 1 [ZMOD m] := by
    have : g * g.gcdA m = 1 - m * g.gcdB m := by
      have : ((1 : Nat) : Int) = 1 := rfl
      linarith
    rw [this]
    exact Int.modEq_sub_fac _ (Int.ModEq.refl 1)
  exact h1.trans h2

theorem ModInverse_isSome (g m : Int) (h : Int.gcd g m = 1) :
    ∃ x, ModInverse g m = some x := by
  unfold ModInverse
  rw [if_pos h]
  exact ⟨_, rfl⟩

end big
end Refec

/-! ## Primality of the two secp256k1 constants -/

namespace Refec

theorem prime_of_lucasCheck (N a : Nat) (qs : List Nat) (k : Nat)
    (hq : ∀ q ∈ qs, q.Prime) (h : lucasCheck N a qs k = true) : N.Prime := by
  simp only [lucasCheck, Bool.and_eq_true, decide_eq_true_eq, List.all_eq_true] at h
  obtain ⟨⟨⟨h1, h2⟩, h3⟩, h4⟩ := h
  have hone : ∀ e : Nat, big.powMod a e N = 1 ↔ (a : ZMod N) ^ e = 1 := by
    intro e
    rw [big.powMod_eq]
    have : ((a : ZMod N) ^ e = 1) ↔ (((a ^ e : Nat) : ZMod N) = ((1 : Nat) : ZMod N)) := by
      push_cast
      exact Iff.rfl
    rw [this, ZMod.natCast_eq_natCast_iff', Nat.mod_eq_of_lt h1]
  apply lucas_primality N (a : ZMod N)
  · exact (hone _).mp h2
  · intro r hr hdvd
    have hrk : r ∣ qs.prod ^ k := dvd_trans hdvd (Nat.dvd_of_mod_eq_zero h4)
    have hrp : r ∣ qs.prod := hr.dvd_of_dvd_pow hrk
    obtain ⟨q, hqm, hrq⟩ := (Prime.dvd_prod_iff hr.prime).mp hrp
    have hrq' : r = q := (Nat.prime_dvd_prime_iff_eq hr (hq q hqm)).mp hrq
    subst hrq'
    intro hcon
    exact h3 r hqm ((hone _).mpr hcon)

set_option maxRecDepth 100000 in
theorem prime_13331831 : Nat.Prime 13331831 := by
  refine prime_of_lucasCheck _ 13 [2, 5, 971, 1373] 1 ?_ (by decide)
  intro q hq
  simp only [List.mem_cons, List.mem_singleton, List.not_mem_nil, or_false] at hq
  rcases hq with rfl | rfl | rfl | rfl
  · norm_num
  · norm_num
  · norm_num
  · norm_num

set_option maxRecDepth 100000 in
theorem prime_173378833005251801 : Nat.Prime 173378833005251801 := by
  refine prime_of_lucasCheck _ 6 [2, 5, 2621, 24809, 13331831] 3 ?_ (by decide)
  intro q hq
  simp only [List.mem_cons, List.mem_singleton, List.not_mem_nil, or_false] at hq
  rcases hq with rfl | rfl | rfl | rfl | rfl
  · norm_num
  · norm_num
  · norm_num
  · norm_num
  · exact prime_13331831

set_option maxRecDepth 100000 in
theorem prime_22149492674086928081353 : Nat.Prime 22149492674086928081353 := by
  refine prime_of_lucasCheck _ 5 [2, 3, 5323, 173378833005251801] 3 ?_ (by decide)
  intro q hq
  simp only [List.mem_cons, List.mem_singleton, List.not_mem_nil, or_false] at hq
  rcases hq with rfl | rfl | rfl | rfl
  · norm_num
  · norm_num
  · norm_num
  · exact prime_173378833005251801

set_option maxRecDepth 100000 in
theorem prime_132896956044521568488119 : Nat.Prime 132896956044521568488119 := by
  refine prime_of_lucasCheck _ 6 [2, 3, 22149492674086928081353] 1 ?_ (by decide)
  intro q hq
  simp only [List.mem_cons, List.mem_singleton, List.not_mem_nil, or_false] at hq
  rcases hq with rfl | rfl | rfl
  · norm_num
  · norm_num
  · exact prime_22149492674086928081353

set_option maxRecDepth 100000 in
theorem prime_1206781 : Nat.Prime 1206781 := by
  refine prime_of_lucasCheck _ 10 [2, 3, 5, 20113] 2 ?_ (by decide)
  intro q hq
  simp only [List.mem_cons, List.mem_singleton, List.not_mem_nil, or_false] at hq
  rcases hq with rfl | rfl | rfl | rfl
  · norm_num
  · norm_num
  · norm_num
  · norm_num

set_option maxRecDepth 100000 in
theorem prime_7240687 : Nat.Prime 7240687 := by
  refine prime_of_lucasCheck _ 3 [2, 3, 1206781] 1 ?_ (by decide)
  intro q hq
  simp only [List.mem_cons, List.mem_singleton, List.not_mem_nil, or_false] at hq
  rcases hq with rfl | rfl | rfl
  · norm_num
  · norm_num
  · exact prime_1206781

set_option maxRecDepth 100000 in
theorem prime_107590001 : Nat.Prime 107590001 := by
  refine prime_of_lucasCheck _ 3 [2, 5, 7, 29, 53] 4 ?_ (by decide)
  intro q hq
  simp only [List.mem_cons, List.mem_singleton, List.not_mem_nil, or_false] at hq
  rcases hq with rfl | rfl | rfl | rfl | rfl
  · norm_num
  · norm_num
  · norm_num
  · norm_num
  · norm_num

set_option maxRecDepth 100000 in
theorem prime_255515944373312847190720520512484175977 : Nat.Prime 255515944373312847190720520512484175977 := by
  refine prime_of_lucasCheck _ 3 [2, 7, 11, 1627, 2657, 4423, 41201, 96557, 7240687, 107590001] 3 ?_ (by decide)
  intro q hq
  simp only [List.mem_cons, List.mem_singleton, List.not_mem_nil, or_false] at hq
  rcases hq with rfl | rfl | rfl | rfl | rfl | rfl | rfl | rfl | rfl | rfl
  · norm_num
  · norm_num
  · norm_num
  · norm_num
  · norm_num
  · norm_num
  · norm_num
  · norm_num
  · exact prime_7240687
  · exact prime_107590001

set_option maxRecDepth 100000 in
theorem prime_205115282021455665897114700593932402728804164701536103180137503955397371 : Nat.Prime 205115282021455665897114700593932402728804164701536103180137503955397371 := by
  refine prime_of_lucasCheck _ 10 [2, 3, 5, 29, 31, 7723, 132896956044521568488119, 255515944373312847190720520512484175977] 2 ?_ (by decide)
  intro q hq
  simp only [List.mem_cons, List.mem_singleton, List.not_mem_nil, or_false] at hq
  rcases hq with rfl | rfl | rfl | rfl | rfl | rfl | rfl | rfl
  · norm_num
  · norm_num
  · norm_num
  · norm_num
  · norm_num
  · norm_num
  · exact prime_132896956044521568488119
  · exact prime_255515944373312847190720520512484175977

set_option maxRecDepth 100000 in
theorem prime_pNat : Nat.Prime pNat := by
  refine prime_of_lucasCheck _ 3 [2, 3, 7, 13441, 205115282021455665897114700593932402728804164701536103180137503955397371] 1 ?_ (by decide)
  intro q hq
  simp only [List.mem_cons, List.mem_singleton, List.not_mem_nil, or_false] at hq
  rcases hq with rfl | rfl | rfl | rfl | rfl
  · norm_num
  · norm_num
  · norm_num
  · norm_num
  · exact prime_205115282021455665897114700593932402728804164701536103180137503955397371

set_option maxRecDepth 100000 in
theorem prime_4681609 : Nat.Prime 4681609 := by
  refine prime_of_lucasCheck _ 23 [2, 3, 97, 2011] 3 ?_ (by decide)
  intro q hq
  simp only [List.mem_cons, List.mem_singleton, List.not_mem_nil, or_false] at hq
  rcases hq with rfl | rfl | rfl | rfl
  · norm_num
  · norm_num
  · norm_num
  · norm_num

set_option maxRecDepth 100000 in
theorem prime_107361793816595537 : Nat.Prime 107361793816595537 := by
  refine prime_of_lucasCheck _ 3 [2, 16699, 85831, 4681609] 4 ?_ (by decide)
  intro q hq
  simp only [List.mem_cons, List.mem_singleton, List.not_mem_nil, or_false] at hq
  rcases hq with rfl | rfl | rfl | rfl
  · norm_num
  · norm_num
  · norm_num
  · exact prime_4681609

set_option maxRecDepth 100000 in
theorem prime_120233 : Nat.Prime 120233 := by
  refine prime_of_lucasCheck _ 3 [2, 7, 19, 113] 3 ?_ (by decide)
  intro q hq
  simp only [List.mem_cons, List.mem_singleton, List.not_mem_nil, or_false] at hq
  rcases hq with rfl | rfl | rfl | rfl
  · norm_num
  · norm_num
  · norm_num
  · norm_num

set_option maxRecDepth 100000 in
theorem prime_44706919 : Nat.Prime 44706919 := by
  refine prime_of_lucasCheck _ 6 [2, 3, 797, 9349] 1 ?_ (by decide)
  intro q hq
  simp only [List.mem_cons, List.mem_singleton, List.not_mem_nil, or_false] at hq
  rcases hq with rfl | rfl | rfl | rfl
  · norm_num
  · norm_num
  · norm_num
  · norm_num

set_option maxRecDepth 100000 in
theorem prime_174723607534414371449 : Nat.Prime 174723607534414371449 := by
  refine prime_of_lucasCheck _ 3 [2, 17, 59, 4051, 120233, 44706919] 3 ?_ (by decide)
  intro q hq
  simp only [List.mem_cons, List.mem_singleton, List.not_mem_nil, or_false] at hq
  rcases hq with rfl | rfl | rfl | rfl | rfl | rfl
  · norm_num
  · norm_num
  · norm_num
  · norm_num
  · exact prime_120233
  · exact prime_44706919

set_option maxRecDepth 100000 in
theorem prime_305873 : Nat.Prime 305873 := by
  refine prime_of_lucasCheck _ 3 [2, 7, 2731] 4 ?_ (by decide)
  intro q hq
  simp only [List.mem_cons, List.mem_singleton, List.not_mem_nil, or_false] at hq
  rcases hq with rfl | rfl | rfl
  · norm_num
  · norm_num
  · norm_num

set_option maxRecDepth 100000 in
theorem prime_545358713 : Nat.Prime 545358713 := by
  refine prime_of_lucasCheck _ 5 [2, 41, 59, 28181] 3 ?_ (by decide)
  intro q hq
  simp only [List.mem_cons, List.mem_singleton, List.not_mem_nil, or_false] at hq
  rcases hq with rfl | rfl | rfl | rfl
  · norm_num
  · norm_num
  · norm_num
  · norm_num

set_option maxRecDepth 100000 in
theorem prime_1627771 : Nat.Prime 1627771 := by
  refine prime_of_lucasCheck _ 3 [2, 3, 5, 29, 1871] 1 ?_ (by decide)
  intro q hq
  simp only [List.mem_cons, List.mem_singleton, List.not_mem_nil, or_false] at hq
  rcases hq with rfl | rfl | rfl | rfl | rfl
  · norm_num
  · norm_num
  · norm_num
  · norm_num
  · norm_num

set_option maxRecDepth 100000 in
theorem prime_297159362677 : Nat.Prime 297159362677 := by
  refine prime_of_lucasCheck _ 2 [2, 3, 11, 461, 1627771] 2 ?_ (by decide)
  intro q hq
  simp only [List.mem_cons, List.mem_singleton, List.not_mem_nil, or_false] at hq
  rcases hq with rfl | rfl | rfl | rfl | rfl
  · norm_num
  · norm_num
  · norm_num
  · norm_num
  · exact prime_1627771

set_option maxRecDepth 100000 in
theorem prime_29047611873442575647497758179 : Nat.Prime 29047611873442575647497758179 := by
  refine prime_of_lucasCheck _ 2 [2, 293, 305873, 545358713, 297159362677] 1 ?_ (by decide)
  intro q hq
  simp only [List.mem_cons, List.mem_singleton, List.not_mem_nil, or_false] at hq
  rcases hq with rfl | rfl | rfl | rfl | rfl
  · norm_num
  · norm_num
  · exact prime_305873
  · exact prime_545358713
  · exact prime_297159362677

set_option maxRecDepth 100000 in
theorem prime_341948486974166000522343609283189 : Nat.Prime 341948486974166000522343609283189 := by
  refine prime_of_lucasCheck _ 2 [2, 3, 109, 29047611873442575647497758179] 3 ?_ (by decide)
  intro q hq
  simp only [List.mem_cons, List.mem_singleton, List.not_mem_nil, or_false] at hq
  rcases hq with rfl | rfl | rfl | rfl
  · norm_num
  · norm_num
  · norm_num
  · exact prime_29047611873442575647497758179

set_option maxRecDepth 100000 in
theorem prime_nNat : Nat.Prime nNat := by
  refine prime_of_lucasCheck _ 7 [2, 3, 149, 631, 107361793816595537, 174723607534414371449, 341948486974166000522343609283189] 6 ?_ (by decide)
  intro q hq
  simp only [List.mem_cons, List.mem_singleton, List.not_mem_nil, or_false] at hq
  rcases hq with rfl | rfl | rfl | rfl | rfl | rfl | rfl
  · norm_num
  · norm_num
  · norm_num
  · norm_num
  · exact prime_107361793816595537
  · exact prime_174723607534414371449
  · exact prime_341948486974166000522343609283189
end Refec

/-! ## The group law of the sources against the group of curve points -/

namespace Refec

open WeierstrassCurve.Affine

theorem fact_pNat : Fact (Nat.Prime pNat) := ⟨prime_pNat⟩

theorem fact_nNat : Fact (Nat.Prime nNat) := ⟨prime_nNat⟩

attribute [instance] fact_pNat fact_nNat

theorem p_eq : p = (pNat : Int) := by decide

theorem n_eq : n = (nNat : Int) := by decide

theorem p_pos : 0 < p := by decide

theorem p_sub_two : p - 2 = ((pNat - 2 : Nat) : Int) := by decide

theorem pow_sub_two_eq_inv (a : ZMod pNat) : a ^ (pNat - 2) = a⁻¹ := by
  by_cases h : a = 0
  · subst h
    rw [inv_zero]
    exact zero_pow (by decide)
  · have h1 : a ^ (pNat - 1) = 1 := ZMod.pow_card_sub_one_eq_one h
    have h2 : a ^ (pNat - 2) * a = 1 := by
      rw [← pow_succ]
      exact h1
    exact eq_inv_of_mul_eq_one_left h2

theorem Exp_inv_cast (x : Int) :
    ((big.Exp x (p - 2) p : Int) : ZMod pNat) = ((x : ZMod pNat))⁻¹ := by
  rw [p_sub_two, p_eq, big.Exp_cast pNat (by decide) x (pNat - 2), pow_sub_two_eq_inv]

theorem cast_inj_of_range {a b : Int} (ha0 : 0 ≤ a) (ha : a < p) (hb0 : 0 ≤ b) (hb : b < p) :
    ((a : ZMod pNat) = (b : ZMod pNat)) ↔ a = b := by
  constructor
  · intro h
    rw [ZMod.intCast_eq_intCast_iff', ← p_eq, Int.emod_eq_of_lt ha0 ha,
      Int.emod_eq_of_lt hb0 hb] at h
    exact h
  · intro h
    rw [h]

theorem cast_eq_zero_of_range {a : Int} (ha0 : 0 ≤ a) (ha : a < p) :
    ((a : ZMod pNat) = 0) ↔ a = 0 := by
  have := cast_inj_of_range ha0 ha (le_refl 0) p_pos
  simpa using this

theorem secp_equation_iff (x y : ZMod pNat) : secp.Equation x y ↔ y ^ 2 = x ^ 3 + 7 := by
  rw [WeierstrassCurve.Affine.equation_iff]
  simp [secp]

theorem equation_iff_OnCurve (x y : Int) :
    secp.Equation (x : ZMod pNat) (y : ZMod pNat) ↔ OnCurve x y := by
  rw [secp_equation_iff]
  unfold OnCurve
  have : ((y : ZMod pNat) ^ 2 = (x : ZMod pNat) ^ 3 + 7) ↔
      (((y * y : Int) : ZMod pNat) = ((x * x * x + 7 : Int) : ZMod pNat)) := by
    push_cast
    constructor <;> intro h <;> linear_combination h
  rw [this, ZMod.intCast_eq_intCast_iff', ← p_eq]

theorem secp_nonsingular {x y : ZMod pNat} (h : secp.Equation x y) : secp.Nonsingular x y := by
  rw [WeierstrassCurve.Affine.nonsingular_iff]
  refine ⟨h, ?_⟩
  rw [secp_equation_iff] at h
  by_contra hcon
  push_neg at hcon
  obtain ⟨h1, h2⟩ := hcon
  simp only [secp, zero_mul, mul_zero, add_zero, sub_zero] at h1 h2
  have h3 : (3 : ZMod pNat) ≠ 0 := by decide
  have h7 : (7 : ZMod pNat) ≠ 0 := by decide
  have h2' : (2 : ZMod pNat) ≠ 0 := by decide
  have hx : x = 0 := by
    have : (3 : ZMod pNat) * x ^ 2 = 0 := h1.symm
    rcases mul_eq_zero.mp this with h | h
    · exact absurd h h3
    · exact pow_eq_zero_iff (by norm_num) |>.mp h
  have hy : y = 0 := by
    have : (2 : ZMod pNat) * y = 0 := by linear_combination h2
    rcases mul_eq_zero.mp this with h | h
    · exact absurd h h2'
    · exact h
  subst hx hy
  apply h7
  linear_combination -h


theorem Add_fin (x1 y1 x2 y2 : Int) :
    Add ⟨some x1, some y1⟩ ⟨some x2, some y2⟩ =
      some ⟨some ((slopeZ x1 y1 x2 y2 * slopeZ x1 y1 x2 y2 - (x1 + x2)) % p),
        some ((slopeZ x1 y1 x2 y2 *
          (x1 - (slopeZ x1 y1 x2 y2 * slopeZ x1 y1 x2 y2 - (x1 + x2)) % p) - y1) % p)⟩ := by
  simp [Add, Point.Infinite, slopeZ]

theorem Add_inf_left (a : Point) (x y : Int) (ha : a.Infinite = true) (hx : 0 ≤ x) (hy : 0 ≤ y) :
    Add a ⟨some x, some y⟩ = some ⟨some x, some y⟩ := by
  unfold Add
  rw [if_pos ha]
  simp [Point.Clone, Point.Infinite, big.SetBytes_Bytes, abs_of_nonneg hx, abs_of_nonneg hy]

theorem Add_inf_right (b : Point) (x y : Int) (hb : b.Infinite = true) (hx : 0 ≤ x) (hy : 0 ≤ y) :
    Add ⟨some x, some y⟩ b = some ⟨some x, some y⟩ := by
  unfold Add
  have hP : (Point.mk (some x) (some y)).Infinite = false := rfl
  rw [hP, if_pos hb]
  simp [Point.Clone, Point.Infinite, big.SetBytes_Bytes, abs_of_nonneg hx, abs_of_nonneg hy]

theorem Rep_fin_of_eq {x y : Int} {X Y : ZMod pNat} (hx0 : 0 ≤ x) (hx : x < p) (hy0 : 0 ≤ y)
    (hy : y < p) (hX : (x : ZMod pNat) = X) (hY : (y : ZMod pNat) = Y)
    (h : secp.Nonsingular X Y) : Rep ⟨some x, some y⟩ (Point.some h) := by
  subst hX hY
  exact Rep.fin x y hx0 hx hy0 hy h

theorem slopeZ_cast {x1 y1 x2 y2 : Int} (hx1 : 0 ≤ x1) (hx1p : x1 < p) (hy1 : 0 ≤ y1)
    (hy1p : y1 < p) (hx2 : 0 ≤ x2) (hx2p : x2 < p) (hy2 : 0 ≤ y2) (hy2p : y2 < p)
    (h1 : secp.Equation (x1 : ZMod pNat) (y1 : ZMod pNat))
    (h2 : secp.Equation (x2 : ZMod pNat) (y2 : ZMod pNat))
    (hxy : (x1 : ZMod pNat) = x2 → (y1 : ZMod pNat) ≠ secp.negY x2 y2) :
    ((slopeZ x1 y1 x2 y2 : Int) : ZMod pNat) = secp.slope x1 x2 y1 y2 := by
  unfold slopeZ
  by_cases hc : x1 = x2 ∧ y1 = y2
  · obtain ⟨hx, hy⟩ := hc
    subst hx hy
    rw [if_pos ⟨rfl, rfl⟩, slope_of_Y_ne rfl (hxy rfl), p_eq, ZMod.intCast_mod, ← p_eq]
    push_cast
    rw [Exp_inv_cast]
    simp only [secp, negY, mul_zero, sub_zero, add_zero, zero_mul]
    push_cast
    rw [div_eq_mul_inv]
    congr 1
    · ring
    · congr 1
      ring
  · rw [if_neg hc]
    have hx : (x1 : ZMod pNat) ≠ x2 := by
      intro hx
      have hx' : x1 = x2 := (cast_inj_of_range hx1 hx1p hx2 hx2p).mp hx
      have hyne : y1 ≠ y2 := fun hy => hc ⟨hx', hy⟩
      have hyne' : (y1 : ZMod pNat) ≠ y2 := fun hy =>
        hyne ((cast_inj_of_range hy1 hy1p hy2 hy2p).mp hy)
      rw [secp_equation_iff] at h1 h2
      have hsq : ((y1 : ZMod pNat) - y2) * (y1 + y2) = 0 := by
        rw [hx] at h1
        linear_combination h1 - h2
      rcases mul_eq_zero.mp hsq with h | h
      · exact hyne' (sub_eq_zero.mp h)
      · apply hxy hx
        simp only [secp, negY, mul_zero, sub_zero, zero_mul]
        linear_combination h
    rw [slope_of_X_ne hx, p_eq, ZMod.intCast_mod, ← p_eq]
    push_cast
    rw [Exp_inv_cast]
    push_cast
    rw [div_eq_mul_inv]

theorem Add_rep {a b : Point} {A B : secp.Point} (ha : Rep a A) (hb : Rep b B)
    (hne : A + B ≠ 0) : ∃ c, Add a b = some c ∧ Rep c (A + B) := by
  cases ha with
  | inf a hinf =>
    cases hb with
    | inf b hinf1 => simp at hne
    | fin x y hx0 hx hy0 hy h =>
      refine ⟨⟨some x, some y⟩, Add_inf_left a x y hinf hx0 hy0, ?_⟩
      rw [zero_add]
      exact Rep.fin x y hx0 hx hy0 hy h
  | fin x1 y1 hx1 hx1p hy1 hy1p h1 =>
    cases hb with
    | inf b hinf1 =>
      refine ⟨⟨some x1, some y1⟩, Add_inf_right b x1 y1 hinf1 hx1 hy1, ?_⟩
      rw [add_zero]
      exact Rep.fin x1 y1 hx1 hx1p hy1 hy1p h1
    | fin x2 y2 hx2 hx2p hy2 hy2p h2 =>
      have hxy : (x1 : ZMod pNat) = x2 → (y1 : ZMod pNat) ≠ secp.negY x2 y2 := by
        intro hx hy
        exact hne (Point.add_of_Y_eq hx hy)
      have hs := slopeZ_cast hx1 hx1p hy1 hy1p hx2 hx2p hy2 hy2p h1.1 h2.1 hxy
      rw [Point.add_of_imp hxy, Add_fin]
      refine ⟨_, rfl, ?_⟩
      have hX : (((slopeZ x1 y1 x2 y2 * slopeZ x1 y1 x2 y2 - (x1 + x2)) % p : Int) : ZMod pNat)
          = secp.addX x1 x2 (secp.slope x1 x2 y1 y2) := by
        rw [p_eq, ZMod.intCast_mod]
        push_cast
        rw [hs]
        simp only [secp, addX, zero_mul, sub_zero, add_zero]
        ring
      refine Rep_fin_of_eq (Int.emod_nonneg _ p_pos.ne') (Int.emod_lt_of_pos _ p_pos)
        (Int.emod_nonneg _ p_pos.ne') (Int.emod_lt_of_pos _ p_pos) hX ?_ _
      rw [p_eq, ZMod.intCast_mod, ← p_eq]
      push_cast
      rw [hX, hs]
      simp only [secp, addY, negAddY, negY, addX, zero_mul, mul_zero, sub_zero, add_zero]
      ring

end Refec

/-! ## `Mul` against scalar multiplication in the group -/

namespace Refec

open WeierstrassCurve.Affine

theorem Rep_unique {c : Point} {A B : secp.Point} (hA : Rep c A) (hB : Rep c B) : A = B := by
  cases hA with
  | inf c hinf =>
    cases hB with
    | inf c hinf1 => rfl
    | fin x y hx0 hx hy0 hy h => simp [Point.Infinite] at hinf
  | fin x y hx0 hx hy0 hy h =>
    cases hB with
    | inf c hinf1 => simp [Point.Infinite] at hinf1
    | fin x y hx0 hx hy0 hy h => rfl

theorem Rep_ne_zero_iff {c : Point} {A : secp.Point} (h : Rep c A) :
    A ≠ 0 ↔ c.Infinite = false := by
  cases h with
  | inf c hinf => simp [hinf]
  | fin x y hx0 hx hy0 hy h =>
    simp only [Point.Infinite, Option.isNone_some, Bool.or_self, iff_true]
    exact Point.some_ne_zero h

theorem bits_step (k i cnt : Nat) :
    k / 2 ^ i % 2 ^ (cnt + 1) = k / 2 ^ i % 2 + 2 * (k / 2 ^ (i + 1) % 2 ^ cnt) := by
  rw [pow_succ' 2 cnt, Nat.mod_mul, pow_succ, Nat.div_div_eq_div_mul]

theorem value_step (R Q : secp.Point) (k i cnt : Nat) :
    R + (k / 2 ^ i % 2 ^ (cnt + 1)) • Q =
      (R + (k / 2 ^ i % 2) • Q) + (k / 2 ^ (i + 1) % 2 ^ cnt) • (Q + Q) := by
  rw [bits_step, add_nsmul, mul_comm 2, mul_nsmul, two_nsmul, add_assoc, nsmul_add]

theorem double_ne_zero {x y : Int} (hy0 : 0 ≤ y) (hy : y < p) (hne : y ≠ 0)
    (h : secp.Nonsingular (x : ZMod pNat) (y : ZMod pNat)) :
    Point.some h + Point.some h ≠ 0 := by
  have hyF : (y : ZMod pNat) ≠ 0 := fun h0 => hne ((cast_eq_zero_of_range hy0 hy).mp h0)
  have hneg : (y : ZMod pNat) ≠ secp.negY (x : ZMod pNat) (y : ZMod pNat) := by
    intro hcon
    simp only [secp, negY, mul_zero, sub_zero, zero_mul] at hcon
    have h2y : (2 : ZMod pNat) * y = 0 := by linear_combination hcon
    rcases mul_eq_zero.mp h2y with h | h
    · exact absurd h (by decide)
    · exact hyF h
  rw [Point.add_self_of_Y_ne hneg]
  exact Point.some_ne_zero _

theorem add_ne_zero_of_X_ne {x1 y1 x2 y2 : Int} (hx1 : 0 ≤ x1) (hx1p : x1 < p) (hx2 : 0 ≤ x2)
    (hx2p : x2 < p) (hne : x1 ≠ x2)
    (h1 : secp.Nonsingular (x1 : ZMod pNat) (y1 : ZMod pNat))
    (h2 : secp.Nonsingular (x2 : ZMod pNat) (y2 : ZMod pNat)) :
    Point.some h1 + Point.some h2 ≠ 0 := by
  have hxF : (x1 : ZMod pNat) ≠ x2 := fun hc =>
    hne ((cast_inj_of_range hx1 hx1p hx2 hx2p).mp hc)
  rw [Point.add_of_X_ne hxF]
  exact Point.some_ne_zero _

theorem MulLoopChecked_rep (k : Nat) : ∀ (cnt i : Nat) (r q c d : Point) (R Q : secp.Point),
    Rep r R → Rep q Q → MulLoopChecked k cnt i r q = some (c, d) →
    Rep c (R + (k / 2 ^ i % 2 ^ cnt) • Q) ∧ Rep d ((2 ^ cnt) • Q) := by
  intro cnt
  induction cnt with
  | zero =>
    intro i r q c d R Q hr hq h
    simp only [MulLoopChecked, Option.some.injEq, Prod.mk.injEq] at h
    obtain ⟨h1, h2⟩ := h
    subst h1 h2
    have h1 : k / 2 ^ i % 2 ^ 0 = 0 := by simp [Nat.mod_one]
    rw [h1, zero_nsmul, add_zero, pow_zero, one_nsmul]
    exact ⟨hr, hq⟩
  | succ cnt ih =>
    intro i r q c d R Q hr hq h
    rw [MulLoopChecked] at h
    by_cases hbad : (q.Infinite || decide (q.Y = some 0)) = true
    · rw [if_pos hbad] at h
      exact absurd h (by simp)
    rw [if_neg hbad] at h
    have hbad1 : q.Infinite = false ∧ q.Y ≠ some 0 := by
      simpa [not_or] using hbad
    have hQQ : Q + Q ≠ 0 := by
      cases hq with
      | inf q hinf => simp [hinf] at hbad1
      | fin x2 y2 hx0 hx hy0 hy h2 =>
        exact double_ne_zero hy0 hy (fun h0 => hbad1.2 (by simp [h0])) h2
    obtain ⟨q1, hq1, hrq1⟩ := Add_rep hq hq hQQ
    rw [hq1] at h
    have hpow : (2 ^ (cnt + 1)) • Q = (2 ^ cnt) • (Q + Q) := by
      rw [pow_succ, mul_nsmul, two_nsmul, nsmul_add]
    rw [value_step, ← big.Bit_natCast, hpow]
    by_cases hbit : big.Bit (k : Int) i = 1
    · rw [if_pos hbit] at h
      by_cases hx : (!r.Infinite && decide (r.X = q.X)) = true
      · rw [if_pos hx] at h
        simp at h
      · rw [if_neg hx] at h
        have hRQ : R + Q ≠ 0 := by
          cases hr with
          | inf r hinf =>
            rw [zero_add]
            exact (Rep_ne_zero_iff hq).mpr hbad1.1
          | fin x1 y1 hx10 hx1 hy10 hy1 h1 =>
            cases hq with
            | inf q hinf => simp [hinf] at hbad1
            | fin x2 y2 hx0 hx2 hy0 hy h2 =>
              refine add_ne_zero_of_X_ne hx10 hx1 hx0 hx2 ?_ h1 h2
              intro hxe
              apply hx
              simp [Point.Infinite, hxe]
        obtain ⟨r1, hr1, hrr1⟩ := Add_rep hr hq hRQ
        rw [hr1] at h
        have := ih (i + 1) r1 q1 c d (R + Q) (Q + Q) hrr1 hrq1 h
        rw [hbit, one_nsmul]
        exact this
    · rw [if_neg hbit] at h
      have hb0 : big.Bit (k : Int) i = 0 := by
        unfold big.Bit at hbit ⊢
        split_ifs at hbit ⊢ with ht
        · exact absurd rfl hbit
        · rfl
      have := ih (i + 1) r q1 c d R (Q + Q) hr hrq1 h
      rw [hb0, zero_nsmul, add_zero]
      exact this

theorem MulLoopChecked_MulLoop (x : Int) : ∀ (cnt i : Nat) (r q c d : Point),
    MulLoopChecked x cnt i r q = some (c, d) → ∀ rest : Nat,
    MulLoop x (rest + cnt) i (some r) (some q) = MulLoop x rest (i + cnt) (some c) (some d) := by
  intro cnt
  induction cnt with
  | zero =>
    intro i r q c d h rest
    simp only [MulLoopChecked, Option.some.injEq, Prod.mk.injEq] at h
    obtain ⟨h1, h2⟩ := h
    subst h1 h2
    rfl
  | succ cnt ih =>
    intro i r q c d h rest
    rw [MulLoopChecked] at h
    by_cases hbad : (q.Infinite || decide (q.Y = some 0)) = true
    · rw [if_pos hbad] at h
      exact absurd h (by simp)
    rw [if_neg hbad] at h
    have hidx : i + (cnt + 1) = (i + 1) + cnt := by omega
    rw [← Nat.add_assoc, MulLoop, hidx]
    simp only [AddPtr]
    cases hq1 : Add q q with
    | none =>
      rw [hq1] at h
      simp only at h
      split at h <;> simp_all
    | some q1 =>
      rw [hq1] at h
      by_cases hbit : big.Bit x i = 1
      · rw [if_pos hbit] at h ⊢
        by_cases hx : (!r.Infinite && decide (r.X = q.X)) = true
        · rw [if_pos hx] at h
          simp at h
        · rw [if_neg hx] at h
          cases hr1 : Add r q with
          | none =>
            rw [hr1] at h
            simp at h
          | some r1 =>
            rw [hr1] at h
            simp only at h ⊢
            exact ih (i + 1) r1 q1 c d h rest
      · rw [if_neg hbit] at h ⊢
        simp only at h ⊢
        exact ih (i + 1) r q1 c d h rest

set_option maxRecDepth 100000 in
theorem G_eq : G = some ⟨some Gx, some Gy⟩ := by decide

theorem G_onCurve : OnCurve Gx Gy := by decide

theorem G_nonsingular : secp.Nonsingular (Gx : ZMod pNat) (Gy : ZMod pNat) :=
  secp_nonsingular ((equation_iff_OnCurve _ _).mpr G_onCurve)

theorem G_rep : Rep ⟨some Gx, some Gy⟩ (Point.some G_nonsingular) :=
  Rep.fin Gx Gy (by decide) (by decide) (by decide) (by decide) G_nonsingular

set_option maxRecDepth 1000000 in
set_option maxHeartbeats 0 in
theorem MulLoopChecked_n_255 :
    MulLoopChecked ((nNat : Nat) : Int) 255 0 ⟨none, none⟩ ⟨some Gx, some Gy⟩
      = some (⟨some X255, some (p - Y255)⟩, ⟨some X255, some Y255⟩) := by
  decide!

theorem Rep_neg {x y : Int} {A : secp.Point} (h : Rep ⟨some x, some y⟩ A) (hy : y ≠ 0) :
    Rep ⟨some x, some (p - y)⟩ (-A) := by
  cases h with
  | inf _ hinf => simp [Point.Infinite] at hinf
  | fin x y hx0 hx hy0 hyp h1 =>
    rw [Point.neg_some]
    refine Rep_fin_of_eq hx0 hx (by omega) (by omega) rfl ?_ _
    rw [p_eq]
    simp [secp, negY]

theorem n_smul_G : nNat • Point.some G_nonsingular = 0 := by
  obtain ⟨h1, h2⟩ := MulLoopChecked_rep nNat 255 0 ⟨none, none⟩ ⟨some Gx, some Gy⟩ _ _ 0
    (Point.some G_nonsingular) (Rep.inf _ rfl) G_rep MulLoopChecked_n_255
  rw [zero_add] at h1
  have h3 := Rep_neg h2 (by decide : Y255 ≠ 0)
  have h4 := Rep_unique h1 h3
  have h5 : nNat = nNat / 2 ^ 0 % 2 ^ 255 + 2 ^ 255 := by decide
  rw [h5, add_nsmul, h4]
  exact neg_add_cancel _

theorem addOrderOf_G : addOrderOf (Point.some G_nonsingular) = nNat :=
  addOrderOf_eq_prime n_smul_G (Point.some_ne_zero _)

theorem nsmul_eq_zero_iff {B : secp.Point} (hord : addOrderOf B = nNat) (j : Nat) :
    j • B = 0 ↔ nNat ∣ j := by
  rw [← hord]
  exact addOrderOf_dvd_iff_nsmul_eq_zero.symm

theorem nsmul_ne_zero_of_lt {B : secp.Point} (hord : addOrderOf B = nNat) {j : Nat}
    (h0 : 0 < j) (hj : j < nNat) : j • B ≠ 0 := by
  rw [Ne, nsmul_eq_zero_iff hord]
  intro hd
  exact absurd (Nat.le_of_dvd h0 hd) (not_le.mpr hj)

theorem two_pow_nsmul_ne_zero {B : secp.Point} (hord : addOrderOf B = nNat) (i : Nat) :
    (2 ^ i) • B ≠ 0 := by
  rw [Ne, nsmul_eq_zero_iff hord]
  intro hd
  have h2 : nNat ∣ 2 := prime_nNat.dvd_of_dvd_pow hd
  exact absurd (Nat.le_of_dvd (by norm_num) h2) (by decide)

theorem addOrderOf_nsmul {B : secp.Point} (hord : addOrderOf B = nNat) {j : Nat}
    (h0 : 0 < j) (hj : j < nNat) : addOrderOf (j • B) = nNat := by
  apply addOrderOf_eq_prime
  · rw [← mul_nsmul, mul_comm, mul_nsmul, (nsmul_eq_zero_iff hord nNat).mpr dvd_rfl, nsmul_zero]
  · exact nsmul_ne_zero_of_lt hord h0 hj

theorem MulLoop_rep (k : Nat) (B : secp.Point) (hord : addOrderOf B = nNat) (hk : k < nNat) :
    ∀ (cnt i : Nat) (r q : Point), Rep r ((k % 2 ^ i) • B) → Rep q ((2 ^ i) • B) →
      ∃ c, MulLoop k cnt i (some r) (some q) = some (some c) ∧
        Rep c ((k % 2 ^ (i + cnt)) • B) := by
  intro cnt
  induction cnt with
  | zero =>
    intro i r q hr hq
    exact ⟨r, rfl, hr⟩
  | succ cnt ih =>
    intro i r q hr hq
    have hQQ : (2 ^ i) • B + (2 ^ i) • B ≠ 0 := by
      rw [← two_nsmul, ← mul_nsmul', ← pow_succ']
      exact two_pow_nsmul_ne_zero hord _
    obtain ⟨q1, hq1, hrq1⟩ := Add_rep hq hq hQQ
    rw [← two_nsmul, ← mul_nsmul', ← pow_succ'] at hrq1
    have hstep : k % 2 ^ (i + 1) = k % 2 ^ i + 2 ^ i * big.Bit (k : Int) i := by
      rw [big.Bit_natCast, Nat.mod_pow_succ]
    rw [MulLoop]
    simp only [AddPtr, hq1]
    have hidx : i + (cnt + 1) = (i + 1) + cnt := by omega
    rw [hidx]
    by_cases hbit : big.Bit (k : Int) i = 1
    · rw [if_pos hbit]
      rw [hbit, mul_one] at hstep
      have hRQ : (k % 2 ^ i) • B + (2 ^ i) • B ≠ 0 := by
        rw [← add_nsmul, ← hstep]
        apply nsmul_ne_zero_of_lt hord
        · rw [hstep]
          positivity
        · exact lt_of_le_of_lt (Nat.mod_le _ _) hk
      obtain ⟨r1, hr1, hrr1⟩ := Add_rep hr hq hRQ
      rw [← add_nsmul, ← hstep] at hrr1
      simp only [hr1]
      exact ih (i + 1) r1 q1 hrr1 hrq1
    · rw [if_neg hbit]
      have hb0 : big.Bit (k : Int) i = 0 := by
        unfold big.Bit at hbit ⊢
        split_ifs at hbit ⊢ with ht
        · exact absurd rfl hbit
        · rfl
      rw [hb0, mul_zero, add_zero] at hstep
      rw [← hstep] at hr
      exact ih (i + 1) r q1 hr hrq1

theorem Mul_rep (k : Nat) (B : secp.Point) (hord : addOrderOf B = nNat) (hk : k < nNat)
    (g : Point) (hg : Rep g B) :
    ∃ c, Mul k (some g) = some (some c) ∧ Rep c (k • B) := by
  have hr : Rep ⟨none, none⟩ ((k % 2 ^ 0) • B) := by
    rw [pow_zero, Nat.mod_one, zero_nsmul]
    exact Rep.inf _ rfl
  have hq : Rep g ((2 ^ 0) • B) := by
    rw [pow_zero, one_nsmul]
    exact hg
  obtain ⟨c, hc, hrc⟩ := MulLoop_rep k B hord hk (big.BitLen k) 0 _ g hr hq
  refine ⟨c, hc, ?_⟩
  rw [zero_add, Nat.mod_eq_of_lt (big.lt_two_pow_BitLen k)] at hrc
  exact hrc

end Refec

/-! ## ECDSA: signatures made by `Sign` pass `Verify` -/

namespace Refec

open WeierstrassCurve.Affine

theorem n_pos : 0 < n := by decide

theorem n_sub_two : n - 2 = ((nNat - 2 : Nat) : Int) := by decide

theorem pow_sub_two_eq_inv_n (a : ZMod nNat) : a ^ (nNat - 2) = a⁻¹ := by
  by_cases h : a = 0
  · subst h
    rw [inv_zero]
    exact zero_pow (by decide)
  · have h1 : a ^ (nNat - 1) = 1 := ZMod.pow_card_sub_one_eq_one h
    have h2 : a ^ (nNat - 2) * a = 1 := by
      rw [← pow_succ]
      exact h1
    exact eq_inv_of_mul_eq_one_left h2

theorem Exp_inv_cast_n (x : Int) :
    ((big.Exp x (n - 2) n : Int) : ZMod nNat) = ((x : ZMod nNat))⁻¹ := by
  rw [n_sub_two, n_eq, big.Exp_cast nNat (by decide) x (nNat - 2), pow_sub_two_eq_inv_n]

theorem cast_n_eq_zero_of_range {a : Int} (ha0 : 0 ≤ a) (ha : a < n) :
    ((a : ZMod nNat) = 0) ↔ a = 0 := by
  rw [ZMod.intCast_zmod_eq_zero_iff_dvd, ← n_eq]
  constructor
  · intro h
    exact Int.eq_zero_of_dvd_of_nonneg_of_lt ha0 ha h
  · intro h
    rw [h]
    exact dvd_zero _

theorem zsmul_congr {B : secp.Point} (hord : addOrderOf B = nNat) {a b : Int}
    (h : (a : ZMod nNat) = (b : ZMod nNat)) : a • B = b • B := by
  rw [ZMod.intCast_eq_intCast_iff, Int.modEq_iff_add_fac] at h
  obtain ⟨t, ht⟩ := h
  have hn : (nNat : Int) • B = 0 := by
    rw [natCast_zsmul]
    exact (nsmul_eq_zero_iff hord nNat).mpr dvd_rfl
  rw [ht, add_zsmul, mul_comm (nNat : Int) t, mul_zsmul, hn, zsmul_zero, add_zero]

theorem zsmul_eq_zero_iff {B : secp.Point} (hord : addOrderOf B = nNat) (a : Int) :
    a • B = 0 ↔ (a : ZMod nNat) = 0 := by
  rw [ZMod.intCast_zmod_eq_zero_iff_dvd, ← hord]
  exact (addOrderOf_dvd_iff_zsmul_eq_zero).symm

theorem addOrderOf_zsmul {B : secp.Point} (hord : addOrderOf B = nNat) {a : Int}
    (ha : (a : ZMod nNat) ≠ 0) : addOrderOf (a • B) = nNat := by
  apply addOrderOf_eq_prime
  · rw [← natCast_zsmul, ← mul_zsmul, mul_comm, mul_zsmul, natCast_zsmul,
      (nsmul_eq_zero_iff hord nNat).mpr dvd_rfl, zsmul_zero]
  · rw [Ne, zsmul_eq_zero_iff hord]
    exact ha

theorem Mul_rep_int (k : Int) (hk0 : 0 ≤ k) (hkn : k < n) (B : secp.Point)
    (hord : addOrderOf B = nNat) (g : Point) (hg : Rep g B) :
    ∃ c, Mul k (some g) = some (some c) ∧ Rep c (k • B) := by
  obtain ⟨kN, rfl⟩ := Int.eq_ofNat_of_zero_le hk0
  have hk : kN < nNat := by
    rw [n_eq] at hkn
    exact_mod_cast hkn
  obtain ⟨c, hc, hrc⟩ := Mul_rep kN B hord hk g hg
  exact ⟨c, hc, by rw [natCast_zsmul]; exact hrc⟩

theorem Rep_fin_of_ne_zero {c : Point} {A : secp.Point} (h : Rep c A) (hA : A ≠ 0) :
    ∃ x y, c = ⟨some x, some y⟩ ∧ 0 ≤ x ∧ x < p ∧ 0 ≤ y ∧ y < p := by
  cases h with
  | inf c hinf => exact absurd rfl hA
  | fin x y hx0 hx hy0 hy h => exact ⟨x, y, rfl, hx0, hx, hy0, hy⟩

theorem Rep_X_eq {a b : Point} {A B : secp.Point} (ha : Rep a A) (hb : Rep b B)
    (hA : A ≠ 0) (hAB : B = A ∨ B = -A) :
    ∃ x ya yb, a = ⟨some x, some ya⟩ ∧ b = ⟨some x, some yb⟩ := by
  cases ha with
  | inf a hinf => exact absurd rfl hA
  | fin x y hx0 hx hy0 hy h =>
    cases hb with
    | inf b hinf =>
      rcases hAB with h1 | h1
      · exact absurd h1.symm hA
      · rw [Point.neg_some] at h1
        exact absurd h1.symm (Point.some_ne_zero _)
    | fin x1 y1 hx10 hx1 hy10 hy1 h1 =>
      have hxx : (x1 : ZMod pNat) = (x : ZMod pNat) := by
        rcases hAB with h2 | h2
        · simp only [Point.some.injEq] at h2
          exact h2.1
        · rw [Point.neg_some] at h2
          simp only [Point.some.injEq] at h2
          exact h2.1
      have hx' : x1 = x := (cast_inj_of_range hx10 hx1 hx0 hx).mp hxx
      subst hx'
      exact ⟨x1, y, y1, rfl, rfl⟩

theorem nonceLoop_range (hf : Hash) : ∀ (fuel : Nat) (K V : List Nat) (k : Int),
    nonceLoop hf fuel K V = some k → 0 < k ∧ k < n := by
  intro fuel
  induction fuel with
  | zero =>
    intro K V k h
    simp [nonceLoop] at h
  | succ fuel ih =>
    intro K V k h
    rw [nonceLoop] at h
    simp only at h
    split_ifs at h with h1 h2 h3
    · simp only [Option.some.injEq] at h
      subst h
      simpa using h2
    · exact ih _ _ _ h
    · simp only [Option.some.injEq] at h
      subst h
      exact h3
    · exact ih _ _ _ h

theorem nonceRFC6979_range (hf : Hash) (fuel : Nat) (m : List Nat) (x k : Int)
    (h : nonceRFC6979 hf fuel m x = some k) : 0 < k ∧ k < n :=
  nonceLoop_range hf fuel _ _ k h


theorem cast_emod_n (a : Int) : ((a % n : Int) : ZMod nNat) = (a : ZMod nNat) := by
  rw [n_eq, ZMod.intCast_mod]

theorem cast_n : ((n : Int) : ZMod nNat) = 0 := by
  rw [n_eq]
  simp

theorem Verify_range_checks (r : Int) : ¬ (r < 1 ∧ r ≥ n) := by
  intro h
  have := n_pos
  omega

theorem Verify_of (hf : Hash) (P : Option Point) (m : List Nat) (r s : Int) (A B V : Point)
    (hA : Mul ((bits2int (H hf m) * big.Exp s (n - 2) n) % n) G = some (some A))
    (hB : Mul ((r * big.Exp s (n - 2) n) % n) P = some (some B))
    (hV : Add A B = some V) (hinf : V.Infinite = false) (hX : V.X = some r) :
    Verify hf P m r s = some true := by
  unfold Verify
  rw [if_neg (Verify_range_checks r), if_neg (Verify_range_checks s)]
  simp [hA, hB, AddPtr, hV, hinf, hX]

theorem Sign_of (hf : Hash) (fuel : Nat) (m : List Nat) (x k r ry : Int)
    (hk : nonceRFC6979 hf fuel m x = some k)
    (hR : Mul k G = some (some ⟨some r, some ry⟩)) :
    Sign hf fuel m x = some (r,
      if ((bits2int (H hf m) % n + x * r) * big.Exp k (n - 2) n) % n > n >>> 1
      then n - ((bits2int (H hf m) % n + x * r) * big.Exp k (n - 2) n) % n
      else ((bits2int (H hf m) % n + x * r) * big.Exp k (n - 2) n) % n) := by
  unfold Sign
  simp only [hk, hR]

theorem Sign_Verify_aux (hf : Hash) (fuel : Nat) (m : List Nat) (x k : Int)
    (hx1 : 1 ≤ x) (hxn : x ≤ n - 1) (hk : nonceRFC6979 hf fuel m x = some k) :
    ∃ r s P, Sign hf fuel m x = some (r, s) ∧ Mul x G = some P ∧
      (s ≠ 0 → Verify hf P m r s = some true) := by
  obtain ⟨hk0, hkn⟩ := nonceRFC6979_range hf fuel m x k hk
  have hordG := addOrderOf_G
  obtain ⟨R, hR, hRrep⟩ := Mul_rep_int k hk0.le hkn _ hordG _ G_rep
  have hkF : (k : ZMod nNat) ≠ 0 := fun h =>
    hk0.ne' ((cast_n_eq_zero_of_range hk0.le hkn).mp h)
  have hkG : k • Point.some G_nonsingular ≠ 0 := by
    rw [Ne, zsmul_eq_zero_iff hordG]
    exact hkF
  obtain ⟨r, ry, hReq, hr0, hrp, -, -⟩ := Rep_fin_of_ne_zero hRrep hkG
  subst hReq
  have hxF : (x : ZMod nNat) ≠ 0 := fun h =>
    (by omega : x ≠ 0) ((cast_n_eq_zero_of_range (by omega) (by omega)).mp h)
  obtain ⟨Pp, hP, hPrep⟩ := Mul_rep_int x (by omega) (by omega) _ hordG _ G_rep
  have hordP := addOrderOf_zsmul hordG hxF
  rw [← G_eq] at hR hP
  refine ⟨r, _, some Pp, Sign_of hf fuel m x k r ry hk hR, hP, ?_⟩
  intro hs
  generalize hs0 : ((bits2int (H hf m) % n + x * r) * big.Exp k (n - 2) n) % n = s0 at hs ⊢
  generalize he : bits2int (H hf m) = e at hs0 ⊢
  have hs0r : 0 ≤ s0 ∧ s0 < n := by
    rw [← hs0]
    exact ⟨Int.emod_nonneg _ n_pos.ne', Int.emod_lt_of_pos _ n_pos⟩
  have hs0ne : s0 ≠ 0 := by
    intro h0
    apply hs
    rw [h0, if_neg (by decide)]
  have hS0 : (s0 : ZMod nNat) = ((e : ZMod nNat) + x * r) * (k : ZMod nNat)⁻¹ := by
    rw [← hs0, cast_emod_n]
    push_cast
    rw [cast_emod_n, Exp_inv_cast_n]
  have hS0F : (s0 : ZMod nNat) ≠ 0 := fun h =>
    hs0ne ((cast_n_eq_zero_of_range hs0r.1 hs0r.2).mp h)
  have hEK : (e : ZMod nNat) + x * r = s0 * k := by
    rw [hS0]
    field_simp
  generalize hsdef : (if s0 > n >>> 1 then n - s0 else s0) = s at hs ⊢
  have hS : (s : ZMod nNat) = s0 ∨ (s : ZMod nNat) = -(s0 : ZMod nNat) := by
    rw [← hsdef]
    split_ifs
    · right
      push_cast
      rw [cast_n, zero_sub]
    · left
      rfl
  -- the two scalar multiples Verify computes
  have hu1 : 0 ≤ (e * big.Exp s (n - 2) n) % n ∧ (e * big.Exp s (n - 2) n) % n < n :=
    ⟨Int.emod_nonneg _ n_pos.ne', Int.emod_lt_of_pos _ n_pos⟩
  have hu2 : 0 ≤ (r * big.Exp s (n - 2) n) % n ∧ (r * big.Exp s (n - 2) n) % n < n :=
    ⟨Int.emod_nonneg _ n_pos.ne', Int.emod_lt_of_pos _ n_pos⟩
  obtain ⟨A, hA, hArep⟩ := Mul_rep_int _ hu1.1 hu1.2 _ hordG _ G_rep
  obtain ⟨B, hB, hBrep⟩ := Mul_rep_int _ hu2.1 hu2.2 _ hordP _ hPrep
  rw [← G_eq] at hA
  have hsum : ((e * big.Exp s (n - 2) n) % n) • Point.some G_nonsingular
      + ((r * big.Exp s (n - 2) n) % n) • x • Point.some G_nonsingular
      = k • Point.some G_nonsingular ∨
      ((e * big.Exp s (n - 2) n) % n) • Point.some G_nonsingular
      + ((r * big.Exp s (n - 2) n) % n) • x • Point.some G_nonsingular
      = -(k • Point.some G_nonsingular) := by
    rw [← mul_zsmul, ← add_zsmul, ← neg_zsmul]
    have hcast : (((e * big.Exp s (n - 2) n) % n + (r * big.Exp s (n - 2) n) % n * x : Int) :
        ZMod nNat) = ((e : ZMod nNat) + x * r) * (s : ZMod nNat)⁻¹ := by
      push_cast
      rw [cast_emod_n, cast_emod_n]
      push_cast
      rw [Exp_inv_cast_n]
      ring
    rcases hS with h1 | h1
    · left
      apply zsmul_congr hordG
      rw [hcast, h1, hEK]
      field_simp
    · right
      apply zsmul_congr hordG
      rw [hcast, h1, hEK]
      push_cast
      rw [inv_neg, mul_neg, mul_comm (s0 : ZMod nNat), mul_assoc, mul_inv_cancel₀ hS0F, mul_one]
  have hne : ((e * big.Exp s (n - 2) n) % n) • Point.some G_nonsingular
      + ((r * big.Exp s (n - 2) n) % n) • x • Point.some G_nonsingular ≠ 0 := by
    rcases hsum with h1 | h1
    · rw [h1]
      exact hkG
    · rw [h1]
      exact neg_ne_zero.mpr hkG
  obtain ⟨V, hV, hVrep⟩ := Add_rep hArep hBrep hne
  obtain ⟨x', ya, yb, h1, h2⟩ := Rep_X_eq hRrep hVrep hkG hsum
  simp only [Point.mk.injEq, Option.some.injEq] at h1
  obtain ⟨rfl, rfl⟩ := h1
  subst h2
  subst he
  exact Verify_of hf (some Pp) m _ s A B _ hA hB hV rfl rfl

end Refec

/-! ## The claims on the curve and on ECDSA -/

namespace Refec

open WeierstrassCurve.Affine

set_option maxRecDepth 100000 in
theorem nonce_constHash_one : nonceRFC6979 (constHash bytesZero bytesOne) 1 [] 1 = some 1 := by
  decide

set_option maxRecDepth 100000 in
theorem nonce_constHash_negGx :
    nonceRFC6979 (constHash bytesNegGx bytesOne) 1 [] 1 = some 1 := by
  decide

/-- The round trip of `Sign` and `Verify` with the two hash primitives as
parameters: for every private scalar `x` in `[1, n-1]`, every message and every
pair of hash functions for which the nonce derivation returns, `Sign` returns a
pair `(r, s)`, `Mul(x, G)` returns a point `P`, and `Verify(P, m, r, s)` returns
true whenever `s` is not 0. -/
theorem Sign_Verify (hf : Hash) (fuel : Nat) (m : List Nat) (x k : Int)
    (hx1 : 1 ≤ x) (hxn : x ≤ n - 1) (hk : nonceRFC6979 hf fuel m x = some k) :
    ∃ r s P, Sign hf fuel m x = some (r, s) ∧ Mul x G = some P ∧
      (s ≠ 0 → Verify hf P m r s = some true) :=
  Sign_Verify_aux hf fuel m x k hx1 hxn hk

theorem Sign_Verify_witness :
    ((1 : Int) ≤ 1 ∧ (1 : Int) ≤ n - 1 ∧
      nonceRFC6979 (constHash bytesZero bytesOne) 1 [] 1 = some 1) ∧
    ∃ r s P, Sign (constHash bytesZero bytesOne) 1 [] 1 = some (r, s) ∧ Mul 1 G = some P ∧
      (s ≠ 0 → Verify (constHash bytesZero bytesOne) P [] r s = some true) :=
  ⟨⟨by decide, by decide, nonce_constHash_one⟩,
    Sign_Verify (constHash bytesZero bytesOne) 1 [] 1 1 (by decide) (by decide)
      nonce_constHash_one⟩

set_option maxRecDepth 100000 in
/-- The condition `s ≠ 0` of the round trip cannot be dropped while the hash
primitives are parameters: with constant functions whose values make `h + x * r`
a multiple of `n`, `Sign` returns `s = 0` (it has no check for it) and `Verify`
dereferences a nil point. SHA-256 is not such a function, and no message is known
on which it gives such values. -/
theorem Sign_Verify_needs_s_ne_zero :
    ¬ (∀ (hf : Hash) (fuel : Nat) (m : List Nat) (x r s : Int) (P : Option Point),
        1 ≤ x → x ≤ n - 1 → Sign hf fuel m x = some (r, s) → Mul x G = some P →
        Verify hf P m r s = some true) := by
  intro h
  have h1 : Sign (constHash bytesNegGx bytesOne) 1 [] 1 = some (Gx, 0) := by decide
  have h2 : Mul 1 G = some G := by decide
  have h3 : Verify (constHash bytesNegGx bytesOne) G [] Gx 0 = none := by decide
  have h4 := h (constHash bytesNegGx bytesOne) 1 [] 1 Gx 0 G (by decide) (by decide) h1 h2
  rw [h3] at h4
  exact absurd h4 (by simp)


theorem Rep_inj {a b : Point} {A : secp.Point} (ha : Rep a A) (hb : Rep b A) (hA : A ≠ 0) :
    a = b := by
  cases ha with
  | inf a hinf => exact absurd rfl hA
  | fin x y hx0 hx hy0 hy h =>
    generalize hQ : Point.some h = Q at hb
    cases hb with
    | inf b hinf => exact absurd hQ (Point.some_ne_zero _)
    | fin x1 y1 hx10 hx1 hy10 hy1 h1 =>
      simp only [Point.some.injEq] at hQ
      have hx' : x = x1 := (cast_inj_of_range hx0 hx hx10 hx1).mp hQ.1
      have hy' : y = y1 := (cast_inj_of_range hy0 hy hy10 hy1).mp hQ.2
      subst hx' hy'
      rfl

theorem Exp_add_modulus (s e m : Int) (he : 0 ≤ e) (hm : m ≠ 0) :
    big.Exp (s + m) e m = big.Exp s e m := by
  rw [big.Exp_eq _ _ _ he hm, big.Exp_eq _ _ _ he hm]
  have h : s + m ≡ s [ZMOD m] := by
    have := Int.modEq_add_fac_self (a := s) (t := 1) (n := m)
    rwa [mul_one] at this
  exact h.pow _

theorem Mul_succ_aux (k : Int) (hk1 : 1 ≤ k) (hk : k ≤ n - 2) :
    (∃ c, Mul (k + 1) G = some (some c)) ∧
      Mul (k + 1) G = (Mul k G).bind (fun Q => AddPtr Q G) := by
  have hordG := addOrderOf_G
  obtain ⟨Q, hQ, hQrep⟩ := Mul_rep_int k (by omega) (by omega) _ hordG _ G_rep
  obtain ⟨Q1, hQ1, hQ1rep⟩ := Mul_rep_int (k + 1) (by omega) (by omega) _ hordG _ G_rep
  have hne : (k + 1) • Point.some G_nonsingular ≠ 0 := by
    rw [Ne, zsmul_eq_zero_iff hordG]
    intro h
    have := (cast_n_eq_zero_of_range (by omega) (by omega)).mp h
    omega
  have hsum : k • Point.some G_nonsingular + Point.some G_nonsingular
      = (k + 1) • Point.some G_nonsingular := by
    rw [add_zsmul, one_zsmul]
  obtain ⟨Q2, hQ2, hQ2rep⟩ := Add_rep hQrep G_rep (by rw [hsum]; exact hne)
  rw [hsum] at hQ2rep
  have hQQ : Q1 = Q2 := Rep_inj hQ1rep hQ2rep hne
  subst hQQ
  rw [G_eq]
  refine ⟨⟨Q1, hQ1⟩, ?_⟩
  rw [hQ1, hQ]
  simp [AddPtr, hQ2]

set_option maxRecDepth 100000 in
/-- C7 (code_bug): at `P = G` and `Q = -G` (same X, `Y_Q = p - Y_P`, both on the
curve) `Add` does not return the point at infinity: the guard compares `Q.Y`
with itself, the chord branch runs with slope 0 and returns the affine point
`(-2 * X mod p, p - Y)`. -/
theorem Add_opposite_not_infinity :
    OnCurve Gx Gy ∧ OnCurve Gx (p - Gy) ∧ (Gy + (p - Gy)) % p = 0 ∧
    Add ⟨some Gx, some Gy⟩ ⟨some Gx, some (p - Gy)⟩ =
      some ⟨some 0x0c8333020c4688a754bf3ad462f1e9f1fac80649a463ae4d4c1afd48d20fccff,
        some 0xb7c52588d95c3b9aa25b0403f1eef75702e84bb7597aabe663b82f6f04ef2777⟩ ∧
    Point.Infinite ⟨some 0x0c8333020c4688a754bf3ad462f1e9f1fac80649a463ae4d4c1afd48d20fccff,
        some 0xb7c52588d95c3b9aa25b0403f1eef75702e84bb7597aabe663b82f6f04ef2777⟩ = false := by
  refine ⟨by decide, by decide, by decide, by decide, rfl⟩

set_option maxRecDepth 100000 in
/-- C8 (code_bug): `Verify` does not reject an `s` outside `[1, n-1]`. With
`s = 0` (and `r = 1`, any message, any hash) the guards are passed, both scalar
multiples are the point at infinity, their sum is the nil pointer and the call
panics instead of returning false; and `s + n` is treated exactly as `s`, so a
valid signature stays accepted with `s` replaced by `s + n >= n`. -/
theorem Verify_out_of_range :
    (∀ (hf : Hash) (m : List Nat), Verify hf G m 1 0 = none) ∧
    (∀ (hf : Hash) (P : Option Point) (m : List Nat) (r s : Int),
      Verify hf P m r (s + n) = Verify hf P m r s) := by
  constructor
  · intro hf m
    have h0 : big.Exp 0 (n - 2) n = 0 := by decide
    have h1 : Mul 0 G = some (some ⟨none, none⟩) := by decide
    have h2 : Add ⟨none, none⟩ ⟨none, none⟩ = none := by decide
    unfold Verify
    rw [if_neg (Verify_range_checks 1), if_neg (Verify_range_checks 0)]
    simp [h0, h1, h2, AddPtr]
  · intro hf P m r s
    unfold Verify
    rw [if_neg (Verify_range_checks r), if_neg (Verify_range_checks s),
      if_neg (Verify_range_checks r), if_neg (Verify_range_checks (s + n)),
      Exp_add_modulus s (n - 2) n (by decide) (by decide)]

set_option maxRecDepth 100000 in
/-- C9 (code_bug): `Mul(n, G)` is not the point at infinity. In the last round
the accumulator is `-(2^255 G)`, `Add` misses the opposite-points case and
returns an affine point. -/
theorem Mul_n_G_not_infinity :
    Mul n G =
      some (some ⟨some 0x9b90deb7a83383c9b5ca526d60421f1b1c27eaa4b9c492782e859bf580e83156,
        some 0xfc6b694919d55edbe8d50f88aa81f94517f004f4149ecb58d10a473deb19880e⟩) := by
  have hb : big.BitLen n = 1 + 255 := by decide
  unfold Mul
  rw [G_eq, hb, n_eq, MulLoopChecked_MulLoop _ 255 0 _ _ _ _ MulLoopChecked_n_255 1]
  decide

set_option maxRecDepth 100000 in
/-- C10: `Mul(1, G)` is `G`; for every `k` with `1 <= k <= n-2`, `Mul(k+1, G)`
returns a point, the one `Add(Mul(k, G), G)` returns; and `Mul(2, G)` is the
point of the test vector. -/
theorem Mul_refines_repeated_Add :
    Mul 1 G = some G ∧
    (∀ k : Int, 1 ≤ k → k ≤ n - 2 →
      (∃ c, Mul (k + 1) G = some (some c)) ∧
        Mul (k + 1) G = (Mul k G).bind (fun Q => AddPtr Q G)) ∧
    Mul 2 G =
      some (some ⟨some 0xC6047F9441ED7D6D3045406E95C07CD85C778E4B8CEF3CA7ABAC09B95C709EE5,
        some 0x1AE168FEA63DC339A3C58419466CEAEEF7F632653266D0E1236431A950CFE52A⟩) :=
  ⟨by decide, Mul_succ_aux, by decide⟩

theorem Mul_refines_repeated_Add_witness :
    ((1 : Int) ≤ 1 ∧ (1 : Int) ≤ n - 2) ∧
      ((∃ c, Mul (1 + 1) G = some (some c)) ∧
        Mul (1 + 1) G = (Mul 1 G).bind (fun Q => AddPtr Q G)) :=
  ⟨⟨by decide, by decide⟩, Mul_refines_repeated_Add.2.1 1 (by decide) (by decide)⟩

end Refec

/-! ## Compression and decoding of points -/

namespace Refec

open WeierstrassCurve.Affine

set_option maxRecDepth 100000 in
theorem size_p : (big.Bytes p).length = 32 := by decide

theorem leftPad_eq (size : Nat) : ∀ (fuel : Nat) (bs : List Nat), bs.length ≤ size →
    size - bs.length ≤ fuel →
    leftPad size fuel bs = List.replicate (size - bs.length) 0 ++ bs := by
  intro fuel
  induction fuel with
  | zero =>
    intro bs h1 h2
    have h : size - bs.length = 0 := by omega
    simp [leftPad, h]
  | succ fuel ih =>
    intro bs h1 h2
    rw [leftPad]
    by_cases hl : bs.length = size
    · simp [hl]
    · rw [if_pos hl, ih (0 :: bs) (by simp only [List.length_cons]; omega)
        (by simp only [List.length_cons]; omega)]
      have h : size - bs.length = (size - (0 :: bs).length) + 1 := by
        simp only [List.length_cons]
        omega
      rw [h, List.replicate_succ']
      simp

theorem SetBytes_zeros_append (k : Nat) (bs : List Nat) :
    big.SetBytes (List.replicate k 0 ++ bs) = big.SetBytes bs := by
  unfold big.SetBytes
  congr 1
  rw [List.foldl_append]
  congr 1
  induction k with
  | zero => rfl
  | succ k ih =>
    rw [List.replicate_succ, List.foldl_cons]
    simpa using ih

theorem p_lt_pow : p.natAbs < 256 ^ 32 := by decide

theorem Bytes_length_le_32 (x : Int) (hx0 : 0 ≤ x) (hx : x < p) : (big.Bytes x).length ≤ 32 := by
  apply big.Bytes_length_le
  have := p_lt_pow
  have hp := p_pos
  omega

theorem Bit_zero_eq (v : Int) (hv : 0 ≤ v) : ((big.Bit v 0 : Nat) : Int) = v % 2 := by
  obtain ⟨k, rfl⟩ := Int.eq_ofNat_of_zero_le hv
  rw [big.Bit_natCast]
  simp

theorem sqrt_field (X Y : ZMod pNat) (h : Y ^ 2 = X ^ 3 + 7) :
    (X ^ 3 + 7) ^ ((pNat + 1) / 4) = Y ∨ (X ^ 3 + 7) ^ ((pNat + 1) / 4) = -Y := by
  rw [← h, ← pow_mul]
  have h2 : 2 * ((pNat + 1) / 4) = (pNat - 1) / 2 + 1 := by decide
  rw [h2, pow_succ]
  by_cases hY : Y = 0
  · left
    rw [hY, mul_zero]
  · have h1 : (Y ^ ((pNat - 1) / 2)) ^ 2 = 1 := by
      rw [← pow_mul]
      have h3 : (pNat - 1) / 2 * 2 = pNat - 1 := by decide
      rw [h3]
      exact ZMod.pow_card_sub_one_eq_one hY
    rcases sq_eq_one_iff.mp h1 with h4 | h4
    · left
      rw [h4, one_mul]
    · right
      rw [h4, neg_one_mul]

theorem sqrt_candidate (x y : Int) (hy0 : 0 ≤ y) (hy : y < p) (h : OnCurve x y) :
    big.Exp (big.Exp x 3 p + 7) ((p + 1) / 4) p = y ∨
      (y ≠ 0 ∧ big.Exp (big.Exp x 3 p + 7) ((p + 1) / 4) p = p - y) := by
  have he : (p + 1) / 4 = (((pNat + 1) / 4 : Nat) : Int) := by decide
  have h3 : (3 : Int) = ((3 : Nat) : Int) := rfl
  have hc0 : 0 ≤ big.Exp (big.Exp x 3 p + 7) ((p + 1) / 4) p :=
    big.Exp_nonneg _ _ _ (by decide) p_pos.ne'
  have hcp : big.Exp (big.Exp x 3 p + 7) ((p + 1) / 4) p < p :=
    big.Exp_lt _ _ _ (by decide) p_pos
  have hcast : ((big.Exp (big.Exp x 3 p + 7) ((p + 1) / 4) p : Int) : ZMod pNat)
      = ((x : ZMod pNat) ^ 3 + 7) ^ ((pNat + 1) / 4) := by
    rw [he, p_eq, big.Exp_cast pNat (by decide)]
    push_cast
    rw [h3, big.Exp_cast pNat (by decide)]
  have hE := (secp_equation_iff (x : ZMod pNat) (y : ZMod pNat)).mp
    ((equation_iff_OnCurve x y).mpr h)
  rcases sqrt_field _ _ hE with h1 | h1
  · left
    rw [← hcast] at h1
    exact (cast_inj_of_range hc0 hcp hy0 hy).mp h1
  · by_cases hy' : y = 0
    · left
      subst hy'
      rw [← hcast] at h1
      simp only [Int.cast_zero, neg_zero] at h1
      exact (cast_eq_zero_of_range hc0 hcp).mp h1
    · right
      refine ⟨hy', ?_⟩
      have h2 : ((big.Exp (big.Exp x 3 p + 7) ((p + 1) / 4) p : Int) : ZMod pNat)
          = ((p - y : Int) : ZMod pNat) := by
        rw [hcast, h1, p_eq]
        simp
      exact (cast_inj_of_range hc0 hcp (by omega) (by omega)).mp h2

theorem Decode_Compressed_aux (x y : Int) (hx0 : 0 ≤ x) (hx : x < p) (hy0 : 0 ≤ y) (hy : y < p)
    (h : OnCurve x y) :
    ∃ bs, Point.Compressed ⟨some x, some y⟩ = some bs ∧ Decode bs = .ok ⟨some x, some y⟩ := by
  have hlen := Bytes_length_le_32 x hx0 hx
  have hpadlen : (leftPad 32 32 (big.Bytes x)).length = 32 := by
    rw [leftPad_eq 32 32 _ hlen (by omega)]
    simp only [List.length_append, List.length_replicate]
    omega
  have hpadval : big.SetBytes (leftPad 32 32 (big.Bytes x)) = x := by
    rw [leftPad_eq 32 32 _ hlen (by omega), SetBytes_zeros_append, big.SetBytes_Bytes,
      abs_of_nonneg hx0]
  have hp2 : p % 2 = 1 := by decide
  have hby := Bit_zero_eq y hy0
  have hcand := sqrt_candidate x y hy0 hy h
  have hbpy : 0 < y → ((big.Bit (p - y) 0 : Nat) : Int) = (p - y) % 2 := fun _ =>
    Bit_zero_eq (p - y) (by omega)
  by_cases hbit : big.Bit y 0 = 0
  · refine ⟨0x02 :: leftPad 32 32 (big.Bytes x), ?_, ?_⟩
    · simp [Point.Compressed, Point.Infinite, size_p, Int.emod_eq_of_lt hx0 hx, hbit]
    · unfold Decode
      simp only [size_p, List.length_cons, hpadlen, List.head?_cons, List.drop_succ_cons,
        List.drop_zero, hpadval]
      rcases hcand with hc | ⟨hyne, hc⟩
      · rw [hc]
        simp [hbit]
      · have hb1 : big.Bit (p - y) 0 = 1 := by
          have := hbpy (by omega)
          rw [hbit] at hby
          omega
        rw [hc]
        simp [hb1]
  · have hbit1 : big.Bit y 0 = 1 := by
      unfold big.Bit at hbit ⊢
      split_ifs at hbit ⊢ with ht
      · rfl
      · exact absurd rfl hbit
    refine ⟨0x03 :: leftPad 32 32 (big.Bytes x), ?_, ?_⟩
    · simp [Point.Compressed, Point.Infinite, size_p, Int.emod_eq_of_lt hx0 hx, hbit1]
    · unfold Decode
      simp only [size_p, List.length_cons, hpadlen, List.head?_cons, List.drop_succ_cons,
        List.drop_zero, hpadval]
      rcases hcand with hc | ⟨hyne, hc⟩
      · rw [hc]
        simp [hbit1]
      · have hb1 : big.Bit (p - y) 0 = 0 := by
          have := hbpy (by omega)
          rw [hbit1] at hby
          omega
        rw [hc]
        simp [hb1]

/-- C6: for every point `(X, Y)` with `0 <= X, Y < p` on the curve,
`Compressed` returns a byte string and `Decode` of it returns, with no error,
the point `(X, Y)`. -/
theorem Decode_Compressed (x y : Int) (hx0 : 0 ≤ x) (hx : x < p) (hy0 : 0 ≤ y) (hy : y < p)
    (h : OnCurve x y) :
    ∃ bs, Point.Compressed ⟨some x, some y⟩ = some bs ∧ Decode bs = .ok ⟨some x, some y⟩ :=
  Decode_Compressed_aux x y hx0 hx hy0 hy h

theorem Decode_Compressed_witness :
    (0 ≤ Gx ∧ Gx < p ∧ 0 ≤ Gy ∧ Gy < p ∧ OnCurve Gx Gy) ∧
    ∃ bs, Point.Compressed ⟨some Gx, some Gy⟩ = some bs ∧ Decode bs = .ok ⟨some Gx, some Gy⟩ :=
  ⟨⟨by decide, by decide, by decide, by decide, by decide⟩,
    Decode_Compressed Gx Gy (by decide) (by decide) (by decide) (by decide) (by decide)⟩

end Refec

/-! ## Paillier: number theory behind decryption -/

namespace Refec

theorem gcdLoop_natCast : ∀ (bn an : Nat), gcdLoop (an : Int) (bn : Int) = (Nat.gcd an bn : Nat) := by
  intro bn
  induction bn using Nat.strong_induction_on with
  | _ bn ih =>
    intro an
    rw [gcdLoop]
    by_cases hb : (bn : Int) = 0
    · rw [dif_pos hb]
      have hb' : bn = 0 := by exact_mod_cast hb
      subst hb'
      simp
    · rw [dif_neg hb]
      have hb' : bn ≠ 0 := by exact_mod_cast hb
      have hlt : an % bn < bn := Nat.mod_lt _ (Nat.pos_of_ne_zero hb')
      have hcast : (an : Int) % (bn : Int) = ((an % bn : Nat) : Int) := by
        push_cast
        rfl
      rw [hcast, ih (an % bn) hlt bn]
      congr 1
      rw [Nat.gcd_comm an bn, Nat.gcd_rec bn an, Nat.gcd_comm]

theorem gcd_eq (a b : Int) (ha : 0 ≤ a) (hb : 0 ≤ b) : gcd a b = (Int.gcd a b : Nat) := by
  obtain ⟨an, rfl⟩ := Int.eq_ofNat_of_zero_le ha
  obtain ⟨bn, rfl⟩ := Int.eq_ofNat_of_zero_le hb
  unfold gcd
  rw [Int.gcd_natCast_natCast]
  split_ifs
  · rw [gcdLoop_natCast, Nat.gcd_comm]
  · rw [gcdLoop_natCast]

theorem gcd_eq_one_iff (a b : Int) (ha : 0 ≤ a) (hb : 0 ≤ b) : gcd a b = 1 ↔ Int.gcd a b = 1 := by
  rw [gcd_eq a b ha hb]
  exact_mod_cast Iff.rfl

theorem lcm_spec (a b : Int) (ha : 1 ≤ a) (hb : 1 ≤ b) :
    0 < lcm a b ∧ a ∣ lcm a b ∧ b ∣ lcm a b := by
  unfold lcm
  rw [gcd_eq a b (by omega) (by omega)]
  have hda : (Int.gcd a b : Int) ∣ a := Int.gcd_dvd_left
  have hdb : (Int.gcd a b : Int) ∣ b := Int.gcd_dvd_right
  have hd0 : (0 : Int) < Int.gcd a b := by
    have : 0 < Int.gcd a b := Int.gcd_pos_of_ne_zero_left b (by omega)
    exact_mod_cast this
  have h1 : a * b / (Int.gcd a b : Int) = a * (b / (Int.gcd a b : Int)) :=
    Int.mul_ediv_assoc a hdb
  have h2 : a * b / (Int.gcd a b : Int) = a / (Int.gcd a b : Int) * b :=
    Int.mul_ediv_assoc' b hda
  have hbd : 0 < b / (Int.gcd a b : Int) := Int.ediv_pos_of_pos_of_dvd (by omega) hd0.le hdb
  refine ⟨?_, ?_, ?_⟩
  · rw [h1]
    exact Int.mul_pos (by omega) hbd
  · rw [h1]
    exact Dvd.intro _ rfl
  · rw [h2]
    exact Dvd.intro_left _ rfl

theorem pow_modEq_one_prime (P : Nat) (hP : P.Prime) (x : Int) (hx : ¬ (P : Int) ∣ x)
    (e : Nat) (he : (P - 1) ∣ e) : x ^ e ≡ 1 [ZMOD (P : Int)] := by
  haveI := Fact.mk hP
  have hx0 : (x : ZMod P) ≠ 0 := by
    rw [Ne, ZMod.intCast_zmod_eq_zero_iff_dvd]
    exact hx
  obtain ⟨t, rfl⟩ := he
  rw [← ZMod.intCast_eq_intCast_iff]
  push_cast
  rw [pow_mul, ZMod.pow_card_sub_one_eq_one hx0, one_pow]

theorem pow_modEq_one_mul (P Q : Nat) (hP : P.Prime) (hQ : Q.Prime) (hPQ : P ≠ Q) (x : Int)
    (hx : Int.gcd x ((P : Int) * Q) = 1) (e : Nat) (heP : (P - 1) ∣ e) (heQ : (Q - 1) ∣ e) :
    x ^ e ≡ 1 [ZMOD (P : Int) * Q] := by
  have hxP : ¬ (P : Int) ∣ x := by
    intro h
    have h1 : (P : Int) ∣ Int.gcd x ((P : Int) * Q) := Int.dvd_gcd h (Dvd.intro _ rfl)
    rw [hx] at h1
    have h2 : (P : Int) ∣ 1 := by exact_mod_cast h1
    have h3 : P ∣ 1 := by exact_mod_cast h2
    exact hP.one_lt.ne' (Nat.dvd_one.mp h3)
  have hxQ : ¬ (Q : Int) ∣ x := by
    intro h
    have h1 : (Q : Int) ∣ Int.gcd x ((P : Int) * Q) := Int.dvd_gcd h (Dvd.intro_left _ rfl)
    rw [hx] at h1
    have h2 : (Q : Int) ∣ 1 := by exact_mod_cast h1
    have h3 : Q ∣ 1 := by exact_mod_cast h2
    exact hQ.one_lt.ne' (Nat.dvd_one.mp h3)
  have hcop : (P : Int).natAbs.Coprime (Q : Int).natAbs := by
    simp only [Int.natAbs_ofNat]
    exact (Nat.coprime_primes hP hQ).mpr hPQ
  exact (Int.modEq_and_modEq_iff_modEq_mul hcop).mp
    ⟨pow_modEq_one_prime P hP x hxP e heP, pow_modEq_one_prime Q hQ x hxQ e heQ⟩

theorem one_add_mul_pow (N t : Int) (k : Nat) :
    (1 + N * t) ^ k ≡ 1 + N * (k * t) [ZMOD N * N] := by
  induction k with
  | zero => simp [Int.ModEq]
  | succ k ih =>
    rw [pow_succ]
    have h1 := ih.mul_right (1 + N * t)
    refine h1.trans ?_
    rw [Int.modEq_iff_dvd]
    refine ⟨-(k * t * t), ?_⟩
    push_cast
    ring

theorem L_of_congr (N : Int) (hN : N ≠ 0) (u t : Int) (h : u ≡ 1 + N * t [ZMOD N * N]) :
    ∃ l, L u N = some (some l) ∧ l ≡ t [ZMOD N] := by
  obtain ⟨j, hj⟩ := Int.modEq_iff_add_fac.mp h
  have hu : u - 1 = N * (t - N * j) := by linear_combination -hj
  refine ⟨t - N * j, ?_, ?_⟩
  · unfold L
    rw [if_neg hN, hu, Int.mul_emod_right, Int.mul_ediv_cancel_left _ hN]
    simp
  · exact Int.modEq_sub_fac _ (Int.ModEq.refl t)


theorem keysFrom_spec (pp qq g : Int) (pub : PublicKey) (pri : PrivateKey)
    (h : keysFrom pp qq g = some (pub, pri)) :
    ∃ a mu, gcd g (pp * qq * (pp * qq)) = 1 ∧
      L (big.Exp g (lcm (pp - 1) (qq - 1)) (pp * qq * (pp * qq))) (pp * qq) = some (some a) ∧
      gcd a (pp * qq) = 1 ∧ big.ModInverse a (pp * qq) = some mu ∧
      pub = ⟨pp * qq, g, pp * qq * (pp * qq)⟩ ∧
      pri = ⟨lcm (pp - 1) (qq - 1), mu, pp * qq, pp * qq * (pp * qq)⟩ := by
  unfold keysFrom at h
  simp only at h
  by_cases h1 : gcd g (pp * qq * (pp * qq)) = 1
  · rw [if_neg (not_not.mpr h1)] at h
    split at h
    · rename_i a ha
      by_cases h2 : gcd a (pp * qq) = 1
      · rw [if_neg (not_not.mpr h2)] at h
        split at h
        · rename_i mu hmu
          simp only [Option.some.injEq, Prod.mk.injEq] at h
          exact ⟨a, mu, h1, ha, h2, hmu, h.1.symm, h.2.symm⟩
        · exact absurd h (by simp)
      · rw [if_pos h2] at h
        exact absurd h (by simp)
    · exact absurd h (by simp)
  · rw [if_pos h1] at h
    exact absurd h (by simp)

theorem Decryption_of_congr (P Q : Nat) (hP : P.Prime) (hQ : Q.Prime) (hPQ : P ≠ Q) (g : Int)
    (hg0 : 0 ≤ g) (pub : PublicKey) (pri : PrivateKey)
    (hkey : keysFrom P Q g = some (pub, pri))
    (c z ρ : Int) (hc0 : 0 ≤ c) (hc : c < pub.n2) (hz : 0 ≤ z)
    (hρ : Int.gcd ρ ((P : Int) * Q) = 1)
    (hcong : c ≡ g ^ z.toNat * ρ ^ (P * Q) [ZMOD (P : Int) * Q * ((P : Int) * Q)]) :
    pri.Decryption c = some (.ok (z % ((P : Int) * Q))) := by
  obtain ⟨a, mu, hg, hLa, ha, hmu, hpub, hpri⟩ := keysFrom_spec P Q g pub pri hkey
  have hP2 := hP.two_le
  have hQ2 := hQ.two_le
  have hN4 : (4 : Int) ≤ (P : Int) * Q := by
    have : 4 ≤ P * Q := by nlinarith
    exact_mod_cast this
  have hN0 : (P : Int) * Q ≠ 0 := by omega
  have hN20 : (P : Int) * Q * ((P : Int) * Q) ≠ 0 := mul_ne_zero hN0 hN0
  obtain ⟨hlam0, hlamP, hlamQ⟩ := lcm_spec ((P : Int) - 1) ((Q : Int) - 1)
    (by have : (2 : Int) ≤ P := by exact_mod_cast hP2
        omega)
    (by have : (2 : Int) ≤ Q := by exact_mod_cast hQ2
        omega)
  obtain ⟨lam, hlam⟩ := Int.eq_ofNat_of_zero_le hlam0.le
  rw [hlam] at hlam0 hlamP hlamQ hLa
  have hlam1 : 0 < lam := by exact_mod_cast hlam0
  have hlamP' : (P - 1) ∣ lam := by
    have h1 : ((P : Int) - 1) = ((P - 1 : Nat) : Int) := by
      rw [Nat.cast_sub (by omega)]
      rfl
    rw [h1] at hlamP
    exact_mod_cast hlamP
  have hlamQ' : (Q - 1) ∣ lam := by
    have h1 : ((Q : Int) - 1) = ((Q - 1 : Nat) : Int) := by
      rw [Nat.cast_sub (by omega)]
      rfl
    rw [h1] at hlamQ
    exact_mod_cast hlamQ
  -- g is a unit modulo N
  have hgN : Int.gcd g ((P : Int) * Q) = 1 := by
    have h1 := (gcd_eq_one_iff g _ hg0 (mul_self_nonneg _)).mp hg
    rw [← Int.isCoprime_iff_gcd_eq_one] at h1 ⊢
    exact h1.of_mul_right_left
  obtain ⟨a0, ha0⟩ := Int.modEq_iff_add_fac.mp
    (pow_modEq_one_mul P Q hP hQ hPQ g hgN lam hlamP' hlamQ').symm
  obtain ⟨b0, hb0⟩ := Int.modEq_iff_add_fac.mp
    (pow_modEq_one_mul P Q hP hQ hPQ ρ hρ lam hlamP' hlamQ').symm
  -- the multiplier of the key
  have hExpg : big.Exp g (lam : Int) ((P : Int) * Q * ((P : Int) * Q))
      ≡ 1 + (P : Int) * Q * a0 [ZMOD (P : Int) * Q * ((P : Int) * Q)] := by
    rw [big.Exp_eq _ _ _ (Int.natCast_nonneg _) hN20, Int.toNat_natCast, ha0]
    exact Int.mod_modEq _ _
  obtain ⟨a', hLa', haa0⟩ := L_of_congr _ hN0 _ _ hExpg
  rw [hLa] at hLa'
  simp only [Option.some.injEq] at hLa'
  subst hLa'
  have hamu : a * mu ≡ 1 [ZMOD (P : Int) * Q] := (big.ModInverse_spec a _ mu hN0 hmu).1
  -- the power of the ciphertext
  have hclam : c ^ lam ≡ 1 + (P : Int) * Q * (z * a0) [ZMOD (P : Int) * Q * ((P : Int) * Q)] := by
    have h1 := hcong.pow lam
    refine h1.trans ?_
    rw [mul_pow, ← pow_mul, ← pow_mul, mul_comm z.toNat lam, mul_comm (P * Q) lam, pow_mul,
      pow_mul, ha0, hb0]
    have h2 := one_add_mul_pow ((P : Int) * Q) a0 z.toNat
    have h3 := one_add_mul_pow ((P : Int) * Q) b0 (P * Q)
    have h4 : 1 + (P : Int) * Q * (((P * Q : Nat) : Int) * b0)
        ≡ 1 [ZMOD (P : Int) * Q * ((P : Int) * Q)] := by
      rw [Int.modEq_iff_dvd]
      refine ⟨-b0, ?_⟩
      push_cast
      ring
    have h5 := h2.mul (h3.trans h4)
    rw [mul_one, Int.toNat_of_nonneg hz] at h5
    exact h5
  have hc1 : c ≠ 0 := by
    intro h0
    rw [h0, zero_pow hlam1.ne'] at hclam
    have h1 := hclam.of_mul_right _
    rw [Int.modEq_iff_dvd] at h1
    have h2 : (P : Int) * Q ∣ 1 := by
      have h3 : (P : Int) * Q ∣ (P : Int) * Q * (z * a0) := Dvd.intro _ rfl
      have h4 := (Int.dvd_add_right h3).mp (by
        have : (P : Int) * Q * (z * a0) + 1 = 1 + (P : Int) * Q * (z * a0) - 0 := by ring
        rw [this]
        exact h1)
      exact h4
    have h5 := Int.le_of_dvd one_pos h2
    omega
  have hExpc : big.Exp c (lam : Int) ((P : Int) * Q * ((P : Int) * Q))
      ≡ 1 + (P : Int) * Q * (z * a0) [ZMOD (P : Int) * Q * ((P : Int) * Q)] := by
    rw [big.Exp_eq _ _ _ (Int.natCast_nonneg _) hN20, Int.toNat_natCast]
    exact (Int.mod_modEq _ _).trans hclam
  obtain ⟨l, hLl, hl⟩ := L_of_congr _ hN0 _ _ hExpc
  subst hpub hpri
  simp only at hc
  unfold PrivateKey.Decryption
  simp only
  rw [if_neg (by omega), hlam, hLl]
  simp only [Option.some.injEq, Except.ok.injEq]
  have h6 : l * mu ≡ z [ZMOD (P : Int) * Q] := by
    have h7 := (hl.trans ((haa0.symm).mul_left z)).mul_right mu
    refine h7.trans ?_
    rw [mul_assoc]
    have h8 := hamu.mul_left z
    rw [mul_one] at h8
    exact h8
  exact h6

end Refec

/-! ## Paillier: the claims on encryption and the homomorphic operations -/

namespace Refec

theorem ModInverse_eq_of (g m x : Int) (hm : 0 < m) (hx0 : 0 ≤ x) (hx : x < m)
    (h : g * x % m = 1 % m) : big.ModInverse g m = some x := by
  have hcop : Int.gcd g m = 1 := by
    rw [← Int.isCoprime_iff_gcd_eq_one]
    have h1 : g * x ≡ 1 [ZMOD m] := h
    obtain ⟨t, ht⟩ := Int.modEq_iff_add_fac.mp h1.symm
    exact ⟨x, -t, by linear_combination ht⟩
  obtain ⟨y, hy⟩ := big.ModInverse_isSome g m hcop
  obtain ⟨hy1, hy0, hym⟩ := big.ModInverse_spec g m y hm.ne' hy
  rw [abs_of_pos hm] at hym
  have h1 : g * x ≡ 1 [ZMOD m] := h
  have h2 : g * y ≡ 1 [ZMOD m] := hy1
  have h3 : y ≡ x [ZMOD m] := by
    have h4 : y * (g * x) ≡ y * 1 [ZMOD m] := h1.mul_left y
    have h5 : (g * y) * x ≡ 1 * x [ZMOD m] := h2.mul_right x
    rw [mul_one] at h4
    rw [one_mul] at h5
    have h6 : y * (g * x) = g * y * x := by ring
    rw [h6] at h4
    exact h4.symm.trans h5
  have h7 : y = x := by
    have := h3.eq
    rwa [Int.emod_eq_of_lt hy0 hym, Int.emod_eq_of_lt hx0 hx] at this
  rw [hy, h7]

theorem toNat_mul_of_nonneg (a b : Int) (ha : 0 ≤ a) (hb : 0 ≤ b) :
    (a * b).toNat = a.toNat * b.toNat := by
  obtain ⟨x, rfl⟩ := Int.eq_ofNat_of_zero_le ha
  obtain ⟨y, rfl⟩ := Int.eq_ofNat_of_zero_le hb
  have h : ((x : Int) * y) = ((x * y : Nat) : Int) := by
    push_cast
    rfl
  rw [h, Int.toNat_natCast, Int.toNat_natCast, Int.toNat_natCast]

theorem gcd_eval (a b : Int) (ha : 0 ≤ a) (hb : 0 ≤ b) (d : Nat) (h : Int.gcd a b = d) :
    gcd a b = d := by
  rw [gcd_eq a b ha hb, h]

theorem drawUnit_spec (N : Int) (draws : List Int) (hex : ∃ d ∈ draws, gcd d N = 1) :
    ∃ r, drawUnit N draws = some r ∧ r ∈ draws ∧ gcd r N = 1 := by
  induction draws with
  | nil =>
    obtain ⟨d, hd, _⟩ := hex
    exact absurd hd (List.not_mem_nil d)
  | cons d ds ih =>
    unfold drawUnit
    by_cases h : gcd d N = 1
    · rw [if_pos h]
      exact ⟨d, rfl, List.mem_cons_self _ _, h⟩
    · rw [if_neg h]
      obtain ⟨e, he, he1⟩ := hex
      rcases List.mem_cons.mp he with h1 | h1
      · subst h1
        exact absurd he1 h
      · obtain ⟨r, hr, hrm, hr1⟩ := ih ⟨e, h1, he1⟩
        exact ⟨r, hr, List.mem_cons_of_mem _ hrm, hr1⟩

theorem Encryption_spec (P Q : Nat) (hP : P.Prime) (hQ : Q.Prime) (g m : Int) (hm0 : 0 ≤ m)
    (hm : m < (P : Int) * Q) (draws : List Int) (hd : ∀ d ∈ draws, 0 ≤ d ∧ d < (P : Int) * Q)
    (hex : ∃ d ∈ draws, gcd d ((P : Int) * Q) = 1) :
    ∃ c ρ, (PublicKey.mk ((P : Int) * Q) g ((P : Int) * Q * ((P : Int) * Q))).Encryption m draws
        = some (.ok c) ∧
      0 ≤ c ∧ c < (P : Int) * Q * ((P : Int) * Q) ∧ Int.gcd ρ ((P : Int) * Q) = 1 ∧
      c ≡ g ^ m.toNat * ρ ^ (P * Q) [ZMOD (P : Int) * Q * ((P : Int) * Q)] := by
  obtain ⟨r, hr, hrm, hr1⟩ := drawUnit_spec _ draws hex
  have hN0 : (0 : Int) < (P : Int) * Q := by
    have := hP.pos
    have := hQ.pos
    positivity
  have hN20 : (0 : Int) < (P : Int) * Q * ((P : Int) * Q) := mul_pos hN0 hN0
  have hNcast : (P : Int) * Q = ((P * Q : Nat) : Int) := by
    push_cast
    rfl
  refine ⟨(big.Exp g m ((P : Int) * Q * ((P : Int) * Q)) *
      big.Exp r ((P : Int) * Q) ((P : Int) * Q * ((P : Int) * Q))) %
      ((P : Int) * Q * ((P : Int) * Q)), r, ?_, Int.emod_nonneg _ hN20.ne',
    Int.emod_lt_of_pos _ hN20,
    (gcd_eq_one_iff r _ (hd r hrm).1 hN0.le).mp hr1, ?_⟩
  · unfold PublicKey.Encryption
    simp only
    rw [if_neg (by omega), hr]
    simp only [if_neg hN20.ne']
  · refine (Int.mod_modEq _ _).trans ?_
    rw [big.Exp_eq _ _ _ hm0 hN20.ne', big.Exp_eq _ _ _ hN0.le hN20.ne']
    have h1 : ((P : Int) * Q).toNat = P * Q := by
      rw [hNcast, Int.toNat_natCast]
    rw [h1]
    exact (Int.mod_modEq _ _).mul (Int.mod_modEq _ _)

theorem Decryption_Encryption_aux (P Q : Nat) (hP : P.Prime) (hQ : Q.Prime) (hPQ : P ≠ Q)
    (g : Int) (hg0 : 0 ≤ g) (pub : PublicKey) (pri : PrivateKey)
    (hkey : keysFrom P Q g = some (pub, pri)) (m : Int) (hm0 : 0 ≤ m) (hm : m < pub.n)
    (draws : List Int) (hd : ∀ d ∈ draws, 0 ≤ d ∧ d < pub.n)
    (hex : ∃ d ∈ draws, gcd d pub.n = 1) :
    ∃ c, pub.Encryption m draws = some (.ok c) ∧ pri.Decryption c = some (.ok m) := by
  obtain ⟨a, mu, -, -, -, -, hpub, -⟩ := keysFrom_spec P Q g pub pri hkey
  have hn : pub.n = (P : Int) * Q := by rw [hpub]
  have hn2 : pub.n2 = (P : Int) * Q * ((P : Int) * Q) := by rw [hpub]
  rw [hn] at hm hd hex
  obtain ⟨c, ρ, hc, hc0, hcN, hρ, hcong⟩ := Encryption_spec P Q hP hQ g m hm0 hm draws hd hex
  rw [← hpub] at hc
  refine ⟨c, hc, ?_⟩
  rw [Decryption_of_congr P Q hP hQ hPQ g hg0 pub pri hkey c m ρ hc0 (by rw [hn2]; exact hcN)
    hm0 hρ hcong, Int.emod_eq_of_lt hm0 hm]

theorem Decryption_Mul_aux (P Q : Nat) (hP : P.Prime) (hQ : Q.Prime) (hPQ : P ≠ Q)
    (g : Int) (hg0 : 0 ≤ g) (pub : PublicKey) (pri : PrivateKey)
    (hkey : keysFrom P Q g = some (pub, pri)) (m1 m2 : Int) (hm10 : 0 ≤ m1) (hm1 : m1 < pub.n)
    (hm20 : 0 ≤ m2) (hm2 : m2 < pub.n)
    (draws1 draws2 : List Int) (hd1 : ∀ d ∈ draws1, 0 ≤ d ∧ d < pub.n)
    (hd2 : ∀ d ∈ draws2, 0 ≤ d ∧ d < pub.n)
    (hex1 : ∃ d ∈ draws1, gcd d pub.n = 1) (hex2 : ∃ d ∈ draws2, gcd d pub.n = 1) :
    ∃ c1 c2 c3, pub.Encryption m1 draws1 = some (.ok c1) ∧
      pub.Encryption m2 draws2 = some (.ok c2) ∧ pub.Mul c1 c2 = some c3 ∧
      pri.Decryption c3 = some (.ok ((m1 + m2) % pub.n)) := by
  obtain ⟨a, mu, -, -, -, -, hpub, -⟩ := keysFrom_spec P Q g pub pri hkey
  have hn : pub.n = (P : Int) * Q := by rw [hpub]
  have hn2 : pub.n2 = (P : Int) * Q * ((P : Int) * Q) := by rw [hpub]
  rw [hn] at hm1 hm2 hd1 hd2 hex1 hex2
  obtain ⟨c1, ρ1, hc1, -, -, hρ1, hcong1⟩ :=
    Encryption_spec P Q hP hQ g m1 hm10 hm1 draws1 hd1 hex1
  obtain ⟨c2, ρ2, hc2, -, -, hρ2, hcong2⟩ :=
    Encryption_spec P Q hP hQ g m2 hm20 hm2 draws2 hd2 hex2
  rw [← hpub] at hc1 hc2
  have hN20 : (0 : Int) < (P : Int) * Q * ((P : Int) * Q) := by
    have := hP.pos
    have := hQ.pos
    positivity
  refine ⟨c1, c2, (c1 * c2) % pub.n2, hc1, hc2, ?_, ?_⟩
  · unfold PublicKey.Mul
    rw [if_neg (by rw [hn2]; exact hN20.ne')]
  · rw [hn]
    apply Decryption_of_congr P Q hP hQ hPQ g hg0 pub pri hkey _ (m1 + m2) (ρ1 * ρ2)
    · exact Int.emod_nonneg _ (by rw [hn2]; exact hN20.ne')
    · exact Int.emod_lt_of_pos _ (by rw [hn2]; exact hN20)
    · omega
    · rw [← Int.isCoprime_iff_gcd_eq_one] at hρ1 hρ2 ⊢
      exact hρ1.mul_left hρ2
    · rw [hn2]
      refine (Int.mod_modEq _ _).trans ?_
      have h1 := hcong1.mul hcong2
      refine h1.trans ?_
      rw [Int.toNat_add hm10 hm20, pow_add, mul_pow]
      have h2 : g ^ m1.toNat * ρ1 ^ (P * Q) * (g ^ m2.toNat * ρ2 ^ (P * Q))
          = g ^ m1.toNat * g ^ m2.toNat * (ρ1 ^ (P * Q) * ρ2 ^ (P * Q)) := by ring
      rw [h2]

theorem Decryption_Exp_aux (P Q : Nat) (hP : P.Prime) (hQ : Q.Prime) (hPQ : P ≠ Q)
    (g : Int) (hg0 : 0 ≤ g) (pub : PublicKey) (pri : PrivateKey)
    (hkey : keysFrom P Q g = some (pub, pri)) (m k : Int) (hm0 : 0 ≤ m) (hm : m < pub.n)
    (hk : 0 ≤ k) (draws : List Int) (hd : ∀ d ∈ draws, 0 ≤ d ∧ d < pub.n)
    (hex : ∃ d ∈ draws, gcd d pub.n = 1) :
    ∃ c, pub.Encryption m draws = some (.ok c) ∧
      pri.Decryption (pub.Exp c k) = some (.ok ((m * k) % pub.n)) := by
  obtain ⟨a, mu, -, -, -, -, hpub, -⟩ := keysFrom_spec P Q g pub pri hkey
  have hn : pub.n = (P : Int) * Q := by rw [hpub]
  have hn2 : pub.n2 = (P : Int) * Q * ((P : Int) * Q) := by rw [hpub]
  rw [hn] at hm hd hex
  obtain ⟨c, ρ, hc, -, -, hρ, hcong⟩ := Encryption_spec P Q hP hQ g m hm0 hm draws hd hex
  rw [← hpub] at hc
  have hN20 : (0 : Int) < (P : Int) * Q * ((P : Int) * Q) := by
    have := hP.pos
    have := hQ.pos
    positivity
  refine ⟨c, hc, ?_⟩
  rw [hn]
  unfold PublicKey.Exp
  rw [hn2]
  apply Decryption_of_congr P Q hP hQ hPQ g hg0 pub pri hkey _ (m * k) (ρ ^ k.toNat)
  · exact big.Exp_nonneg _ _ _ hk hN20.ne'
  · rw [hn2]
    exact big.Exp_lt _ _ _ hk hN20
  · exact mul_nonneg hm0 hk
  · rw [← Int.isCoprime_iff_gcd_eq_one] at hρ ⊢
    exact hρ.pow_left
  · rw [big.Exp_eq _ _ _ hk hN20.ne']
    refine (Int.mod_modEq _ _).trans ?_
    have h1 := hcong.pow k.toNat
    have h2 : (g ^ m.toNat * ρ ^ (P * Q)) ^ k.toNat
        = g ^ (m * k).toNat * (ρ ^ k.toNat) ^ (P * Q) := by
      rw [toNat_mul_of_nonneg m k hm0 hk, mul_pow, ← pow_mul, ← pow_mul, ← pow_mul,
        mul_comm (P * Q) k.toNat]
    rw [h2] at h1
    exact h1

end Refec

/-! ## Paillier: the claims, with example keys -/

namespace Refec

open WeierstrassCurve.Affine

theorem lcm_eval (a b : Int) (ha : 0 ≤ a) (hb : 0 ≤ b) (d : Nat) (h : Int.gcd a b = d) :
    lcm a b = a * b / d := by
  unfold lcm
  rw [gcd_eval a b ha hb d h]

theorem keysFrom_eval (pp qq g lam u a mu : Int) (hg0 : 0 ≤ g) (hN : 0 ≤ pp * qq)
    (h1 : Int.gcd g (pp * qq * (pp * qq)) = 1) (h2 : lcm (pp - 1) (qq - 1) = lam)
    (h3 : big.Exp g lam (pp * qq * (pp * qq)) = u) (h4 : L u (pp * qq) = some (some a))
    (ha0 : 0 ≤ a) (h5 : Int.gcd a (pp * qq) = 1) (h6 : big.ModInverse a (pp * qq) = some mu) :
    keysFrom pp qq g
      = some (⟨pp * qq, g, pp * qq * (pp * qq)⟩, ⟨lam, mu, pp * qq, pp * qq * (pp * qq)⟩) := by
  unfold keysFrom
  simp only
  rw [if_neg (not_not.mpr ((gcd_eq_one_iff g _ hg0 (mul_self_nonneg _)).mpr h1)), h2, h3, h4]
  simp only
  rw [if_neg (not_not.mpr ((gcd_eq_one_iff a _ ha0 hN).mpr h5)), h6]

theorem keysFrom_small : keysFrom ((3 : Nat) : Int) ((5 : Nat) : Int) 16
    = some (pubSmall, priSmall) :=
  keysFrom_eval 3 5 16 4 61 4 4 (by decide) (by decide) (by decide)
    (by rw [lcm_eval _ _ (by decide) (by decide) 2 (by decide)]; decide)
    (by decide) (by decide) (by decide) (by decide)
    (ModInverse_eq_of 4 15 4 (by decide) (by decide) (by decide) (by decide))

set_option maxRecDepth 100000 in
theorem keysFrom_big : keysFrom (pNat : Int) (nNat : Int) ((pNat : Int) * nNat + 1)
    = some (pubBig, priBig) :=
  keysFrom_eval pNat nNat ((pNat : Int) * nNat + 1) priBig.lam
    29961552247705265128821753179817078893409169491164158533185425272935766834765676452058158427485199328160805425196044841260636651019370832781090735173665306146695522415389611381961385453259117096781354194656261452496387834564053504235274494419128523669379422058445811868247566409569918086952226058042600196033
    priBig.lam priBig.mu (by decide) (by decide) (by decide)
    (by rw [lcm_eval _ _ (by decide) (by decide) 6 (by decide)]; decide)
    (by decide) (by decide) (by decide) (by decide)
    (ModInverse_eq_of _ _ _ (by decide) (by decide) (by decide) (by decide))


theorem gcd_small_two : gcd 2 pubSmall.n = 1 :=
  (gcd_eq_one_iff 2 15 (by decide) (by decide)).mpr (by decide)

theorem gcd_small_one : gcd 1 pubSmall.n = 1 :=
  (gcd_eq_one_iff 1 15 (by decide) (by decide)).mpr (by decide)

theorem gcd_big_one : gcd 1 pubBig.n = 1 :=
  (gcd_eq_one_iff 1 _ (by decide) (by decide)).mpr (by decide)

/-- C2: for every key pair `KeyGeneration` builds from two distinct primes (with
a draw `g >= 0` that passes its tests), every plaintext `0 <= m < N` and every
list of draws in `[0, N)` holding one that passes the `gcd` test,
`Encryption` returns a ciphertext and `Decryption` of it returns `m`. -/
theorem Decryption_Encryption (P Q : Nat) (hP : P.Prime) (hQ : Q.Prime) (hPQ : P ≠ Q)
    (g : Int) (hg0 : 0 ≤ g) (pub : PublicKey) (pri : PrivateKey)
    (hkey : keysFrom P Q g = some (pub, pri)) (m : Int) (hm0 : 0 ≤ m) (hm : m < pub.n)
    (draws : List Int) (hd : ∀ d ∈ draws, 0 ≤ d ∧ d < pub.n)
    (hex : ∃ d ∈ draws, gcd d pub.n = 1) :
    ∃ c, pub.Encryption m draws = some (.ok c) ∧ pri.Decryption c = some (.ok m) :=
  Decryption_Encryption_aux P Q hP hQ hPQ g hg0 pub pri hkey m hm0 hm draws hd hex

theorem Decryption_Encryption_witness :
    (Nat.Prime 3 ∧ Nat.Prime 5 ∧ keysFrom ((3 : Nat) : Int) ((5 : Nat) : Int) 16
        = some (pubSmall, priSmall) ∧ (0 : Int) ≤ 7 ∧ 7 < pubSmall.n ∧
      (∀ d ∈ [(3 : Int), 2], 0 ≤ d ∧ d < pubSmall.n) ∧ gcd 2 pubSmall.n = 1) ∧
    ∃ c, pubSmall.Encryption 7 [3, 2] = some (.ok c) ∧ priSmall.Decryption c = some (.ok 7) :=
  ⟨⟨by norm_num, by norm_num, keysFrom_small, by decide, by decide, by decide, gcd_small_two⟩,
    Decryption_Encryption 3 5 (by norm_num) (by norm_num) (by decide) 16 (by decide)
      pubSmall priSmall keysFrom_small 7 (by decide) (by decide) [3, 2] (by decide)
      ⟨2, by simp, gcd_small_two⟩⟩

/-- C3: for every key pair `KeyGeneration` builds from two distinct primes and all
plaintexts `m1`, `m2` in `[0, N)`, both encryptions return, `pub.Mul` of the two
ciphertexts returns, and `Decryption` of it returns `(m1 + m2) mod N`. -/
theorem Decryption_Mul (P Q : Nat) (hP : P.Prime) (hQ : Q.Prime) (hPQ : P ≠ Q)
    (g : Int) (hg0 : 0 ≤ g) (pub : PublicKey) (pri : PrivateKey)
    (hkey : keysFrom P Q g = some (pub, pri)) (m1 m2 : Int) (hm10 : 0 ≤ m1) (hm1 : m1 < pub.n)
    (hm20 : 0 ≤ m2) (hm2 : m2 < pub.n)
    (draws1 draws2 : List Int) (hd1 : ∀ d ∈ draws1, 0 ≤ d ∧ d < pub.n)
    (hd2 : ∀ d ∈ draws2, 0 ≤ d ∧ d < pub.n)
    (hex1 : ∃ d ∈ draws1, gcd d pub.n = 1) (hex2 : ∃ d ∈ draws2, gcd d pub.n = 1) :
    ∃ c1 c2 c3, pub.Encryption m1 draws1 = some (.ok c1) ∧
      pub.Encryption m2 draws2 = some (.ok c2) ∧ pub.Mul c1 c2 = some c3 ∧
      pri.Decryption c3 = some (.ok ((m1 + m2) % pub.n)) :=
  Decryption_Mul_aux P Q hP hQ hPQ g hg0 pub pri hkey m1 m2 hm10 hm1 hm20 hm2 draws1 draws2
    hd1 hd2 hex1 hex2

theorem Decryption_Mul_witness :
    (Nat.Prime 3 ∧ Nat.Prime 5 ∧ keysFrom ((3 : Nat) : Int) ((5 : Nat) : Int) 16
        = some (pubSmall, priSmall) ∧ (0 : Int) ≤ 7 ∧ 7 < pubSmall.n ∧
      (0 : Int) ≤ 11 ∧ 11 < pubSmall.n ∧
      (∀ d ∈ [(3 : Int), 2], 0 ≤ d ∧ d < pubSmall.n) ∧
      (∀ d ∈ [(1 : Int)], 0 ≤ d ∧ d < pubSmall.n) ∧
      gcd 2 pubSmall.n = 1 ∧ gcd 1 pubSmall.n = 1) ∧
    ∃ c1 c2 c3, pubSmall.Encryption 7 [3, 2] = some (.ok c1) ∧
      pubSmall.Encryption 11 [1] = some (.ok c2) ∧ pubSmall.Mul c1 c2 = some c3 ∧
      priSmall.Decryption c3 = some (.ok ((7 + 11) % pubSmall.n)) :=
  ⟨⟨by norm_num, by norm_num, keysFrom_small, by decide, by decide, by decide, by decide,
      by decide, by decide, gcd_small_two, gcd_small_one⟩,
    Decryption_Mul 3 5 (by norm_num) (by norm_num) (by decide) 16 (by decide)
      pubSmall priSmall keysFrom_small 7 11 (by decide) (by decide) (by decide) (by decide)
      [3, 2] [1] (by decide) (by decide) ⟨2, by simp, gcd_small_two⟩
      ⟨1, by simp, gcd_small_one⟩⟩

/-- C4: for every key pair `KeyGeneration` builds from two distinct primes, every
plaintext `m` in `[0, N)` and every integer `k >= 0`, the encryption returns a
ciphertext `c` and `Decryption(pub.Exp(c, k))` returns `(m * k) mod N`. -/
theorem Decryption_Exp (P Q : Nat) (hP : P.Prime) (hQ : Q.Prime) (hPQ : P ≠ Q)
    (g : Int) (hg0 : 0 ≤ g) (pub : PublicKey) (pri : PrivateKey)
    (hkey : keysFrom P Q g = some (pub, pri)) (m k : Int) (hm0 : 0 ≤ m) (hm : m < pub.n)
    (hk : 0 ≤ k) (draws : List Int) (hd : ∀ d ∈ draws, 0 ≤ d ∧ d < pub.n)
    (hex : ∃ d ∈ draws, gcd d pub.n = 1) :
    ∃ c, pub.Encryption m draws = some (.ok c) ∧
      pri.Decryption (pub.Exp c k) = some (.ok ((m * k) % pub.n)) :=
  Decryption_Exp_aux P Q hP hQ hPQ g hg0 pub pri hkey m k hm0 hm hk draws hd hex

theorem Decryption_Exp_witness :
    (Nat.Prime 3 ∧ Nat.Prime 5 ∧ keysFrom ((3 : Nat) : Int) ((5 : Nat) : Int) 16
        = some (pubSmall, priSmall) ∧ (0 : Int) ≤ 7 ∧ 7 < pubSmall.n ∧ (0 : Int) ≤ 5 ∧
      (∀ d ∈ [(3 : Int), 2], 0 ≤ d ∧ d < pubSmall.n) ∧ gcd 2 pubSmall.n = 1) ∧
    ∃ c, pubSmall.Encryption 7 [3, 2] = some (.ok c) ∧
      priSmall.Decryption (pubSmall.Exp c 5) = some (.ok ((7 * 5) % pubSmall.n)) :=
  ⟨⟨by norm_num, by norm_num, keysFrom_small, by decide, by decide, by decide, by decide,
      gcd_small_two⟩,
    Decryption_Exp 3 5 (by norm_num) (by norm_num) (by decide) 16 (by decide)
      pubSmall priSmall keysFrom_small 7 5 (by decide) (by decide) (by decide) [3, 2]
      (by decide) ⟨2, by simp, gcd_small_two⟩⟩

end Refec

/-! ## The two-party signing run -/

namespace Refec

open WeierstrassCurve.Affine

set_option maxRecDepth 100000 in
theorem seven_pow_half : (7 : ZMod pNat) ^ ((pNat - 1) / 2) = -1 := by
  have h : big.powMod 7 ((pNat - 1) / 2) pNat = pNat - 1 := by decide
  rw [big.powMod_eq] at h
  have h1 : ((7 ^ ((pNat - 1) / 2) % pNat : Nat) : ZMod pNat) = ((pNat - 1 : Nat) : ZMod pNat) := by
    rw [h]
  rw [ZMod.natCast_mod, Nat.cast_sub (by decide)] at h1
  simpa using h1

theorem no_point_X_zero (y : ZMod pNat) (h : secp.Equation 0 y) : False := by
  rw [secp_equation_iff] at h
  have h7 : y ^ 2 = 7 := by
    rw [h]
    ring
  have hy : y ≠ 0 := by
    intro h0
    rw [h0] at h7
    have : (7 : ZMod pNat) ≠ 0 := by decide
    exact this (by rw [← h7]; ring)
  have h1 : y ^ (pNat - 1) = 1 := ZMod.pow_card_sub_one_eq_one hy
  have h2 : (y ^ 2) ^ ((pNat - 1) / 2) = y ^ (pNat - 1) := by
    rw [← pow_mul]
    congr 1
  rw [h7, seven_pow_half, h1] at h2
  have h3 : (2 : ZMod pNat) = 0 := by linear_combination -h2
  exact absurd h3 (by decide)

theorem Rep_fin_info {c : Point} {A : secp.Point} (h : Rep c A) (hA : A ≠ 0) :
    ∃ x y, c = ⟨some x, some y⟩ ∧ 1 ≤ x ∧ x < p ∧ 0 ≤ y ∧ y < p ∧ OnCurve x y := by
  cases h with
  | inf c hinf => exact absurd rfl hA
  | fin x y hx0 hx hy0 hy h =>
    refine ⟨x, y, rfl, ?_, hx, hy0, hy, (equation_iff_OnCurve x y).mp h.1⟩
    by_contra hlt
    have hx' : x = 0 := by omega
    subst hx'
    have h1 := h.1
    simp only [Int.cast_zero] at h1
    exact no_point_X_zero _ h1

theorem Int_gcd_n (k : Int) (hk1 : 1 ≤ k) (hkn : k < n) : Int.gcd k n = 1 := by
  rw [Int.gcd_comm, ← Int.isCoprime_iff_gcd_eq_one, n_eq, ← Int.natAbs_of_nonneg (by omega : 0 ≤ k),
    Nat.isCoprime_iff_coprime, Nat.Prime.coprime_iff_not_dvd prime_nNat]
  intro hd
  have h1 : nNat ≤ k.natAbs := Nat.le_of_dvd (by omega) hd
  rw [n_eq] at hkn
  omega

theorem ModInverse_n (k : Int) (hk1 : 1 ≤ k) (hkn : k < n) :
    ∃ kinv, big.ModInverse k n = some kinv ∧ 1 ≤ kinv ∧ kinv < n ∧
      (k : ZMod nNat) ≠ 0 ∧ (kinv : ZMod nNat) = (k : ZMod nNat)⁻¹ := by
  obtain ⟨kinv, hkinv⟩ := big.ModInverse_isSome k n (Int_gcd_n k hk1 hkn)
  obtain ⟨h1, h2, h3⟩ := big.ModInverse_spec k n kinv n_pos.ne' hkinv
  rw [abs_of_pos n_pos] at h3
  have hcast : (k : ZMod nNat) * (kinv : ZMod nNat) = 1 := by
    have h4 : ((k * kinv : Int) : ZMod nNat) = ((1 : Int) : ZMod nNat) := by
      rw [ZMod.intCast_eq_intCast_iff', ← n_eq]
      exact h1
    push_cast at h4
    exact h4
  have hk0 : (k : ZMod nNat) ≠ 0 := by
    intro h0
    rw [h0, zero_mul] at hcast
    exact zero_ne_one hcast
  refine ⟨kinv, hkinv, ?_, h3, hk0, eq_inv_of_mul_eq_one_right hcast⟩
  by_contra hlt
  have h0 : kinv = 0 := by omega
  rw [h0, Int.cast_zero, mul_zero] at hcast
  exact zero_ne_one hcast


theorem twoParty_aux (P Q : Nat) (hP : P.Prime) (hQ : Q.Prime) (hPQ : P ≠ Q)
    (g : Int) (hg0 : 0 ≤ g) (pub : PublicKey) (pri : PrivateKey)
    (hkey : keysFrom P Q g = some (pub, pri))
    (xa xb ka kb rho md r kbinv : Int) (Rb : Option Point) (R : Point)
    (hxa : 1 ≤ xa ∧ xa ≤ n - 1) (hxb : 1 ≤ xb ∧ xb ≤ n - 1) (hka : 1 ≤ ka ∧ ka ≤ n - 1)
    (hkb : 1 ≤ kb ∧ kb ≤ n - 1) (hrho : 0 ≤ rho ∧ rho < n) (hmd : 0 ≤ md)
    (hRb : Mul kb G = some Rb) (hR : Mul ka Rb = some (some R)) (hr : R.X = some r)
    (hinv : big.ModInverse kb n = some kbinv)
    (draws1 draws2 : List Int) (hd1 : ∀ d ∈ draws1, 0 ≤ d ∧ d < pub.n)
    (hd2 : ∀ d ∈ draws2, 0 ≤ d ∧ d < pub.n)
    (hex1 : ∃ d ∈ draws1, gcd d pub.n = 1) (hex2 : ∃ d ∈ draws2, gcd d pub.n = 1)
    (hT : kbinv * md + rho * n + xa * (xb * r * kbinv) < pub.n) :
    ∃ sd s kinv, twoPartySd pub pri xa xb kb r md rho draws1 draws2 = some (.ok sd) ∧
      sd = kbinv * md + rho * n + xa * (xb * r * kbinv) ∧
      sd ≡ kbinv * (md + r * xa * xb) [ZMOD n] ∧
      twoPartyS sd ka = some s ∧ big.ModInverse (ka * kb) n = some kinv ∧
      s = ((md + r * xa * xb) * kinv) % n := by
  have hordG := addOrderOf_G
  have hnpos := n_pos
  -- the shared point and its X coordinate
  obtain ⟨Rb', hRb', hRbrep⟩ := Mul_rep_int kb (by omega) (by omega) _ hordG _ G_rep
  rw [← G_eq, hRb] at hRb'
  simp only [Option.some.injEq] at hRb'
  subst hRb'
  obtain ⟨kbinv', hkbinv', hkbinv1, hkbinvn, hkbF, hkbinvF⟩ := ModInverse_n kb (by omega) (by omega)
  rw [hinv] at hkbinv'
  simp only [Option.some.injEq] at hkbinv'
  subst hkbinv'
  obtain ⟨kainv, hkainv, hkainv1, hkainvn, hkaF, hkainvF⟩ := ModInverse_n ka (by omega) (by omega)
  have hordRb := addOrderOf_zsmul hordG hkbF
  obtain ⟨R', hR', hRrep⟩ := Mul_rep_int ka (by omega) (by omega) _ hordRb _ hRbrep
  rw [hR] at hR'
  simp only [Option.some.injEq] at hR'
  subst hR'
  have hRne : ka • kb • Point.some G_nonsingular ≠ 0 := by
    rw [Ne, zsmul_eq_zero_iff hordRb]
    exact hkaF
  obtain ⟨rx, ry, hReq, hrx1, hrxp, -, -, -⟩ := Rep_fin_info hRrep hRne
  subst hReq
  simp only [Option.some.injEq] at hr
  subst hr
  -- sizes
  obtain ⟨a, mu, -, -, -, -, hpub, -⟩ := keysFrom_spec P Q g pub pri hkey
  have hn : pub.n = (P : Int) * Q := by rw [hpub]
  have hn2 : pub.n2 = (P : Int) * Q * ((P : Int) * Q) := by rw [hpub]
  rw [hn] at hd1 hd2 hex1 hex2 hT
  have hN20 : (0 : Int) < (P : Int) * Q * ((P : Int) * Q) := by
    have := hP.pos
    have := hQ.pos
    positivity
  have hk2 : 1 ≤ xb * rx * kbinv := by
    have h1 : 1 ≤ xb * rx := by nlinarith
    nlinarith
  have hm1 : 0 ≤ kbinv * md + rho * n := by
    have h1 : 0 ≤ kbinv * md := mul_nonneg (by omega) hmd
    have h2 : 0 ≤ rho * n := mul_nonneg hrho.1 hnpos.le
    omega
  have hxak : xa ≤ xa * (xb * rx * kbinv) := by nlinarith
  have hxaN : xa < (P : Int) * Q := by omega
  have hm1N : kbinv * md + rho * n < (P : Int) * Q := by omega
  have hT0 : 0 ≤ kbinv * md + rho * n + xa * (xb * rx * kbinv) := by omega
  have hxk0 : 0 ≤ xa * (xb * rx * kbinv) := by omega
  -- the ciphertexts
  obtain ⟨ckey, ρ1, hckey, -, -, hρ1, hcong1⟩ :=
    Encryption_spec P Q hP hQ g xa (by omega) hxaN draws1 hd1 hex1
  obtain ⟨c1, ρ2, hc1, -, -, hρ2, hcong2⟩ :=
    Encryption_spec P Q hP hQ g (kbinv * md + rho * n) hm1 hm1N draws2 hd2 hex2
  rw [← hpub] at hckey hc1
  have hc2 : pub.Exp ckey (xb * rx * kbinv)
      ≡ g ^ (xa * (xb * rx * kbinv)).toNat * (ρ1 ^ (xb * rx * kbinv).toNat) ^ (P * Q)
        [ZMOD (P : Int) * Q * ((P : Int) * Q)] := by
    unfold PublicKey.Exp
    rw [hn2, big.Exp_eq _ _ _ (by omega) hN20.ne']
    refine (Int.mod_modEq _ _).trans ?_
    have h1 := hcong1.pow (xb * rx * kbinv).toNat
    have h2 : (g ^ xa.toNat * ρ1 ^ (P * Q)) ^ (xb * rx * kbinv).toNat
        = g ^ (xa * (xb * rx * kbinv)).toNat * (ρ1 ^ (xb * rx * kbinv).toNat) ^ (P * Q) := by
      rw [toNat_mul_of_nonneg xa _ (by omega) (by omega), mul_pow, ← pow_mul, ← pow_mul,
        ← pow_mul, mul_comm (P * Q) _]
    rw [h2] at h1
    exact h1
  have hdec : pri.Decryption ((c1 * pub.Exp ckey (xb * rx * kbinv)) % pub.n2)
      = some (.ok (kbinv * md + rho * n + xa * (xb * rx * kbinv))) := by
    rw [hn2]
    rw [Decryption_of_congr P Q hP hQ hPQ g hg0 pub pri hkey _
      (kbinv * md + rho * n + xa * (xb * rx * kbinv)) (ρ2 * ρ1 ^ (xb * rx * kbinv).toNat)
      (Int.emod_nonneg _ hN20.ne') (by rw [hn2]; exact Int.emod_lt_of_pos _ hN20)
      hT0 ?_ ?_]
    · rw [Int.emod_eq_of_lt hT0 hT]
    · rw [← Int.isCoprime_iff_gcd_eq_one] at hρ1 hρ2 ⊢
      exact hρ2.mul_left hρ1.pow_left
    · refine (Int.mod_modEq _ _).trans ?_
      have h1 := hcong2.mul hc2
      refine h1.trans ?_
      rw [Int.toNat_add hm1 hxk0, pow_add, mul_pow]
      have h2 : g ^ (kbinv * md + rho * n).toNat * ρ2 ^ (P * Q) *
          (g ^ (xa * (xb * rx * kbinv)).toNat * (ρ1 ^ (xb * rx * kbinv).toNat) ^ (P * Q))
          = g ^ (kbinv * md + rho * n).toNat * g ^ (xa * (xb * rx * kbinv)).toNat *
            (ρ2 ^ (P * Q) * (ρ1 ^ (xb * rx * kbinv).toNat) ^ (P * Q)) := by ring
      rw [h2]
  -- the inverse of ka * kb
  have hgcd : Int.gcd (ka * kb) n = 1 := by
    have h1 := Int_gcd_n ka (by omega) (by omega)
    have h2 := Int_gcd_n kb (by omega) (by omega)
    rw [← Int.isCoprime_iff_gcd_eq_one] at h1 h2 ⊢
    exact h1.mul_left h2
  obtain ⟨kinv, hkinv⟩ := big.ModInverse_isSome (ka * kb) n hgcd
  obtain ⟨hkinv1, -, -⟩ := big.ModInverse_spec (ka * kb) n kinv hnpos.ne' hkinv
  have hkinvF : (kinv : ZMod nNat) = ((ka : ZMod nNat) * kb)⁻¹ := by
    have h4 : (((ka * kb) * kinv : Int) : ZMod nNat) = ((1 : Int) : ZMod nNat) := by
      rw [ZMod.intCast_eq_intCast_iff', ← n_eq]
      exact hkinv1
    push_cast at h4
    exact eq_inv_of_mul_eq_one_right h4
  have hsd : kbinv * md + rho * n + xa * (xb * rx * kbinv)
      ≡ kbinv * (md + rx * xa * xb) [ZMOD n] := by
    rw [Int.modEq_iff_dvd]
    exact ⟨-rho, by ring⟩
  refine ⟨kbinv * md + rho * n + xa * (xb * rx * kbinv),
    ((kbinv * md + rho * n + xa * (xb * rx * kbinv)) * kainv) % n, kinv, ?_, rfl, hsd, ?_,
    hkinv, ?_⟩
  · unfold twoPartySd
    simp only [hckey, hinv, hc1]
    have hMul : pub.Mul c1 (pub.Exp ckey (xb * rx * kbinv))
        = some ((c1 * pub.Exp ckey (xb * rx * kbinv)) % pub.n2) := by
      unfold PublicKey.Mul
      rw [if_neg (by rw [hn2]; exact hN20.ne')]
    rw [hMul]
    exact hdec
  · unfold twoPartyS
    rw [hkainv]
  · have h1 : (kbinv * md + rho * n + xa * (xb * rx * kbinv)) * kainv
        ≡ (md + rx * xa * xb) * kinv [ZMOD n] := by
      rw [n_eq, ← ZMod.intCast_eq_intCast_iff]
      push_cast
      rw [hkinvF, hkainvF, hkbinvF]
      simp only [ZMod.natCast_self, mul_zero, add_zero]
      field_simp
      ring
    exact h1


theorem ModInverse_one_n : big.ModInverse 1 n = some 1 :=
  ModInverse_eq_of 1 n 1 (by decide) (by decide) (by decide) (by decide)

set_option maxRecDepth 100000 in
theorem Mul_one_G : Mul 1 G = some (some ⟨some Gx, some Gy⟩) := by decide

set_option maxRecDepth 100000 in
theorem Encryption_small_one : pubSmall.Encryption 1 [1] = some (.ok 16) := by
  unfold PublicKey.Encryption drawUnit
  rw [if_neg (by decide), if_pos gcd_small_one]
  simp only []
  rw [if_neg (by decide)]
  simp only [Option.some.injEq, Except.ok.injEq]
  decide

set_option maxRecDepth 100000 in
theorem Encryption_small_zero : pubSmall.Encryption (1 * 0 + 0 * n) [1] = some (.ok 1) := by
  unfold PublicKey.Encryption drawUnit
  rw [if_neg (by decide), if_pos gcd_small_one]
  simp only []
  rw [if_neg (by decide)]
  simp only [Option.some.injEq, Except.ok.injEq]
  decide

set_option maxRecDepth 100000 in
theorem Decryption_small_one : priSmall.Decryption 1 = some (.ok 0) := by
  have hL : L (big.Exp 1 priSmall.lam priSmall.n2) priSmall.n = some (some 0) := by decide
  unfold PrivateKey.Decryption
  rw [if_neg (by decide), hL]
  simp only [Option.some.injEq, Except.ok.injEq]
  decide

/-- C5 (amended): in the signing run of `Test2PECDSA`, for every key pair
`KeyGeneration` builds from two distinct primes, scalars `xa, xb, ka, kb` in
`[1, n-1]`, `rho` in `[0, n)`, a hash value `m' >= 0` and `r` the X coordinate of
`Mul(ka, Mul(kb, G))`: whenever the plaintext that `c3` carries,
`kb^-1 * m' + rho * n + xa * (xb * r * kb^-1)`, is below `N`, the decryption
returns exactly that integer as `sd`; hence `sd = kb^-1 * (m' + r * xa * xb)`
modulo `n`, and `s = sd * ka^-1 mod n` is `(m' + r * xa * xb) * (ka * kb)^-1 mod n`. -/
theorem twoParty_signature (P Q : Nat) (hP : P.Prime) (hQ : Q.Prime) (hPQ : P ≠ Q)
    (g : Int) (hg0 : 0 ≤ g) (pub : PublicKey) (pri : PrivateKey)
    (hkey : keysFrom P Q g = some (pub, pri))
    (xa xb ka kb rho md r kbinv : Int) (Rb : Option Point) (R : Point)
    (hxa : 1 ≤ xa ∧ xa ≤ n - 1) (hxb : 1 ≤ xb ∧ xb ≤ n - 1) (hka : 1 ≤ ka ∧ ka ≤ n - 1)
    (hkb : 1 ≤ kb ∧ kb ≤ n - 1) (hrho : 0 ≤ rho ∧ rho < n) (hmd : 0 ≤ md)
    (hRb : Mul kb G = some Rb) (hR : Mul ka Rb = some (some R)) (hr : R.X = some r)
    (hinv : big.ModInverse kb n = some kbinv)
    (draws1 draws2 : List Int) (hd1 : ∀ d ∈ draws1, 0 ≤ d ∧ d < pub.n)
    (hd2 : ∀ d ∈ draws2, 0 ≤ d ∧ d < pub.n)
    (hex1 : ∃ d ∈ draws1, gcd d pub.n = 1) (hex2 : ∃ d ∈ draws2, gcd d pub.n = 1)
    (hT : kbinv * md + rho * n + xa * (xb * r * kbinv) < pub.n) :
    ∃ sd s kinv, twoPartySd pub pri xa xb kb r md rho draws1 draws2 = some (.ok sd) ∧
      sd = kbinv * md + rho * n + xa * (xb * r * kbinv) ∧
      sd ≡ kbinv * (md + r * xa * xb) [ZMOD n] ∧
      twoPartyS sd ka = some s ∧ big.ModInverse (ka * kb) n = some kinv ∧
      s = ((md + r * xa * xb) * kinv) % n :=
  twoParty_aux P Q hP hQ hPQ g hg0 pub pri hkey xa xb ka kb rho md r kbinv Rb R hxa hxb hka hkb
    hrho hmd hRb hR hr hinv draws1 draws2 hd1 hd2 hex1 hex2 hT

set_option maxRecDepth 100000 in
theorem twoParty_signature_witness :
    (Nat.Prime pNat ∧ Nat.Prime nNat ∧
      keysFrom (pNat : Int) (nNat : Int) ((pNat : Int) * nNat + 1) = some (pubBig, priBig) ∧
      Mul 1 G = some G ∧ Mul 1 G = some (some ⟨some Gx, some Gy⟩) ∧
      big.ModInverse 1 n = some 1 ∧ gcd 1 pubBig.n = 1 ∧
      1 * 0 + 0 * n + 1 * (1 * Gx * 1) < pubBig.n) ∧
    ∃ sd s kinv, twoPartySd pubBig priBig 1 1 1 Gx 0 0 [1] [1] = some (.ok sd) ∧
      sd = 1 * 0 + 0 * n + 1 * (1 * Gx * 1) ∧
      sd ≡ 1 * (0 + Gx * 1 * 1) [ZMOD n] ∧
      twoPartyS sd 1 = some s ∧ big.ModInverse (1 * 1) n = some kinv ∧
      s = ((0 + Gx * 1 * 1) * kinv) % n :=
  ⟨⟨prime_pNat, prime_nNat, keysFrom_big, by rw [G_eq]; exact Mul_one_G, Mul_one_G,
      ModInverse_one_n, gcd_big_one, by decide⟩,
    twoParty_signature pNat nNat prime_pNat prime_nNat (by decide) _ (by decide) pubBig priBig
      keysFrom_big 1 1 1 1 0 0 Gx 1 G ⟨some Gx, some Gy⟩ (by decide) (by decide) (by decide)
      (by decide) (by decide) (by decide) (by rw [G_eq]; exact Mul_one_G) Mul_one_G rfl
      ModInverse_one_n [1] [1] (by decide) (by decide) ⟨1, by simp, gcd_big_one⟩
      ⟨1, by simp, gcd_big_one⟩ (by decide)⟩

set_option maxRecDepth 100000 in
/-- C5 as stated fails: with the key pair built from the primes 3 and 5
(`N = 15`), `xa = xb = ka = kb = 1`, `rho = 0`, hash value 0 and `r = X(G)`, the
plaintext of `c1` is `0 < N`, yet the decryption returns `sd = 0`, which is not
`kb^-1 * (m' + r * xa * xb) = X(G)` modulo `n`. -/
theorem twoParty_counterexample :
    keysFrom ((3 : Nat) : Int) ((5 : Nat) : Int) 16 = some (pubSmall, priSmall) ∧
    Mul 1 G = some G ∧ Mul 1 G = some (some ⟨some Gx, some Gy⟩) ∧
    big.ModInverse 1 n = some 1 ∧ 1 * 0 + 0 * n < pubSmall.n ∧
    twoPartySd pubSmall priSmall 1 1 1 Gx 0 0 [1] [1] = some (.ok 0) ∧
    ¬ (0 ≡ 1 * (0 + Gx * 1 * 1) [ZMOD n]) := by
  refine ⟨keysFrom_small, by rw [G_eq]; exact Mul_one_G, Mul_one_G, ModInverse_one_n,
    by decide, ?_, by decide⟩
  have hM : pubSmall.Mul 1 (pubSmall.Exp 16 (1 * Gx * 1)) = some 1 := by decide
  unfold twoPartySd
  simp only [Encryption_small_one, ModInverse_one_n, Encryption_small_zero, hM]
  exact Decryption_small_one

end Refec

/-! ## Points of the subgroup, and the low-s form of a signature -/

namespace Refec

open WeierstrassCurve.Affine

theorem Mul_G_onCurve_aux (k : Int) (hk1 : 1 ≤ k) (hkn : k ≤ n - 1) :
    ∃ x y, Mul k G = some (some ⟨some x, some y⟩) ∧
      Point.Infinite ⟨some x, some y⟩ = false ∧
      0 ≤ x ∧ x < p ∧ 0 ≤ y ∧ y < p ∧ y ^ 2 % p = (x ^ 3 + 7) % p := by
  have hordG := addOrderOf_G
  obtain ⟨Q, hQ, hQrep⟩ := Mul_rep_int k (by omega) (by omega) _ hordG _ G_rep
  have hne : k • Point.some G_nonsingular ≠ 0 := by
    rw [Ne, zsmul_eq_zero_iff hordG]
    intro h
    have := (cast_n_eq_zero_of_range (by omega) (by omega)).mp h
    omega
  obtain ⟨x, y, hc, hx1, hx, hy0, hy, hon⟩ := Rep_fin_info hQrep hne
  subst hc
  refine ⟨x, y, ?_, rfl, by omega, hx, hy0, hy, ?_⟩
  · rw [← G_eq] at hQ
    exact hQ
  · unfold OnCurve at hon
    have e1 : y ^ 2 = y * y := by ring
    have e2 : x ^ 3 = x * x * x := by ring
    rw [e1, e2]
    exact hon

theorem n_odd : n = 2 * (n / 2) + 1 := by decide

theorem Sign_low_s_aux (hf : Hash) (fuel : Nat) (m : List Nat) (x r s : Int)
    (h : Sign hf fuel m x = some (r, s)) : 0 ≤ s ∧ s ≤ n / 2 := by
  unfold Sign at h
  simp only [] at h
  cases hk : nonceRFC6979 hf fuel m x with
  | none => rw [hk] at h; simp at h
  | some k =>
    rw [hk] at h
    simp only [] at h
    cases hR : Mul k G with
    | none => rw [hR] at h; simp at h
    | some R0 =>
      cases R0 with
      | none => rw [hR] at h; simp at h
      | some R =>
        rw [hR] at h
        simp only [] at h
        cases hX : R.X with
        | none => rw [hX] at h; simp at h
        | some rx =>
          rw [hX] at h
          simp only [Option.some.injEq, Prod.mk.injEq] at h
          obtain ⟨-, hs⟩ := h
          have hn := n_pos
          have hodd := n_odd
          have hhalf : n >>> 1 = n / 2 := by
            have := Int.shiftRight_eq_div_pow n 1
            simpa using this
          rw [hhalf] at hs
          have hs0 := Int.emod_nonneg ((bits2int (H hf m) % n + x * rx) * big.Exp k (n - 2) n)
            (ne_of_gt hn)
          have hs1 := Int.emod_lt_of_pos ((bits2int (H hf m) % n + x * rx) * big.Exp k (n - 2) n) hn
          generalize ((bits2int (H hf m) % n + x * rx) * big.Exp k (n - 2) n) % n = s0 at hs hs0 hs1
          generalize n / 2 = half at hs hodd
          by_cases hc : s0 > half
          · rw [if_pos hc] at hs
            omega
          · rw [if_neg hc] at hs
            omega

set_option maxRecDepth 100000 in
theorem Sign_constHash_one : Sign (constHash bytesZero bytesOne) 1 [] 1 = some (Gx, Gx) := by
  decide

/-- C11: for every scalar `k` with `1 <= k <= n - 1`, `Mul(k, G)` returns a point
with both coordinates set (not the point at infinity), `0 <= X, Y < p`, and
`Y^2 = X^3 + 7` modulo `p`. -/
theorem Mul_G_onCurve (k : Int) (hk1 : 1 ≤ k) (hkn : k ≤ n - 1) :
    ∃ x y, Mul k G = some (some ⟨some x, some y⟩) ∧
      Point.Infinite ⟨some x, some y⟩ = false ∧
      0 ≤ x ∧ x < p ∧ 0 ≤ y ∧ y < p ∧ y ^ 2 % p = (x ^ 3 + 7) % p :=
  Mul_G_onCurve_aux k hk1 hkn

theorem Mul_G_onCurve_witness :
    ((1 : Int) ≤ 1 ∧ (1 : Int) ≤ n - 1) ∧
    ∃ x y, Mul 1 G = some (some ⟨some x, some y⟩) ∧
      Point.Infinite ⟨some x, some y⟩ = false ∧
      0 ≤ x ∧ x < p ∧ 0 ≤ y ∧ y < p ∧ y ^ 2 % p = (x ^ 3 + 7) % p :=
  ⟨⟨by decide, by decide⟩, Mul_G_onCurve 1 (by decide) (by decide)⟩

/-- C12: whenever `Sign(m, x)` returns a pair `(r, s)`, for any message, any
scalar `x`, any hash functions and any number of rounds of the nonce loop, the
returned `s` satisfies `0 <= s <= floor(n / 2)`. -/
theorem Sign_low_s (hf : Hash) (fuel : Nat) (m : List Nat) (x r s : Int)
    (h : Sign hf fuel m x = some (r, s)) : 0 ≤ s ∧ s ≤ n / 2 :=
  Sign_low_s_aux hf fuel m x r s h

theorem Sign_low_s_witness :
    Sign (constHash bytesZero bytesOne) 1 [] 1 = some (Gx, Gx) ∧ 0 ≤ Gx ∧ Gx ≤ n / 2 :=
  ⟨Sign_constHash_one,
    Sign_low_s (constHash bytesZero bytesOne) 1 [] 1 Gx Gx Sign_constHash_one⟩

end Refec

/-! ## The DER form of a signature -/

namespace Refec

namespace big

theorem bitLenAux_zero (fuel : Nat) : bitLenAux fuel 0 = 0 := by
  cases fuel <;> simp [bitLenAux]

theorem two_pow_le_bitLenAux :
    ∀ (fuel v : Nat), v ≤ fuel → v ≠ 0 → 2 ^ (bitLenAux fuel v - 1) ≤ v := by
  intro fuel
  induction fuel with
  | zero =>
    intro v hv h0
    omega
  | succ f ih =>
    intro v hv h0
    unfold bitLenAux
    rw [if_neg h0, Nat.add_sub_cancel]
    by_cases h2 : v / 2 = 0
    · rw [h2, bitLenAux_zero]
      simp
      omega
    · have h3 := ih (v / 2) (by omega) h2
      have h4 := lt_two_pow_bitLenAux f (v / 2) (by omega)
      have h5 : bitLenAux f (v / 2) ≠ 0 := by
        intro h
        rw [h] at h4
        simp at h4
        exact h2 h4
      obtain ⟨b, hb⟩ := Nat.exists_eq_succ_of_ne_zero h5
      rw [hb] at h3 ⊢
      rw [Nat.succ_sub_one] at h3
      rw [Nat.succ_eq_add_one, pow_succ]
      omega

theorem BitLen_bounds (k : Nat) (hk : k ≠ 0) :
    2 ^ (BitLen (k : Int) - 1) ≤ k ∧ k < 2 ^ BitLen (k : Int) := by
  refine ⟨?_, lt_two_pow_BitLen k⟩
  unfold BitLen
  simpa using two_pow_le_bitLenAux k k le_rfl hk

theorem Bytes_head (k : Nat) (hk : k ≠ 0) :
    ∃ t rest, Bytes (k : Int) = t :: rest ∧ 1 ≤ t ∧ t < 256 ∧ (∀ b ∈ rest, b < 256) ∧
      k = t * 256 ^ rest.length + Nat.ofDigits 256 rest.reverse ∧
      Nat.ofDigits 256 rest.reverse < 256 ^ rest.length := by
  have hB : Bytes (k : Int) = (Nat.digits 256 k).reverse := by
    rw [Bytes_eq]
    simp
  have hne : Nat.digits 256 k ≠ [] := Nat.digits_ne_nil_iff_ne_zero.mpr hk
  have hlt : ∀ b ∈ (Nat.digits 256 k).reverse, b < 256 := by
    intro b hb
    exact Nat.digits_lt_base (by norm_num) (List.mem_reverse.mp hb)
  have hval : Nat.ofDigits 256 ((Nat.digits 256 k).reverse).reverse = k := by
    rw [List.reverse_reverse, Nat.ofDigits_digits]
  have hlen : 256 ^ ((Nat.digits 256 k).reverse).length ≤ 256 * k := by
    rw [List.length_reverse]
    exact Nat.base_pow_length_digits_le 256 k (by norm_num) hk
  rw [hB]
  cases hrev : (Nat.digits 256 k).reverse with
  | nil =>
    exfalso
    apply hne
    simpa using hrev
  | cons t rest =>
    rw [hrev] at hlt hval hlen
    have hrest : ∀ b ∈ rest, b < 256 := fun b hb => hlt b (List.mem_cons_of_mem _ hb)
    have hrem : Nat.ofDigits 256 rest.reverse < 256 ^ rest.length := by
      have := Nat.ofDigits_lt_base_pow_length (b := 256) (l := rest.reverse) (by norm_num)
        (fun x hx => hrest x (List.mem_reverse.mp hx))
      simpa using this
    have hk2 : k = t * 256 ^ rest.length + Nat.ofDigits 256 rest.reverse := by
      rw [← hval, List.reverse_cons, Nat.ofDigits_append, Nat.ofDigits_singleton,
        List.length_reverse]
      ring
    refine ⟨t, rest, rfl, ?_, hlt t (List.mem_cons_self _ _), hrest, hk2, hrem⟩
    by_contra h0
    have ht : t = 0 := by omega
    rw [ht, Nat.zero_mul, Nat.zero_add] at hk2
    rw [List.length_cons, pow_succ] at hlen
    omega

theorem BitLen_eq_iff (k t L rem : Nat) (hk : k = t * 256 ^ L + rem) (ht1 : 1 ≤ t)
    (ht : t < 256) (hrem : rem < 256 ^ L) :
    BitLen (k : Int) = (L + 1) * 8 ↔ 128 ≤ t := by
  have hk0 : k ≠ 0 := by
    have : 0 < 256 ^ L := by positivity
    have : 256 ^ L ≤ t * 256 ^ L := Nat.le_mul_of_pos_left _ ht1
    omega
  obtain ⟨hlo, hhi⟩ := BitLen_bounds k hk0
  have hP : (256 : Nat) ^ L = 2 ^ (8 * L) := by
    rw [pow_mul]
    norm_num
  have hPpos : 0 < 2 ^ (8 * L) := by positivity
  rw [hP] at hk hrem
  have hup : k < 2 ^ (8 * L + 8) := by
    rw [pow_add]
    have : t * 2 ^ (8 * L) ≤ 255 * 2 ^ (8 * L) := Nat.mul_le_mul_right _ (by omega)
    omega
  have hB : BitLen (k : Int) ≤ 8 * L + 8 := by
    by_contra hcon
    have h1 : 8 * L + 8 ≤ BitLen (k : Int) - 1 := by omega
    have h2 : 2 ^ (8 * L + 8) ≤ 2 ^ (BitLen (k : Int) - 1) :=
      Nat.pow_le_pow_right (by norm_num) h1
    omega
  constructor
  · intro hB8
    have h7 : BitLen (k : Int) - 1 = 8 * L + 7 := by omega
    rw [h7, pow_add] at hlo
    by_contra hcon
    have : t * 2 ^ (8 * L) ≤ 127 * 2 ^ (8 * L) := Nat.mul_le_mul_right _ (by omega)
    have h128 : (2 : Nat) ^ 7 = 128 := by norm_num
    rw [h128] at hlo
    omega
  · intro h128
    have h1 : 128 * 2 ^ (8 * L) ≤ t * 2 ^ (8 * L) := Nat.mul_le_mul_right _ h128
    have h2 : 2 ^ (8 * L + 7) ≤ k := by
      rw [pow_add]
      have h128 : (2 : Nat) ^ 7 = 128 := by norm_num
      rw [h128]
      omega
    have h3 : 8 * L + 7 < BitLen (k : Int) := by
      by_contra hcon
      have h4 : 2 ^ BitLen (k : Int) ≤ 2 ^ (8 * L + 7) :=
        Nat.pow_le_pow_right (by norm_num) (by omega)
      omega
    omega

end big

theorem SetBytes_zero_cons (bs : List Nat) : big.SetBytes (0 :: bs) = big.SetBytes bs := by
  have := SetBytes_zeros_append 1 bs
  simpa using this

theorem derInt_spec (x : Int) (hx1 : 1 ≤ x) (hx : x < n) :
    MinimalEnc x (derInt x) ∧ 1 ≤ (derInt x).length ∧ (derInt x).length ≤ 33 := by
  obtain ⟨k, rfl⟩ := Int.eq_ofNat_of_zero_le (by omega : 0 ≤ x)
  have hk : k ≠ 0 := by omega
  obtain ⟨t, rest, hB, ht1, ht, hrest, hval, hrem⟩ := big.Bytes_head k hk
  have hiff := big.BitLen_eq_iff k t rest.length _ hval ht1 ht hrem
  have hlen : (big.Bytes (k : Int)).length ≤ 32 := by
    apply big.Bytes_length_le
    have h1 : ((k : Int)).natAbs = k := by simp
    rw [h1]
    have h2 : (k : Int) < 256 ^ 32 := lt_trans hx (by decide)
    exact_mod_cast h2
  have hSB : big.SetBytes (big.Bytes (k : Int)) = (k : Int) := by
    rw [big.SetBytes_Bytes]
    simp
  unfold derInt
  rw [hB] at hlen hSB ⊢
  rw [List.length_cons] at hlen ⊢
  by_cases h128 : 128 ≤ t
  · rw [if_pos (hiff.mpr h128)]
    refine ⟨⟨?_, ?_, 0, t :: rest, rfl, by norm_num, fun _ => ⟨t, rest, rfl, h128⟩⟩, ?_, ?_⟩
    · rw [SetBytes_zero_cons, hSB]
    · intro b hb
      rcases List.mem_cons.mp hb with h | h
      · omega
      · rcases List.mem_cons.mp h with h | h
        · omega
        · exact hrest b h
    · simp
    · simp only [List.length_cons]
      omega
  · rw [if_neg (fun h => h128 (hiff.mp h))]
    refine ⟨⟨hSB, ?_, t, rest, rfl, by omega, fun h => by omega⟩, ?_, ?_⟩
    · intro b hb
      rcases List.mem_cons.mp hb with h | h
      · omega
      · exact hrest b h
    · simp
    · simp only [List.length_cons]
      omega

theorem DER_eq (r s : Int) :
    DER r s = [0x30, ((derInt r).length + (derInt s).length + 4) % 256, 0x02,
      (derInt r).length % 256] ++ derInt r ++ [0x02, (derInt s).length % 256] ++ derInt s := by
  unfold DER derInt
  simp

theorem DER_spec_aux (r s : Int) (hr1 : 1 ≤ r) (hrn : r ≤ n - 1) (hs1 : 1 ≤ s) (hsn : s ≤ n - 1) :
    ∃ R S : List Nat,
      DER r s = [0x30, 4 + R.length + S.length, 0x02, R.length] ++ R ++ [0x02, S.length] ++ S ∧
      MinimalEnc r R ∧ MinimalEnc s S ∧ 4 + R.length + S.length < 256 ∧
      8 ≤ (DER r s).length ∧ (DER r s).length ≤ 72 ∧
      big.SetBytes (((DER r s).drop 4).take ((DER r s).getD 3 0)) = r ∧
      big.SetBytes ((DER r s).drop (6 + (DER r s).getD 3 0)) = s := by
  obtain ⟨hR, hR1, hR33⟩ := derInt_spec r hr1 (by omega)
  obtain ⟨hS, hS1, hS33⟩ := derInt_spec s hs1 (by omega)
  have hD : DER r s = [0x30, 4 + (derInt r).length + (derInt s).length, 0x02,
      (derInt r).length] ++ derInt r ++ [0x02, (derInt s).length] ++ derInt s := by
    rw [DER_eq, Nat.mod_eq_of_lt (by omega : (derInt r).length + (derInt s).length + 4 < 256),
      Nat.mod_eq_of_lt (by omega : (derInt r).length < 256),
      Nat.mod_eq_of_lt (by omega : (derInt s).length < 256)]
    have e : (derInt r).length + (derInt s).length + 4 = 4 + (derInt r).length + (derInt s).length := by
      omega
    rw [e]
  refine ⟨derInt r, derInt s, hD, hR, hS, by omega, ?_, ?_, ?_, ?_⟩
  · rw [hD]
    simp only [List.length_append, List.length_cons, List.length_nil]
    omega
  · rw [hD]
    simp only [List.length_append, List.length_cons, List.length_nil]
    omega
  · rw [hD]
    simp [hR.1]
  · rw [hD]
    have e : 6 + (derInt r).length = (derInt r).length + 2 + 1 + 1 + 1 + 1 := by omega
    simp only [List.cons_append, List.nil_append, List.getD_cons_succ, List.getD_cons_zero,
      List.append_assoc]
    rw [e]
    simp only [List.drop_succ_cons]
    rw [List.drop_append]
    exact hS.1

/-- C13: for `1 <= r, s <= n - 1`, `DER(r, s)` is `0x30, L, 0x02, len_r, R, 0x02, len_s, S`
where `R` and `S` are the minimal two's-complement big-endian encodings of `r`
and `s`, `len_r` and `len_s` their lengths, `L = 4 + len_r + len_s` (a byte),
the total length lies between 8 and 72, and `r` and `s` are read back from the
output: `R` is the `len_r` bytes from offset 4 on, `S` the bytes from offset
`6 + len_r` on. -/
theorem DER_spec (r s : Int) (hr1 : 1 ≤ r) (hrn : r ≤ n - 1) (hs1 : 1 ≤ s) (hsn : s ≤ n - 1) :
    ∃ R S : List Nat,
      DER r s = [0x30, 4 + R.length + S.length, 0x02, R.length] ++ R ++ [0x02, S.length] ++ S ∧
      MinimalEnc r R ∧ MinimalEnc s S ∧ 4 + R.length + S.length < 256 ∧
      8 ≤ (DER r s).length ∧ (DER r s).length ≤ 72 ∧
      big.SetBytes (((DER r s).drop 4).take ((DER r s).getD 3 0)) = r ∧
      big.SetBytes ((DER r s).drop (6 + (DER r s).getD 3 0)) = s :=
  DER_spec_aux r s hr1 hrn hs1 hsn

theorem DER_spec_witness :
    ((1 : Int) ≤ 255 ∧ (255 : Int) ≤ n - 1 ∧ (1 : Int) ≤ 128 ∧ (128 : Int) ≤ n - 1 ∧
      DER 255 128 = [0x30, 8, 0x02, 2, 0x00, 0xFF, 0x02, 2, 0x00, 0x80]) ∧
    ∃ R S : List Nat,
      DER 255 128 = [0x30, 4 + R.length + S.length, 0x02, R.length] ++ R ++ [0x02, S.length] ++ S ∧
      MinimalEnc 255 R ∧ MinimalEnc 128 S ∧ 4 + R.length + S.length < 256 ∧
      8 ≤ (DER 255 128).length ∧ (DER 255 128).length ≤ 72 ∧
      big.SetBytes (((DER 255 128).drop 4).take ((DER 255 128).getD 3 0)) = 255 ∧
      big.SetBytes ((DER 255 128).drop (6 + (DER 255 128).getD 3 0)) = 128 :=
  ⟨⟨by decide, by decide, by decide, by decide, by decide⟩,
    DER_spec 255 128 (by decide) (by decide) (by decide) (by decide)⟩

end Refec

/-! ## What `Decode` accepts, and what it returns -/

namespace Refec

theorem Decode_cases (bs : List Nat) :
    (bs.length = 65 → bs.head? = some 0x04 →
      Decode bs = .ok ⟨some (big.SetBytes ((bs.drop 1).take 32)),
        some (big.SetBytes (bs.drop 33))⟩) ∧
    (bs.length = 65 → bs.head? ≠ some 0x04 → Decode bs = .error "invalid format") ∧
    (bs.length ≠ 65 → bs.length ≠ 33 → Decode bs = .error "invalid length") ∧
    (bs.length = 33 → bs.head? ≠ some 0x02 → bs.head? ≠ some 0x03 →
      Decode bs = .error "invalid format") ∧
    (bs.length = 33 → (bs.head? = some 0x02 ∨ bs.head? = some 0x03) →
      ∃ y, Decode bs = .ok ⟨some (big.SetBytes (bs.drop 1)), some y⟩ ∧
        (y = big.Exp (big.Exp (big.SetBytes (bs.drop 1)) 3 p + 7) ((p + 1) / 4) p ∨
         y = p - big.Exp (big.Exp (big.SetBytes (bs.drop 1)) 3 p + 7) ((p + 1) / 4) p)) := by
  unfold Decode
  rw [size_p]
  refine ⟨?_, ?_, ?_, ?_, ?_⟩
  · intro hl hh
    simp [hl, hh]
  · intro hl hh
    simp [hl, hh]
  · intro hl hl2
    simp [hl, hl2]
  · intro hl h2 h3
    simp [hl, h2, h3]
  · intro hl hh
    simp only [hl]
    rw [if_neg (by decide), if_neg (by simp)]
    have hcond : ¬ (bs.head? ≠ some 0x02 ∧ bs.head? ≠ some 0x03) := by
      rcases hh with h | h <;> simp [h]
    rw [if_neg hcond]
    split_ifs
    · exact ⟨_, rfl, Or.inr rfl⟩
    · exact ⟨_, rfl, Or.inl rfl⟩

theorem Decode_error_iff_aux (bs : List Nat) :
    ((∃ e, Decode bs = .error e) ↔
      ¬ ((bs.length = 65 ∧ bs.head? = some 0x04) ∨
         (bs.length = 33 ∧ (bs.head? = some 0x02 ∨ bs.head? = some 0x03)))) ∧
    (bs.length = 65 → bs.head? = some 0x04 →
      Decode bs = .ok ⟨some (big.SetBytes ((bs.drop 1).take 32)),
        some (big.SetBytes (bs.drop 33))⟩) := by
  obtain ⟨h1, h2, h3, h4, h5⟩ := Decode_cases bs
  refine ⟨⟨?_, ?_⟩, h1⟩
  · rintro ⟨e, he⟩ hcon
    rcases hcon with ⟨hl, hh⟩ | ⟨hl, hh⟩
    · rw [h1 hl hh] at he
      cases he
    · obtain ⟨y, hy, -⟩ := h5 hl hh
      rw [hy] at he
      cases he
  · intro hcon
    by_cases hl : bs.length = 65
    · have hh : bs.head? ≠ some 0x04 := fun h => hcon (Or.inl ⟨hl, h⟩)
      exact ⟨_, h2 hl hh⟩
    · by_cases hl2 : bs.length = 33
      · have hh2 : bs.head? ≠ some 0x02 := fun h => hcon (Or.inr ⟨hl2, Or.inl h⟩)
        have hh3 : bs.head? ≠ some 0x03 := fun h => hcon (Or.inr ⟨hl2, Or.inr h⟩)
        exact ⟨_, h4 hl2 hh2 hh3⟩
      · exact ⟨_, h3 hl hl2⟩

theorem sqrt_cast (x : Int) :
    ((big.Exp (big.Exp x 3 p + 7) ((p + 1) / 4) p : Int) : ZMod pNat)
      = ((x : ZMod pNat) ^ 3 + 7) ^ ((pNat + 1) / 4) := by
  have he : (p + 1) / 4 = (((pNat + 1) / 4 : Nat) : Int) := by decide
  have h3 : (3 : Int) = ((3 : Nat) : Int) := rfl
  rw [he, p_eq, big.Exp_cast pNat (by decide)]
  push_cast
  rw [h3, big.Exp_cast pNat (by decide)]

theorem curve_mod_iff (x y : Int) :
    y ^ 2 % p = (x ^ 3 + 7) % p ↔ (y : ZMod pNat) ^ 2 = (x : ZMod pNat) ^ 3 + 7 := by
  rw [p_eq, ← ZMod.intCast_eq_intCast_iff']
  push_cast
  rfl

theorem Decode_onCurve_aux (bs : List Nat) (hl : bs.length = 33)
    (hh : bs.head? = some 0x02 ∨ bs.head? = some 0x03)
    (hsq : ∃ y0 : Int, y0 ^ 2 % p = (big.SetBytes (bs.drop 1) ^ 3 + 7) % p) :
    ∃ y, Decode bs = .ok ⟨some (big.SetBytes (bs.drop 1)), some y⟩ ∧
      y ^ 2 % p = (big.SetBytes (bs.drop 1) ^ 3 + 7) % p := by
  obtain ⟨y, hy, hy2⟩ := (Decode_cases bs).2.2.2.2 hl hh
  refine ⟨y, hy, ?_⟩
  obtain ⟨y0, hy0⟩ := hsq
  rw [curve_mod_iff] at hy0 ⊢
  have hc := sqrt_cast (big.SetBytes (bs.drop 1))
  have hsqc : ((big.Exp (big.Exp (big.SetBytes (bs.drop 1)) 3 p + 7) ((p + 1) / 4) p : Int)
      : ZMod pNat) ^ 2 = (big.SetBytes (bs.drop 1) : ZMod pNat) ^ 3 + 7 := by
    rw [hc]
    rcases sqrt_field _ _ hy0 with h | h
    · rw [h, hy0]
    · rw [h, neg_sq, hy0]
  rcases hy2 with h | h
  · rw [h]
    exact hsqc
  · rw [h, p_eq]
    push_cast
    rw [ZMod.natCast_self, zero_sub, neg_sq]
    exact hsqc

theorem ok_of_toOption {bs : List Nat} {pt : Point}
    (h : (match Decode bs with | .ok q => some q | .error _ => none) = some pt) :
    Decode bs = .ok pt := by
  cases hD : Decode bs with
  | error e => rw [hD] at h; cases h
  | ok q =>
    rw [hD] at h
    simp only [Option.some.injEq] at h
    rw [h]

set_option maxRecDepth 100000 in
theorem Decode_zero :
    Decode (0x02 :: List.replicate 32 0) = .ok ⟨some 0,
      some 64828261740814840065360381756190772627110652128289340260788836867053167272156⟩ := by
  apply ok_of_toOption
  decide

/-- C14: `Decode(bs)` returns an error exactly when `bs` is neither a 65-byte
string with first byte `0x04` nor a 33-byte string with first byte `0x02` or
`0x03`; on a 65-byte string with first byte `0x04` it returns the point whose `X`
is bytes 1..32 and whose `Y` is bytes 33..64, read as big-endian integers. -/
theorem Decode_error_iff (bs : List Nat) :
    ((∃ e, Decode bs = .error e) ↔
      ¬ ((bs.length = 65 ∧ bs.head? = some 0x04) ∨
         (bs.length = 33 ∧ (bs.head? = some 0x02 ∨ bs.head? = some 0x03)))) ∧
    (bs.length = 65 → bs.head? = some 0x04 →
      Decode bs = .ok ⟨some (big.SetBytes ((bs.drop 1).take 32)),
        some (big.SetBytes (bs.drop 33))⟩) :=
  Decode_error_iff_aux bs

theorem Decode_error_iff_witness :
    ((0x04 :: List.replicate 64 1).length = 65 ∧
      (0x04 :: List.replicate 64 1).head? = some 0x04) ∧
    Decode (0x04 :: List.replicate 64 1) =
      .ok ⟨some (big.SetBytes (((0x04 :: List.replicate 64 1).drop 1).take 32)),
        some (big.SetBytes ((0x04 :: List.replicate 64 1).drop 33))⟩ :=
  ⟨⟨by decide, by decide⟩,
    (Decode_error_iff (0x04 :: List.replicate 64 1)).2 (by decide) (by decide)⟩

/-- C19 (amended): for every 33-byte input with first byte `0x02` or `0x03` whose
`X` (bytes 1..32) is the abscissa of a curve point, that is `X^3 + 7` is a square
modulo `p`, `Decode` returns a point `(X, Y)` with `Y^2 = X^3 + 7` modulo `p`. -/
theorem Decode_onCurve (bs : List Nat) (hl : bs.length = 33)
    (hh : bs.head? = some 0x02 ∨ bs.head? = some 0x03)
    (hsq : ∃ y0 : Int, y0 ^ 2 % p = (big.SetBytes (bs.drop 1) ^ 3 + 7) % p) :
    ∃ y, Decode bs = .ok ⟨some (big.SetBytes (bs.drop 1)), some y⟩ ∧
      y ^ 2 % p = (big.SetBytes (bs.drop 1) ^ 3 + 7) % p :=
  Decode_onCurve_aux bs hl hh hsq

set_option maxRecDepth 100000 in
theorem Decode_onCurve_witness :
    (GBytes.length = 33 ∧ GBytes.head? = some 0x02 ∧
      Gy ^ 2 % p = (big.SetBytes (GBytes.drop 1) ^ 3 + 7) % p) ∧
    ∃ y, Decode GBytes = .ok ⟨some (big.SetBytes (GBytes.drop 1)), some y⟩ ∧
      y ^ 2 % p = (big.SetBytes (GBytes.drop 1) ^ 3 + 7) % p :=
  ⟨⟨by decide, by decide, by decide⟩,
    Decode_onCurve GBytes (by decide) (Or.inl (by decide)) ⟨Gy, by decide⟩⟩

set_option maxRecDepth 100000 in
/-- C19 as stated fails: on the 33 bytes `0x02, 0, ..., 0` (`X = 0`, and 7 is not a
square modulo `p`) `Decode` returns a point `(0, Y)` with `Y^2 = -7` modulo `p`,
off the curve. -/
theorem Decode_onCurve_counterexample :
    ¬ (∀ bs : List Nat, bs.length = 33 → (bs.head? = some 0x02 ∨ bs.head? = some 0x03) →
        ∃ x y, Decode bs = .ok ⟨some x, some y⟩ ∧ y ^ 2 % p = (x ^ 3 + 7) % p) := by
  intro h
  obtain ⟨x, y, hxy, hc⟩ := h (0x02 :: List.replicate 32 0) (by decide) (Or.inl (by decide))
  rw [Decode_zero] at hxy
  simp only [Except.ok.injEq, Point.mk.injEq, Option.some.injEq] at hxy
  obtain ⟨hx, hy⟩ := hxy
  subst hx
  subst hy
  revert hc
  decide

end Refec

/-! ## Paillier: range errors, `gcd`, and when decryption returns -/

namespace Refec

theorem Encryption_error_iff (pub : PublicKey) (m : Int) (draws : List Int) :
    (∃ e, pub.Encryption m draws = some (.error e)) ↔ (m < 0 ∨ m ≥ pub.n) := by
  unfold PublicKey.Encryption
  constructor
  · rintro ⟨e, he⟩
    by_contra hcon
    rw [if_neg hcon] at he
    cases hd : drawUnit pub.n draws with
    | none => rw [hd] at he; cases he
    | some r =>
      rw [hd] at he
      simp only [] at he
      by_cases h0 : pub.n2 = 0
      · rw [if_pos h0] at he; cases he
      · rw [if_neg h0] at he
        simp only [Option.some.injEq] at he
        cases he
  · intro h
    rw [if_pos h]
    exact ⟨_, rfl⟩

theorem Decryption_error_of (pri : PrivateKey) (c : Int) (h : c ≤ 0 ∨ c ≥ pri.n2) :
    ∃ e, pri.Decryption c = some (.error e) := by
  unfold PrivateKey.Decryption
  rw [if_pos h]
  exact ⟨_, rfl⟩

theorem Decryption_no_error (pri : PrivateKey) (c : Int) (h0 : 0 < c) (h : c < pri.n2)
    (e : String) : pri.Decryption c ≠ some (.error e) := by
  unfold PrivateKey.Decryption
  rw [if_neg (by omega)]
  intro he
  split at he
  · simp only [Option.some.injEq] at he
    cases he
  · cases he

theorem Paillier_range_errors_aux (pub : PublicKey) (pri : PrivateKey)
    (hn2 : pri.n2 = pri.n * pri.n) :
    (∀ (m : Int) (draws : List Int),
      (∃ e, pub.Encryption m draws = some (.error e)) ↔ (m < 0 ∨ m ≥ pub.n)) ∧
    (∀ c : Int, (c ≤ 0 ∨ c ≥ pri.n * pri.n) → ∃ e, pri.Decryption c = some (.error e)) ∧
    (∀ c : Int, 0 < c → c < pri.n * pri.n → ∀ e, pri.Decryption c ≠ some (.error e)) := by
  refine ⟨fun m draws => Encryption_error_iff pub m draws, ?_, ?_⟩
  · intro c hc
    rw [← hn2] at hc
    exact Decryption_error_of pri c hc
  · intro c h0 hc e
    rw [← hn2] at hc
    exact Decryption_no_error pri c h0 hc e

theorem gcd_spec_aux (a b : Int) (ha : 0 ≤ a) (hb : 0 ≤ b) :
    gcd a b = (Int.gcd a b : Int) ∧ gcd b a = (Int.gcd a b : Int) ∧
      0 ≤ gcd a b ∧ gcd a b ∣ a ∧ gcd a b ∣ b ∧
      (∀ d : Int, d ∣ a → d ∣ b → d ∣ gcd a b) ∧ gcd a 0 = a := by
  have h1 := gcd_eq a b ha hb
  have h2 := gcd_eq b a hb ha
  rw [Int.gcd_comm] at h2
  have h3 := gcd_eq a 0 ha le_rfl
  rw [h1]
  refine ⟨rfl, h2, Int.natCast_nonneg _, Int.gcd_dvd_left, Int.gcd_dvd_right, ?_, ?_⟩
  · intro d hda hdb
    exact Int.dvd_gcd hda hdb
  · rw [h3, Int.gcd_zero_right, Int.natCast_natAbs, abs_of_nonneg ha]

theorem Decryption_returns_aux (P Q : Nat) (hP : P.Prime) (hQ : Q.Prime) (hPQ : P ≠ Q) (g : Int)
    (pub : PublicKey) (pri : PrivateKey) (hkey : keysFrom P Q g = some (pub, pri))
    (c : Int) (hc0 : 0 < c) (hc : c < pri.n * pri.n) (hcop : Int.gcd c pri.n = 1) :
    big.Exp c pri.lam pri.n2 % pri.n = 1 ∧
    ∃ l, L (big.Exp c pri.lam pri.n2) pri.n = some (some l) ∧
      pri.Decryption c = some (.ok ((l * pri.mu) % pri.n)) ∧
      0 ≤ (l * pri.mu) % pri.n ∧ (l * pri.mu) % pri.n < pri.n := by
  obtain ⟨a, mu, hg, hLa, ha, hmu, hpub, hpri⟩ := keysFrom_spec P Q g pub pri hkey
  have hP2 := hP.two_le
  have hQ2 := hQ.two_le
  have hN4 : (4 : Int) ≤ (P : Int) * Q := by
    have : 4 ≤ P * Q := by nlinarith
    exact_mod_cast this
  have hN0 : (P : Int) * Q ≠ 0 := by omega
  have hN20 : (P : Int) * Q * ((P : Int) * Q) ≠ 0 := mul_ne_zero hN0 hN0
  obtain ⟨hlam0, hlamP, hlamQ⟩ := lcm_spec ((P : Int) - 1) ((Q : Int) - 1)
    (by have : (2 : Int) ≤ P := by exact_mod_cast hP2
        omega)
    (by have : (2 : Int) ≤ Q := by exact_mod_cast hQ2
        omega)
  obtain ⟨lam, hlam⟩ := Int.eq_ofNat_of_zero_le hlam0.le
  rw [hlam] at hlam0 hlamP hlamQ
  have hlamP' : (P - 1) ∣ lam := by
    have h1 : ((P : Int) - 1) = ((P - 1 : Nat) : Int) := by
      rw [Nat.cast_sub (by omega)]
      rfl
    rw [h1] at hlamP
    exact_mod_cast hlamP
  have hlamQ' : (Q - 1) ∣ lam := by
    have h1 : ((Q : Int) - 1) = ((Q - 1 : Nat) : Int) := by
      rw [Nat.cast_sub (by omega)]
      rfl
    rw [h1] at hlamQ
    exact_mod_cast hlamQ
  subst hpri
  simp only at hc hcop ⊢
  rw [hlam]
  have hpow := pow_modEq_one_mul P Q hP hQ hPQ c hcop lam hlamP' hlamQ'
  have hExp : big.Exp c (lam : Int) ((P : Int) * Q * ((P : Int) * Q)) ≡ 1 [ZMOD (P : Int) * Q] := by
    rw [big.Exp_eq _ _ _ (Int.natCast_nonneg _) hN20, Int.toNat_natCast]
    exact ((Int.mod_modEq _ _).of_mul_right _).trans hpow
  have hmod1 : big.Exp c (lam : Int) ((P : Int) * Q * ((P : Int) * Q)) % ((P : Int) * Q) = 1 := by
    have h1 : big.Exp c (lam : Int) ((P : Int) * Q * ((P : Int) * Q)) % ((P : Int) * Q)
        = 1 % ((P : Int) * Q) := hExp
    rw [h1]
    exact Int.emod_eq_of_lt (by norm_num) (by omega)
  have hL0 : (big.Exp c (lam : Int) ((P : Int) * Q * ((P : Int) * Q)) - 1) % ((P : Int) * Q) = 0 := by
    rw [Int.sub_emod, hmod1]
    have : (1 : Int) % ((P : Int) * Q) = 1 := Int.emod_eq_of_lt (by norm_num) (by omega)
    rw [this]
    simp
  have hL : L (big.Exp c (lam : Int) ((P : Int) * Q * ((P : Int) * Q))) ((P : Int) * Q)
      = some (some ((big.Exp c (lam : Int) ((P : Int) * Q * ((P : Int) * Q)) - 1) / ((P : Int) * Q))) := by
    unfold L
    rw [if_neg hN0, if_neg (by rw [hL0]; simp)]
  refine ⟨hmod1, _, hL, ?_, Int.emod_nonneg _ hN0, Int.emod_lt_of_pos _ (by omega)⟩
  unfold PrivateKey.Decryption
  simp only
  rw [if_neg (by omega), hL]

theorem keysFrom_35 : keysFrom ((5 : Nat) : Int) ((7 : Nat) : Int) 36 = some (pub35, pri35) :=
  keysFrom_eval 5 7 36 12 421 12 3 (by decide) (by decide) (by decide)
    (by rw [lcm_eval _ _ (by decide) (by decide) 2 (by decide)]; decide)
    (by decide) (by decide) (by decide) (by decide)
    (ModInverse_eq_of 12 35 3 (by decide) (by decide) (by decide) (by decide))

theorem Decryption_35_five :
    L (big.Exp 5 pri35.lam pri35.n2) pri35.n = some none ∧ pri35.Decryption 5 = none := by
  have hL : L (big.Exp 5 pri35.lam pri35.n2) pri35.n = some none := by decide
  refine ⟨hL, ?_⟩
  unfold PrivateKey.Decryption
  rw [if_neg (by decide), hL]

/-- C15: `Encryption(m)` returns an error exactly when `m < 0` or `m >= N`, whatever
the draws; for a private key with `n2 = N * N`, `Decryption(c)` returns an error
whenever `c <= 0` or `c >= N^2`, and returns no error when `0 < c < N^2`. -/
theorem Paillier_range_errors (pub : PublicKey) (pri : PrivateKey)
    (hn2 : pri.n2 = pri.n * pri.n) :
    (∀ (m : Int) (draws : List Int),
      (∃ e, pub.Encryption m draws = some (.error e)) ↔ (m < 0 ∨ m ≥ pub.n)) ∧
    (∀ c : Int, (c ≤ 0 ∨ c ≥ pri.n * pri.n) → ∃ e, pri.Decryption c = some (.error e)) ∧
    (∀ c : Int, 0 < c → c < pri.n * pri.n → ∀ e, pri.Decryption c ≠ some (.error e)) :=
  Paillier_range_errors_aux pub pri hn2

theorem Paillier_range_errors_witness :
    priSmall.n2 = priSmall.n * priSmall.n ∧
    (∀ (m : Int) (draws : List Int),
      (∃ e, pubSmall.Encryption m draws = some (.error e)) ↔ (m < 0 ∨ m ≥ pubSmall.n)) ∧
    (∀ c : Int, (c ≤ 0 ∨ c ≥ priSmall.n * priSmall.n) →
      ∃ e, priSmall.Decryption c = some (.error e)) ∧
    (∀ c : Int, 0 < c → c < priSmall.n * priSmall.n →
      ∀ e, priSmall.Decryption c ≠ some (.error e)) :=
  ⟨by decide, Paillier_range_errors pubSmall priSmall (by decide)⟩

/-- C16: for non-negative `a` and `b`, in either argument order, `gcd` (a total
function: its loop is defined by recursion on `|b|`) returns the greatest common
divisor, a non-negative common divisor that every common divisor divides, and
`gcd(a, 0) = a`; `gcd(1071, 1029) = 21`, `gcd(221, 153) = 17`, `gcd(144, 89) = 1`. -/
theorem gcd_spec :
    (∀ a b : Int, 0 ≤ a → 0 ≤ b →
      gcd a b = (Int.gcd a b : Int) ∧ gcd b a = (Int.gcd a b : Int) ∧
      0 ≤ gcd a b ∧ gcd a b ∣ a ∧ gcd a b ∣ b ∧
      (∀ d : Int, d ∣ a → d ∣ b → d ∣ gcd a b) ∧ gcd a 0 = a) ∧
    gcd 1071 1029 = 21 ∧ gcd 221 153 = 17 ∧ gcd 144 89 = 1 :=
  ⟨gcd_spec_aux,
    gcd_eval 1071 1029 (by decide) (by decide) 21 (by decide),
    gcd_eval 221 153 (by decide) (by decide) 17 (by decide),
    gcd_eval 144 89 (by decide) (by decide) 1 (by decide)⟩

theorem gcd_spec_witness :
    ((0 : Int) ≤ 1029 ∧ (0 : Int) ≤ 1071) ∧
    (gcd 1029 1071 = (Int.gcd 1029 1071 : Int) ∧ gcd 1071 1029 = (Int.gcd 1029 1071 : Int) ∧
      0 ≤ gcd 1029 1071 ∧ gcd 1029 1071 ∣ 1029 ∧ gcd 1029 1071 ∣ 1071 ∧
      (∀ d : Int, d ∣ 1029 → d ∣ 1071 → d ∣ gcd 1029 1071) ∧ gcd 1029 0 = 1029) :=
  ⟨⟨by decide, by decide⟩, gcd_spec.1 1029 1071 (by decide) (by decide)⟩

/-- C20 (amended): for a key pair built from distinct primes `P`, `Q` and every
ciphertext `c` with `0 < c < N^2` that is relatively prime to `N`, `c^lam mod N2`
is 1 modulo `N`, `L` is defined on it, and `Decryption(c)` returns, with no error
and no abort, `L(c^lam mod N2) * mu mod N`, a value in `[0, N)`. -/
theorem Decryption_returns (P Q : Nat) (hP : P.Prime) (hQ : Q.Prime) (hPQ : P ≠ Q) (g : Int)
    (pub : PublicKey) (pri : PrivateKey) (hkey : keysFrom P Q g = some (pub, pri))
    (c : Int) (hc0 : 0 < c) (hc : c < pri.n * pri.n) (hcop : Int.gcd c pri.n = 1) :
    big.Exp c pri.lam pri.n2 % pri.n = 1 ∧
    ∃ l, L (big.Exp c pri.lam pri.n2) pri.n = some (some l) ∧
      pri.Decryption c = some (.ok ((l * pri.mu) % pri.n)) ∧
      0 ≤ (l * pri.mu) % pri.n ∧ (l * pri.mu) % pri.n < pri.n :=
  Decryption_returns_aux P Q hP hQ hPQ g pub pri hkey c hc0 hc hcop

theorem Decryption_returns_witness :
    (Nat.Prime 5 ∧ Nat.Prime 7 ∧
      keysFrom ((5 : Nat) : Int) ((7 : Nat) : Int) 36 = some (pub35, pri35) ∧
      (0 : Int) < 2 ∧ (2 : Int) < pri35.n * pri35.n ∧ Int.gcd 2 pri35.n = 1) ∧
    (big.Exp 2 pri35.lam pri35.n2 % pri35.n = 1 ∧
    ∃ l, L (big.Exp 2 pri35.lam pri35.n2) pri35.n = some (some l) ∧
      pri35.Decryption 2 = some (.ok ((l * pri35.mu) % pri35.n)) ∧
      0 ≤ (l * pri35.mu) % pri35.n ∧ (l * pri35.mu) % pri35.n < pri35.n) :=
  ⟨⟨by norm_num, by norm_num, keysFrom_35, by decide, by decide, by decide⟩,
    Decryption_returns 5 7 (by norm_num) (by norm_num) (by decide) 36 pub35 pri35
      keysFrom_35 2 (by decide) (by decide) (by decide)⟩

/-- C20 as stated fails: for the key pair built from the primes 5 and 7 (`N = 35`,
`lam = 12`) and the ciphertext `c = 5`, in `(0, N^2)`, `c^lam mod N2 = 575` is not 1
modulo `N`, `L` returns nil and `Decryption` dereferences it. -/
theorem Decryption_returns_counterexample :
    keysFrom ((5 : Nat) : Int) ((7 : Nat) : Int) 36 = some (pub35, pri35) ∧
      (0 : Int) < 5 ∧ (5 : Int) < pri35.n * pri35.n ∧
      big.Exp 5 pri35.lam pri35.n2 = 575 ∧
      L (big.Exp 5 pri35.lam pri35.n2) pri35.n = some none ∧
      pri35.Decryption 5 = none :=
  ⟨keysFrom_35, by decide, by decide, by decide, Decryption_35_five.1, Decryption_35_five.2⟩

end Refec

/-! ## The Miller-Rabin test -/

namespace Refec

theorem roundsLoop_step (n d : Int) (s : Nat) (rnd : Nat → Int) (cnt i : Nat) :
    roundsLoop n d s rnd (cnt + 1) i
      = (roundPasses n d s (rnd i + 1) && roundsLoop n d s rnd cnt (i + 1)) := by
  rw [roundsLoop]
  unfold roundPasses
  by_cases h1 : big.Exp (rnd i + 1) d n = 1
  · simp [h1]
  · rw [if_neg h1]
    by_cases h2 : witnessLoop n (n - 1) s (big.Exp (rnd i + 1) d n) = true
    · simp [h1, h2]
    · simp [h1, h2]

theorem roundsLoop_iff (n d : Int) (s : Nat) (rnd : Nat → Int) :
    ∀ (cnt i : Nat), roundsLoop n d s rnd cnt i = true ↔
      ∀ j, j < cnt → roundPasses n d s (rnd (i + j) + 1) = true := by
  intro cnt
  induction cnt with
  | zero =>
    intro i
    simp [roundsLoop]
  | succ c ih =>
    intro i
    rw [roundsLoop_step, Bool.and_eq_true, ih (i + 1)]
    constructor
    · rintro ⟨h0, hrest⟩ j hj
      cases j with
      | zero => simpa using h0
      | succ j =>
        have := hrest j (by omega)
        have e : i + 1 + j = i + (j + 1) := by omega
        rw [e] at this
        exact this
    · intro h
      refine ⟨by simpa using h 0 (by omega), fun j hj => ?_⟩
      have := h (j + 1) (by omega)
      have e : i + 1 + j = i + (j + 1) := by omega
      rw [e]
      exact this

theorem Bit_zero_iff (d : Int) (hd : 0 ≤ d) : big.Bit d 0 = 0 ↔ d % 2 = 0 := by
  have h := Bit_zero_eq d hd
  constructor
  · intro h0
    rw [h0] at h
    simpa using h.symm
  · intro h0
    rw [h0] at h
    exact_mod_cast h

theorem splitLoop_spec : ∀ (fuel : Nat) (d : Int) (s : Nat), 0 < d → d < 2 ^ fuel →
    ∃ d' s', splitLoop fuel d s = some (d', s') ∧ s ≤ s' ∧ d = 2 ^ (s' - s) * d' ∧
      0 < d' ∧ d' % 2 = 1 := by
  intro fuel
  induction fuel with
  | zero =>
    intro d s h0 h1
    simp at h1
    omega
  | succ f ih =>
    intro d s h0 h1
    unfold splitLoop
    by_cases hb : big.Bit d 0 = 0
    · rw [if_pos hb]
      have hmod := (Bit_zero_iff d h0.le).mp hb
      have hsh : d >>> (1 : Nat) = d / 2 := by
        have := Int.shiftRight_eq_div_pow d 1
        simpa using this
      rw [hsh]
      rw [pow_succ] at h1
      obtain ⟨d', s', hs, hle, hd, hd0, hodd⟩ := ih (d / 2) (s + 1) (by omega) (by omega)
      refine ⟨d', s', hs, by omega, ?_, hd0, hodd⟩
      have e : s' - s = (s' - (s + 1)) + 1 := by omega
      rw [e, pow_succ, mul_assoc, mul_comm 2 d', ← mul_assoc, ← hd]
      omega
    · rw [if_neg hb]
      refine ⟨d, s, rfl, le_rfl, by simp, h0, ?_⟩
      have hmod : d % 2 ≠ 0 := fun h => hb ((Bit_zero_iff d h0.le).mpr h)
      omega

theorem isProbablyPrime_odd (n : Int) (hn : 2 < n) (hodd : n % 2 = 1) :
    ∃ d s, 0 < d ∧ d % 2 = 1 ∧ n - 1 = 2 ^ s * d ∧
      ∀ rnd, isProbablyPrime n rnd = some (roundsLoop n d s rnd 512 0) := by
  have hlt : n - 1 < 2 ^ (n - 1).natAbs := by
    obtain ⟨m, hm⟩ := Int.eq_ofNat_of_zero_le (by omega : 0 ≤ n - 1)
    rw [hm]
    simp only [Int.natAbs_ofNat]
    exact_mod_cast Nat.lt_two_pow m
  obtain ⟨d, s, hsplit, -, hd, hd0, hdodd⟩ := splitLoop_spec _ (n - 1) 0 (by omega) hlt
  refine ⟨d, s, hd0, hdodd, by simpa using hd, fun rnd => ?_⟩
  unfold isProbablyPrime
  have hbit : ¬ big.Bit n 0 = 0 := by
    rw [Bit_zero_iff n (by omega)]
    omega
  rw [if_neg (by omega), if_neg (by omega), if_neg hbit, hsplit]

theorem witnessLoop_of_pow (N : Nat) (hN : N.Prime) :
    ∀ (cnt : Nat) (t : Int), 0 ≤ t → t < N → ((t : ZMod N)) ^ (2 ^ cnt) = 1 →
      (t : ZMod N) ≠ 1 → witnessLoop N ((N : Int) - 1) cnt t = true := by
  haveI := Fact.mk hN
  have hN0 : N ≠ 0 := hN.ne_zero
  have hNpos : (0 : Int) < N := by exact_mod_cast hN.pos
  intro cnt
  induction cnt with
  | zero =>
    intro t _ _ h1 h2
    simp at h1
    exact absurd h1 h2
  | succ c ih =>
    intro t ht0 htN hpow hne
    unfold witnessLoop
    by_cases hm : t = (N : Int) - 1
    · rw [if_pos hm]
    · rw [if_neg hm]
      have h2 : (2 : Int) = ((2 : Nat) : Int) := rfl
      have hcast : ((big.Exp t 2 N : Int) : ZMod N) = (t : ZMod N) ^ 2 := by
        rw [h2, big.Exp_cast N hN0]
      apply ih _ (big.Exp_nonneg _ _ _ (by norm_num) hNpos.ne')
        (big.Exp_lt _ _ _ (by norm_num) hNpos)
      · rw [hcast, ← pow_mul, ← pow_succ']
        exact hpow
      · rw [hcast]
        intro hsq
        rcases sq_eq_one_iff.mp hsq with h | h
        · exact hne h
        · apply hm
          have h3 : (((t + 1 : Int)) : ZMod N) = 0 := by
            push_cast
            rw [h]
            ring
          rw [ZMod.intCast_zmod_eq_zero_iff_dvd] at h3
          have h4 := Int.le_of_dvd (by omega) h3
          omega

theorem roundPasses_prime (N : Nat) (hN : N.Prime) (d : Int) (s : Nat) (hd : 0 < d)
    (hsplit : (N : Int) - 1 = 2 ^ s * d) (a : Int) (ha1 : 1 ≤ a) (ha : a ≤ (N : Int) - 1) :
    roundPasses N d s a = true := by
  haveI := Fact.mk hN
  have hN0 : N ≠ 0 := hN.ne_zero
  have hN2 := hN.two_le
  have hNpos : (0 : Int) < N := by exact_mod_cast hN.pos
  obtain ⟨dn, rfl⟩ := Int.eq_ofNat_of_zero_le hd.le
  have hsplitN : N - 1 = 2 ^ s * dn := by
    have h1 : ((N - 1 : Nat) : Int) = (N : Int) - 1 := by
      rw [Nat.cast_sub (by omega)]
      rfl
    have h2 : ((N - 1 : Nat) : Int) = ((2 ^ s * dn : Nat) : Int) := by
      rw [h1, hsplit]
      push_cast
      rfl
    exact_mod_cast h2
  have hcast : ((big.Exp a (dn : Int) N : Int) : ZMod N) = (a : ZMod N) ^ dn :=
    big.Exp_cast N hN0 a dn
  have ha0 : (a : ZMod N) ≠ 0 := by
    rw [Ne, ZMod.intCast_zmod_eq_zero_iff_dvd]
    intro hdvd
    have := Int.le_of_dvd (by omega) hdvd
    omega
  have hpow : ((big.Exp a (dn : Int) N : Int) : ZMod N) ^ (2 ^ s) = 1 := by
    rw [hcast, ← pow_mul, mul_comm, ← hsplitN]
    exact ZMod.pow_card_sub_one_eq_one ha0
  have ht0 := big.Exp_nonneg a (dn : Int) N (Int.natCast_nonneg _) hNpos.ne'
  have htN := big.Exp_lt a (dn : Int) N (Int.natCast_nonneg _) hNpos
  unfold roundPasses
  by_cases ht : big.Exp a (dn : Int) N = 1
  · simp [ht]
  · have hne : ((big.Exp a (dn : Int) N : Int) : ZMod N) ≠ 1 := by
      intro h1
      apply ht
      have h2 : ((big.Exp a (dn : Int) N : Int) : ZMod N) = ((1 : Int) : ZMod N) := by
        rw [h1]
        simp
      rw [ZMod.intCast_eq_intCast_iff'] at h2
      rw [Int.emod_eq_of_lt ht0 htN, Int.emod_eq_of_lt (by norm_num) (by omega)] at h2
      exact h2
    rw [witnessLoop_of_pow N hN s _ ht0 htN hpow hne]
    simp

theorem isProbablyPrime_prime_aux (N : Nat) (hN : N.Prime) (rnd : Nat → Int)
    (hrnd : ∀ i, 0 ≤ rnd i ∧ rnd i < (N : Int) - 1) :
    isProbablyPrime N rnd = some true := by
  have hN2 := hN.two_le
  by_cases h2 : N = 2
  · subst h2
    unfold isProbablyPrime
    rw [if_neg (by norm_num), if_pos (by norm_num)]
  · have hodd : N % 2 = 1 := by
      rcases hN.eq_two_or_odd with h | h
      · exact absurd h h2
      · exact h
    have hoddZ : (N : Int) % 2 = 1 := by exact_mod_cast hodd
    obtain ⟨d, s, hd0, -, hsplit, hval⟩ := isProbablyPrime_odd (N : Int) (by omega) hoddZ
    rw [hval rnd]
    refine congrArg some ?_
    rw [roundsLoop_iff]
    intro j _
    have := hrnd (0 + j)
    exact roundPasses_prime N hN d s hd0 hsplit _ (by omega) (by omega)

theorem witnessLoop_iff (n m : Int) (hn : n ≠ 0) :
    ∀ (cnt : Nat) (x : Int), witnessLoop n m cnt (x % n) = true ↔
      ∃ r, r < cnt ∧ x ^ (2 ^ r) % n = m := by
  intro cnt
  induction cnt with
  | zero =>
    intro x
    simp [witnessLoop]
  | succ c ih =>
    intro x
    unfold witnessLoop
    have hsq : big.Exp (x % n) 2 n = (x ^ 2) % n := by
      rw [big.Exp_eq _ _ _ (by norm_num) hn]
      have h2 : (2 : Int).toNat = 2 := rfl
      rw [h2]
      exact (Int.mod_modEq x n).pow 2
    by_cases hx : x % n = m
    · rw [if_pos hx]
      simp only [true_iff]
      exact ⟨0, by omega, by simpa using hx⟩
    · rw [if_neg hx, hsq, ih (x ^ 2)]
      constructor
      · rintro ⟨r, hr, hpow⟩
        refine ⟨r + 1, by omega, ?_⟩
        rw [pow_succ, mul_comm, pow_mul]
        exact hpow
      · rintro ⟨r, hr, hpow⟩
        cases r with
        | zero =>
          exfalso
          apply hx
          simpa using hpow
        | succ r =>
          refine ⟨r, by omega, ?_⟩
          rw [pow_succ, mul_comm, pow_mul] at hpow
          exact hpow

theorem roundPasses_false_iff (n : Int) (hn : n ≠ 0) (d s : Nat) (a : Int) :
    roundPasses n (d : Int) s a = false ↔ failsRound n d s a := by
  unfold roundPasses failsRound
  have hExp : big.Exp a (d : Int) n = a ^ d % n := by
    rw [big.Exp_eq _ _ _ (Int.natCast_nonneg d) hn, Int.toNat_natCast]
  rw [hExp, Bool.or_eq_false_iff, decide_eq_false_iff_not, ← Bool.not_eq_true,
    witnessLoop_iff n (n - 1) hn s (a ^ d)]
  constructor
  · rintro ⟨h1, h2⟩
    refine ⟨h1, fun r hr hpow => h2 ⟨r, hr, ?_⟩⟩
    rw [← pow_mul, mul_comm]
    exact hpow
  · rintro ⟨h1, h2⟩
    refine ⟨h1, ?_⟩
    rintro ⟨r, hr, hpow⟩
    apply h2 r hr
    rw [← pow_mul, mul_comm] at hpow
    exact hpow

theorem isProbablyPrime_of_split (n d : Int) (s : Nat) (hn : 2 < n) (hodd : n % 2 = 1)
    (hsplit : splitLoop (n - 1).natAbs (n - 1) 0 = some (d, s)) (rnd : Nat → Int) :
    isProbablyPrime n rnd = some (roundsLoop n d s rnd 512 0) := by
  unfold isProbablyPrime
  have hbit : ¬ big.Bit n 0 = 0 := by
    rw [Bit_zero_iff n (by omega)]
    omega
  rw [if_neg (by omega), if_neg (by omega), if_neg hbit, hsplit]

theorem isProbablyPrime_false_iff (n : Int) (d s : Nat) (hn : 2 < n) (hodd : n % 2 = 1)
    (hsplit : splitLoop (n - 1).natAbs (n - 1) 0 = some ((d : Int), s)) (rnd : Nat → Int) :
    isProbablyPrime n rnd = some false ↔
      ∃ i, i < 512 ∧ failsRound n d s (rnd i + 1) := by
  rw [isProbablyPrime_of_split n d s hn hodd hsplit rnd, Option.some.injEq,
    ← Bool.not_eq_true, roundsLoop_iff]
  simp only [Nat.zero_add, not_forall, Bool.not_eq_true, exists_prop]
  constructor
  · rintro ⟨i, hi, hf⟩
    exact ⟨i, hi, (roundPasses_false_iff n (by omega) d s _).mp hf⟩
  · rintro ⟨i, hi, hf⟩
    exact ⟨i, hi, (roundPasses_false_iff n (by omega) d s _).mpr hf⟩

theorem isProbablyPrime_small (n : Int) (rnd : Nat → Int) (hn : n ≤ 1) :
    isProbablyPrime n rnd = some false := by
  unfold isProbablyPrime
  rw [if_pos hn]

theorem isProbablyPrime_even (n : Int) (rnd : Nat → Int) (hn : 2 < n) (heven : n % 2 = 0) :
    isProbablyPrime n rnd = some false := by
  unfold isProbablyPrime
  rw [if_neg (by omega), if_neg (by omega), if_pos ((Bit_zero_iff n (by omega)).mpr heven)]

theorem roundPasses_one (n d : Int) (s : Nat) (hn : 1 < n) (hd : 0 ≤ d) :
    roundPasses n d s 1 = true := by
  unfold roundPasses
  have h : big.Exp 1 d n = 1 := by
    rw [big.Exp_eq _ _ _ hd (by omega), one_pow]
    exact Int.emod_eq_of_lt (by norm_num) hn
  simp [h]

set_option maxRecDepth 100000 in
theorem split_252601 : splitLoop (252601 - 1 : Int).natAbs (252601 - 1) 0 = some (31575, 3) := by
  decide

set_option maxRecDepth 100000 in
theorem split_3057601 : splitLoop (3057601 - 1 : Int).natAbs (3057601 - 1) 0 = some (47775, 6) := by
  decide

set_option maxRecDepth 100000 in
theorem split_95721889 :
    splitLoop (95721889 - 1 : Int).natAbs (95721889 - 1) 0 = some (2991309, 5) := by
  decide

theorem isProbablyPrime_all_ones :
    isProbablyPrime 252601 (fun _ => 0) = some true := by
  rw [isProbablyPrime_of_split 252601 31575 3 (by norm_num) (by norm_num) split_252601]
  refine congrArg some ?_
  rw [roundsLoop_iff]
  intro j _
  exact roundPasses_one _ _ _ (by norm_num) (by norm_num)

set_option maxRecDepth 100000 in
theorem roundPasses_three :
    roundPasses 252601 ((31575 : Nat) : Int) 3 3 = false ∧
      roundPasses 3057601 ((47775 : Nat) : Int) 6 3 = false ∧
      roundPasses 95721889 ((2991309 : Nat) : Int) 5 3 = false := by
  decide

theorem failsRound_three :
    failsRound 252601 31575 3 3 ∧ failsRound 3057601 47775 6 3 ∧
      failsRound 95721889 2991309 5 3 :=
  ⟨(roundPasses_false_iff 252601 (by norm_num) 31575 3 3).mp roundPasses_three.1,
    (roundPasses_false_iff 3057601 (by norm_num) 47775 6 3).mp roundPasses_three.2.1,
    (roundPasses_false_iff 95721889 (by norm_num) 2991309 5 3).mp roundPasses_three.2.2⟩

/-- C17: `isProbablyPrime` never rejects a prime: for every prime `N` and every
sequence of draws `rnd i` in `[0, N - 2]` (witnesses `a = rnd i + 1` in
`[1, N - 1]`), `isProbablyPrime(N)` returns true; 104717, 577757, 101089 and
280001 are primes. -/
theorem isProbablyPrime_prime :
    (∀ (N : Nat), N.Prime → ∀ rnd : Nat → Int, (∀ i, 0 ≤ rnd i ∧ rnd i < (N : Int) - 1) →
      isProbablyPrime N rnd = some true) ∧
    Nat.Prime 104717 ∧ Nat.Prime 577757 ∧ Nat.Prime 101089 ∧ Nat.Prime 280001 :=
  ⟨isProbablyPrime_prime_aux, by norm_num, by norm_num, by norm_num, by norm_num⟩

theorem isProbablyPrime_prime_witness :
    (Nat.Prime 104717 ∧
      ∀ i : Nat, (0 : Int) ≤ (fun _ : Nat => (7 : Int)) i ∧
        (fun _ : Nat => (7 : Int)) i < ((104717 : Nat) : Int) - 1) ∧
    isProbablyPrime ((104717 : Nat) : Int) (fun _ => 7) = some true :=
  ⟨⟨by norm_num, fun _ => ⟨by norm_num, by norm_num⟩⟩,
    isProbablyPrime_prime.1 104717 (by norm_num) (fun _ => 7)
      (fun _ => ⟨by norm_num, by norm_num⟩)⟩

/-- C18 (amended): for each of the composites 252601, 3057601 and 95721889
(`n - 1 = 2^s * d` with `(d, s)` = (31575, 3), (47775, 6), (2991309, 5)),
`isProbablyPrime` returns false exactly for the sequences of draws in which one
of the 512 witnesses `a = rnd i + 1` fails its round: `a^d mod n` is not 1 and no
`a^(2^r * d) mod n` with `r < s` is `n - 1`. The witness `a = 3` fails for all
three. `isProbablyPrime` returns false for every `n <= 1` and every even `n > 2`
whatever the draws. -/
theorem isProbablyPrime_composite :
    (∀ rnd : Nat → Int,
      (isProbablyPrime 252601 rnd = some false ↔
        ∃ i, i < 512 ∧ (rnd i + 1) ^ 31575 % 252601 ≠ 1 ∧
          ∀ r, r < 3 → (rnd i + 1) ^ (2 ^ r * 31575) % 252601 ≠ 252601 - 1) ∧
      (isProbablyPrime 3057601 rnd = some false ↔
        ∃ i, i < 512 ∧ (rnd i + 1) ^ 47775 % 3057601 ≠ 1 ∧
          ∀ r, r < 6 → (rnd i + 1) ^ (2 ^ r * 47775) % 3057601 ≠ 3057601 - 1) ∧
      (isProbablyPrime 95721889 rnd = some false ↔
        ∃ i, i < 512 ∧ (rnd i + 1) ^ 2991309 % 95721889 ≠ 1 ∧
          ∀ r, r < 5 → (rnd i + 1) ^ (2 ^ r * 2991309) % 95721889 ≠ 95721889 - 1)) ∧
    ((252601 : Int) - 1 = 2 ^ 3 * 31575 ∧ (3057601 : Int) - 1 = 2 ^ 6 * 47775 ∧
      (95721889 : Int) - 1 = 2 ^ 5 * 2991309) ∧
    (failsRound 252601 31575 3 3 ∧ failsRound 3057601 47775 6 3 ∧
      failsRound 95721889 2991309 5 3) ∧
    (∀ (n : Int) (rnd : Nat → Int), n ≤ 1 → isProbablyPrime n rnd = some false) ∧
    (∀ (n : Int) (rnd : Nat → Int), 2 < n → n % 2 = 0 → isProbablyPrime n rnd = some false) :=
  ⟨fun rnd =>
    ⟨isProbablyPrime_false_iff 252601 31575 3 (by norm_num) (by norm_num) split_252601 rnd,
      isProbablyPrime_false_iff 3057601 47775 6 (by norm_num) (by norm_num) split_3057601 rnd,
      isProbablyPrime_false_iff 95721889 2991309 5 (by norm_num) (by norm_num)
        split_95721889 rnd⟩,
    ⟨by norm_num, by norm_num, by norm_num⟩,
    failsRound_three,
    fun n rnd hn => isProbablyPrime_small n rnd hn,
    fun n rnd hn heven => isProbablyPrime_even n rnd hn heven⟩

theorem isProbablyPrime_composite_witness :
    isProbablyPrime 252601 (fun _ => 2) = some false ∧
      ((4 : Int) % 2 = 0 ∧ isProbablyPrime 4 (fun _ => 0) = some false) :=
  ⟨(isProbablyPrime_composite.1 (fun _ => 2)).1.mpr
      ⟨0, by norm_num, isProbablyPrime_composite.2.2.1.1⟩,
    by norm_num, isProbablyPrime_composite.2.2.2.2 4 (fun _ => 0) (by norm_num) (by norm_num)⟩

/-- C18 as stated fails: when every draw of `Rnd(nm1)` is 0, every witness is
`a = 1`, in `[1, n - 1]`, every round passes and `isProbablyPrime(252601)` returns
true although `252601 = 41 * 61 * 101`. -/
theorem isProbablyPrime_composite_counterexample :
    (252601 : Int) = 41 * 61 * 101 ∧
    (∀ i : Nat, (0 : Int) ≤ (fun _ : Nat => (0 : Int)) i ∧
      (fun _ : Nat => (0 : Int)) i < 252601 - 1) ∧
    isProbablyPrime 252601 (fun _ => 0) = some true :=
  ⟨by norm_num, fun _ => ⟨by norm_num, by norm_num⟩, isProbablyPrime_all_ones⟩

end Refec

/-! ## Addition with the point at infinity -/

namespace Refec

theorem Add_identity_aux (x y : Nat) :
    Add ⟨none, none⟩ ⟨some (x : Int), some (y : Int)⟩ = some ⟨some (x : Int), some (y : Int)⟩ ∧
      Add ⟨some (x : Int), some (y : Int)⟩ ⟨none, none⟩
        = some ⟨some (x : Int), some (y : Int)⟩ :=
  ⟨Add_inf_left ⟨none, none⟩ x y rfl (Int.natCast_nonneg x) (Int.natCast_nonneg y),
    Add_inf_right ⟨none, none⟩ x y rfl (Int.natCast_nonneg x) (Int.natCast_nonneg y)⟩

/-- C21 (code_bug): `Add(identity, Q)` and `Add(Q, identity)` return a copy of `Q`
for every `Q` with non-negative coordinates, but `Add(identity, identity)` returns
nil, not a `Point` for which `Infinite()` is true: `Add` returns `Q.Clone()`, and
`Clone` returns nil for the point at infinity. The nil result makes the next
`Add` of `Mul(2, identity)` dereference a nil pointer. -/
theorem Add_identity_identity_nil :
    (∀ x y : Nat,
      Add ⟨none, none⟩ ⟨some (x : Int), some (y : Int)⟩
          = some ⟨some (x : Int), some (y : Int)⟩ ∧
        Add ⟨some (x : Int), some (y : Int)⟩ ⟨none, none⟩
          = some ⟨some (x : Int), some (y : Int)⟩) ∧
    Point.Infinite ⟨none, none⟩ = true ∧
    Point.Clone ⟨none, none⟩ = none ∧
    Add ⟨none, none⟩ ⟨none, none⟩ = none ∧
    Mul 2 (some ⟨none, none⟩) = none :=
  ⟨Add_identity_aux, by decide, by decide, by decide, by decide⟩

end Refec
